import Mathlib

/-!
# A verification model of the `snapperable` resumable-processing engine

This development gives a shallow embedding, in Lean, of the core components of
the `snapperable` Python library and proves properties of them:

* `SnapshotTracker._make_hashable` and the progress tracker
  (`src/snapperable/snapshot_tracker.py`) — modelled by `canonKey`,
  `initializeTracker`, `getRemaining`, `markProcessed`;
* the orchestrator loop and `load` (`src/snapperable/snapper.py`) — modelled by
  `startLoop`, `snapperLoad`, `getMatchingOutputs`;
* the per-item failure policy (`src/snapperable/item_error_handler.py`) —
  modelled by `onItemError`, `onItemSuccess`;
* the background storage worker (`src/snapperable/batch_storage_worker.py`) —
  modelled by `processUnit`, `runWorker`, `workerShutdown`;
* the batch accumulator (`src/snapperable/batch_processor.py` and §4.3 of the
  design) — modelled by `bpAddItem`, `bpFlush`, `bpShutdown`;
* the storage-handle registry (`Snapper._active_storages`) — modelled as a
  transition system over `RegEvent` traces.

Python values are embedded as the inductive type `PyVal` (integers, strings,
hashable and unhashable opaque objects, lists, tuples, dicts, sets); the
hashable canonical keys produced by `_make_hashable` are embedded as `HVal`.
Python's value equality `==` on those values is `pyEq`/`pyHEq`, and Python's
comparison `<` (which can raise `TypeError`, modelled by `none`) is `pyHLt`.
-/

set_option maxHeartbeats 1000000

/-- Embedded Python values, the universe of inputs handled by the engine.
`obj i` is an opaque hashable object with identity `i` (default `__eq__` /
`__hash__` semantics); `uobj i` is an opaque *unhashable* object (a class with
`__hash__ = None`), whose identity is `i`.  Python's `bool`/`float`/`None`
atoms are not modelled; they play no role in the canonicalization algorithm. -/
inductive PyVal : Type where
  | int : Int → PyVal
  | str : String → PyVal
  | obj : Nat → PyVal
  | uobj : Nat → PyVal
  | list : List PyVal → PyVal
  | tuple : List PyVal → PyVal
  | dict : List (PyVal × PyVal) → PyVal
  | set : List PyVal → PyVal

/-- Hashable canonical values: the results of
`SnapshotTracker._make_hashable` (src/snapperable/snapshot_tracker.py, lines
39–56).  Lists and tuples become tuples, dicts become sorted tuples of
`(key, canonical value)` pairs, sets become frozensets; primitives pass
through unchanged. -/
inductive HVal : Type where
  | int : Int → HVal
  | str : String → HVal
  | obj : Nat → HVal
  | tuple : List HVal → HVal
  | fset : List HVal → HVal

mutual

/-- Python `==` on canonical (hashable) values: structural on primitives and
tuples, set-equality (mutual containment) on frozensets, `False` across
types.  This is the equality used by Python's `set`/`dict` membership,
which the tracker relies on. -/
def pyHEq : HVal → HVal → Bool
  | .int a, .int b => a == b
  | .str a, .str b => a == b
  | .obj a, .obj b => a == b
  | .tuple xs, .tuple ys => pyHEqList xs ys
  | .fset xs, .fset ys => subH xs ys && subH ys xs
  | _, _ => false
termination_by x y => sizeOf x + sizeOf y

/-- Pointwise Python `==` of two lists of canonical values. -/
def pyHEqList : List HVal → List HVal → Bool
  | [], [] => true
  | x :: xs, y :: ys => pyHEq x y && pyHEqList xs ys
  | _, _ => false
termination_by xs ys => sizeOf xs + sizeOf ys

/-- Membership by Python `==` in a list of canonical values (the semantics of
`x in s` for a Python set `s` holding those values). -/
def memH : HVal → List HVal → Bool
  | _, [] => false
  | x, y :: ys => pyHEq x y || memH x ys
termination_by x ys => sizeOf x + sizeOf ys

/-- Containment of every element of the first list in the second, by Python
`==` (the subset test underlying frozenset equality and comparison). -/
def subH : List HVal → List HVal → Bool
  | [], _ => true
  | x :: xs, ys => memH x ys && subH xs ys
termination_by xs ys => sizeOf xs + sizeOf ys

end

mutual

/-- Python `==` on embedded values.  Lists/tuples compare pointwise (and a
list never equals a tuple), dicts compare as equal key-sets with equal
values, sets compare by mutual containment, opaque objects by identity, and
values of different types compare unequal. -/
def pyEq : PyVal → PyVal → Bool
  | .int a, .int b => a == b
  | .str a, .str b => a == b
  | .obj a, .obj b => a == b
  | .uobj a, .uobj b => a == b
  | .list xs, .list ys => pyEqList xs ys
  | .tuple xs, .tuple ys => pyEqList xs ys
  | .dict ps, .dict qs => ps.length == qs.length && dictSubP ps qs && dictSubP qs ps
  | .set xs, .set ys => subP xs ys && subP ys xs
  | _, _ => false
termination_by x y => sizeOf x + sizeOf y

/-- Pointwise Python `==` of two lists of values. -/
def pyEqList : List PyVal → List PyVal → Bool
  | [], [] => true
  | x :: xs, y :: ys => pyEq x y && pyEqList xs ys
  | _, _ => false
termination_by xs ys => sizeOf xs + sizeOf ys

/-- Membership by Python `==` in a list of values. -/
def memP : PyVal → List PyVal → Bool
  | _, [] => false
  | x, y :: ys => pyEq x y || memP x ys
termination_by x ys => sizeOf x + sizeOf ys

/-- Containment of every element of the first list in the second, by
Python `==`. -/
def subP : List PyVal → List PyVal → Bool
  | [], _ => true
  | x :: xs, ys => memP x ys && subP xs ys
termination_by xs ys => sizeOf xs + sizeOf ys

/-- Every key/value pair of the first dict has a `==`-equal key with
`==`-equal value in the second dict. -/
def dictSubP : List (PyVal × PyVal) → List (PyVal × PyVal) → Bool
  | [], _ => true
  | (k, v) :: ps, qs => pairMemP k v qs && dictSubP ps qs
termination_by ps qs => sizeOf ps + sizeOf qs

/-- The pair `(k, v)` matches some pair of the dict `qs` up to Python `==`. -/
def pairMemP : PyVal → PyVal → List (PyVal × PyVal) → Bool
  | _, _, [] => false
  | k, v, (k2, v2) :: qs => (pyEq k k2 && pyEq v v2) || pairMemP k v qs
termination_by k v qs => sizeOf k + sizeOf v + sizeOf qs

end

mutual

/-- Python `<` on canonical values; `none` models a raised `TypeError`.
Integers and strings compare in the usual orders, tuples lexicographically
(testing `==` before `<` at each position, shorter prefixes sorting first),
frozensets by proper subset, and everything else — including two opaque
objects and any cross-type pair — raises. -/
def pyHLt : HVal → HVal → Option Bool
  | .int a, .int b => some (decide (a < b))
  | .str a, .str b => some (decide (a < b))
  | .tuple xs, .tuple ys => tupLt xs ys
  | .fset xs, .fset ys => some (subH xs ys && !subH ys xs)
  | _, _ => none
termination_by x y => sizeOf x + sizeOf y

/-- Python's lexicographic `<` on tuples: skip `==`-equal prefixes, decide at
the first unequal position, shorter tuples sort before their extensions. -/
def tupLt : List HVal → List HVal → Option Bool
  | [], [] => some false
  | [], _ :: _ => some true
  | _ :: _, [] => some false
  | x :: xs, y :: ys => if pyHEq x y then tupLt xs ys else pyHLt x y
termination_by xs ys => sizeOf xs + sizeOf ys

end

/-- One step of insertion sort under Python `<`: insert `x` into the sorted
list, failing (`none`) as soon as a comparison raises `TypeError`.  This is
the comparison-sort semantics of `sorted(...)` in `_make_hashable`'s dict
branch; on inputs whose comparisons form a strict total order it computes
the same result as any comparison sort. -/
def insertP (x : HVal) : List HVal → Option (List HVal)
  | [] => some [x]
  | y :: ys =>
    match pyHLt x y with
    | none => none
    | some true => some (x :: y :: ys)
    | some false => (insertP x ys).map (fun r => y :: r)

/-- Insertion sort under Python `<`, failing if any comparison raises. -/
def insortP : List HVal → Option (List HVal)
  | [] => some []
  | x :: xs => (insortP xs).bind (insertP x)

mutual

/-- The embedding into `HVal` of a raw Python value that is *hashed as it
is* (dict keys in `_make_hashable`'s dict branch are not canonicalized:
`sorted((k, self._make_hashable(v)) for k, v in obj.items())` keeps the raw
`k`).  `none` for values whose `hash()` raises `TypeError` (lists, dicts,
sets, unhashable objects) — such values cannot occur as dict keys in Python,
so dicts containing them canonicalize to `none`. -/
def hashKey : PyVal → Option HVal
  | .int n => some (.int n)
  | .str s => some (.str s)
  | .obj i => some (.obj i)
  | .uobj _ => none
  | .list _ => none
  | .tuple xs => (hashKeyList xs).map .tuple
  | .dict _ => none
  | .set _ => none
termination_by x => sizeOf x

/-- `hashKey` applied to every element of a list, failing if any fails. -/
def hashKeyList : List PyVal → Option (List HVal)
  | [] => some []
  | x :: xs =>
    match hashKey x, hashKeyList xs with
    | some h, some hs => some (h :: hs)
    | _, _ => none
termination_by xs => sizeOf xs

end

mutual

/-- The canonical key of a value: `SnapshotTracker._make_hashable` combined
with the hashability of its result.  All call sites in the source wrap
`_make_hashable(item)` together with the subsequent hash-based use (set
membership, set add, dict lookup) in a single `try: ... except TypeError`,
so a single `Option` models both failure points: `none` means that
canonicalizing-and-hashing the value raises `TypeError` (a `sorted` call on
incomparable dict items, or an unhashable leaf surviving into the result). -/
def canonKey : PyVal → Option HVal
  | .int n => some (.int n)
  | .str s => some (.str s)
  | .obj i => some (.obj i)
  | .uobj _ => none
  | .list xs => (canonList xs).map .tuple
  | .tuple xs => (canonList xs).map .tuple
  | .dict ps => (canonPairs ps).bind fun l => (insortP l).map .tuple
  | .set xs => (canonList xs).map .fset
termination_by x => sizeOf x

/-- `canonKey` applied to every element of a list, failing if any fails. -/
def canonList : List PyVal → Option (List HVal)
  | [] => some []
  | x :: xs =>
    match canonKey x, canonList xs with
    | some h, some hs => some (h :: hs)
    | _, _ => none
termination_by xs => sizeOf xs

/-- The `(key, _make_hashable(value))` pairs built in `_make_hashable`'s dict
branch, each embedded as a canonical 2-tuple `⟨hashKey k, canonKey v⟩`. -/
def canonPairs : List (PyVal × PyVal) → Option (List HVal)
  | [] => some []
  | (k, v) :: ps =>
    match hashKey k, canonKey v, canonPairs ps with
    | some hk, some hv, some rest => some (.tuple [hk, hv] :: rest)
    | _, _, _ => none
termination_by ps => sizeOf ps

end

mutual

/-- The canonical value contains no frozenset.  Keys of embedded dicts are
always frozenset-free (`hashKey` never produces one), which makes Python's
`<` on them trichotomous whenever it does not raise. -/
def nofs : HVal → Bool
  | .int _ => true
  | .str _ => true
  | .obj _ => true
  | .tuple xs => nofsList xs
  | .fset _ => false

/-- `nofs` for every element of a list. -/
def nofsList : List HVal → Bool
  | [] => true
  | x :: xs => nofs x && nofsList xs

end

/-- The key `k` is Python-`==`-equal to some key of the dict `ps`. -/
def keyMemP : PyVal → List (PyVal × PyVal) → Bool
  | _, [] => false
  | k, (k2, _) :: ps => pyEq k k2 || keyMemP k ps

/-- The keys of a dict are pairwise distinct under Python `==` — an
invariant of every Python `dict` (keys are deduplicated by `hash`/`==` at
insertion). -/
def keysDistinct : List (PyVal × PyVal) → Bool
  | [] => true
  | (k, _) :: ps => !keyMemP k ps && keysDistinct ps

mutual

/-- Well-formedness of an embedded value: every `dict` node appearing in it
has pairwise `==`-distinct keys.  Every value constructible in Python
satisfies this; the embedding's raw `dict` constructor is broader. -/
def wfP : PyVal → Bool
  | .int _ => true
  | .str _ => true
  | .obj _ => true
  | .uobj _ => true
  | .list xs => wfList xs
  | .tuple xs => wfList xs
  | .set xs => wfList xs
  | .dict ps => keysDistinct ps && wfPairs ps
termination_by x => sizeOf x

/-- `wfP` for every element of a list. -/
def wfList : List PyVal → Bool
  | [] => true
  | x :: xs => wfP x && wfList xs
termination_by xs => sizeOf xs

/-- `wfP` for every key and value of a dict. -/
def wfPairs : List (PyVal × PyVal) → Bool
  | [] => true
  | (k, v) :: ps => wfP k && wfP v && wfPairs ps
termination_by ps => sizeOf ps

end

example : pyHEq (.fset [.int 1, .int 2]) (.fset [.int 2, .int 1, .int 2]) = true := by
  simp [pyHEq, subH, memH]

example : canonKey (.list [.int 1, .uobj 0]) = none := by
  simp [canonKey, canonList]

example : canonKey (.dict [(.int 3, .int 30), (.int 1, .int 10)]) =
    some (.tuple [.tuple [.int 1, .int 10], .tuple [.int 3, .int 30]]) := by
  simp [canonKey, canonPairs, hashKey, insortP, insertP, pyHLt, tupLt, pyHEq]

/-! ### Properties of Python `==` on canonical values -/

/-- `HRel` is Python `==` on canonical values, as a proposition. -/
def HRel (a b : HVal) : Prop := pyHEq a b = true

theorem memH_exists : ∀ {x : HVal} {ys : List HVal},
    memH x ys = true ↔ ∃ y ∈ ys, pyHEq x y = true := by
  intro x ys
  induction ys with
  | nil => simp [memH]
  | cons y ys ih => simp [memH, ih]

theorem memH_of {x y : HVal} {ys : List HVal} (hy : y ∈ ys) (h : pyHEq x y = true) :
    memH x ys = true :=
  memH_exists.2 ⟨y, hy, h⟩

theorem subH_iff : ∀ {xs ys : List HVal},
    subH xs ys = true ↔ ∀ x ∈ xs, memH x ys = true := by
  intro xs ys
  induction xs with
  | nil => simp [subH]
  | cons x xs ih => simp [subH, ih]

theorem pyHEqList_iff : ∀ {xs ys : List HVal},
    pyHEqList xs ys = true ↔ List.Forall₂ (fun a b => pyHEq a b = true) xs ys := by
  intro xs ys
  induction xs generalizing ys with
  | nil => cases ys <;> simp [pyHEqList]
  | cons x xs ih => cases ys <;> simp [pyHEqList, ih]

theorem pyHEq_refl : ∀ (x : HVal), pyHEq x x = true := by
  have key : ∀ (n : Nat) (x : HVal), sizeOf x ≤ n → pyHEq x x = true := by
    intro n
    induction n with
    | zero => intro x hx; cases x <;> simp at hx
    | succ n ih =>
      intro x hx
      cases x with
      | int a => simp [pyHEq]
      | str s => simp [pyHEq]
      | obj i => simp [pyHEq]
      | tuple xs =>
        have hxs : ∀ y ∈ xs, pyHEq y y = true := by
          intro y hy
          have hlt := List.sizeOf_lt_of_mem hy
          simp at hx
          exact ih y (by omega)
        simp only [pyHEq]
        rw [pyHEqList_iff]
        exact List.forall₂_same.2 hxs
      | fset xs =>
        have hxs : ∀ y ∈ xs, pyHEq y y = true := by
          intro y hy
          have hlt := List.sizeOf_lt_of_mem hy
          simp at hx
          exact ih y (by omega)
        have hsub : subH xs xs = true :=
          subH_iff.2 fun x hxmem => memH_of hxmem (hxs x hxmem)
        simp [pyHEq, hsub]
  exact fun x => key (sizeOf x) x le_rfl

theorem beq_symm_lawful {α : Type} [BEq α] [LawfulBEq α] (a b : α) : (a == b) = (b == a) := by
  apply Bool.eq_iff_iff.mpr
  simp only [beq_iff_eq]
  exact ⟨fun h => h.symm, fun h => h.symm⟩

theorem pyHEqList_symm_of {xs ys : List HVal}
    (h : ∀ a ∈ xs, ∀ b ∈ ys, pyHEq a b = pyHEq b a) :
    pyHEqList xs ys = pyHEqList ys xs := by
  induction xs generalizing ys with
  | nil => cases ys <;> simp [pyHEqList]
  | cons x xs ih =>
    cases ys with
    | nil => simp [pyHEqList]
    | cons y ys =>
      simp only [pyHEqList]
      rw [h x (by simp) y (by simp),
        ih (fun a ha b hb => h a (by simp [ha]) b (by simp [hb]))]

theorem pyHEq_symm : ∀ (x y : HVal), pyHEq x y = pyHEq y x := by
  have key : ∀ (n : Nat) (x y : HVal), sizeOf x + sizeOf y ≤ n → pyHEq x y = pyHEq y x := by
    intro n
    induction n with
    | zero => intro x y hx; cases x <;> simp at hx
    | succ n ih =>
      intro x y hx
      cases x <;> cases y <;> simp only [pyHEq]
      case int.int a b => exact beq_symm_lawful a b
      case str.str a b => exact beq_symm_lawful a b
      case obj.obj a b => exact beq_symm_lawful a b
      case tuple.tuple xs ys =>
        refine pyHEqList_symm_of fun a ha b hb => ?_
        have h1 := List.sizeOf_lt_of_mem ha
        have h2 := List.sizeOf_lt_of_mem hb
        simp at hx
        exact ih a b (by omega)
      case fset.fset xs ys => rw [Bool.and_comm]
  exact fun x y => key (sizeOf x + sizeOf y) x y le_rfl

theorem pyHEqList_trans_of {xs ys zs : List HVal}
    (ih : ∀ a ∈ xs, ∀ b ∈ ys, ∀ c ∈ zs,
      pyHEq a b = true → pyHEq b c = true → pyHEq a c = true)
    (h1 : pyHEqList xs ys = true) (h2 : pyHEqList ys zs = true) :
    pyHEqList xs zs = true := by
  induction xs generalizing ys zs with
  | nil =>
    cases ys with
    | nil => cases zs with
      | nil => simp [pyHEqList]
      | cons z zs => simp [pyHEqList] at h2
    | cons y ys => simp [pyHEqList] at h1
  | cons x xs ihl =>
    cases ys with
    | nil => simp [pyHEqList] at h1
    | cons y ys =>
      cases zs with
      | nil => simp [pyHEqList] at h2
      | cons z zs =>
        simp only [pyHEqList, Bool.and_eq_true] at h1 h2 ⊢
        exact ⟨ih x (by simp) y (by simp) z (by simp) h1.1 h2.1,
          ihl (fun a ha b hb c hc => ih a (by simp [ha]) b (by simp [hb]) c (by simp [hc]))
            h1.2 h2.2⟩

theorem subH_trans_of {xs ys zs : List HVal}
    (ih : ∀ a ∈ xs, ∀ b ∈ ys, ∀ c ∈ zs,
      pyHEq a b = true → pyHEq b c = true → pyHEq a c = true)
    (h1 : subH xs ys = true) (h2 : subH ys zs = true) : subH xs zs = true := by
  rw [subH_iff] at h1 h2 ⊢
  intro x hxmem
  obtain ⟨y, hy, hxy⟩ := memH_exists.1 (h1 x hxmem)
  obtain ⟨z, hz, hyz⟩ := memH_exists.1 (h2 y hy)
  exact memH_of hz (ih x hxmem y hy z hz hxy hyz)

theorem pyHEq_trans : ∀ (x y z : HVal),
    pyHEq x y = true → pyHEq y z = true → pyHEq x z = true := by
  have key : ∀ (n : Nat) (x y z : HVal), sizeOf x + sizeOf y + sizeOf z ≤ n →
      pyHEq x y = true → pyHEq y z = true → pyHEq x z = true := by
    intro n
    induction n with
    | zero => intro x y z h; cases x <;> simp at h
    | succ n ih =>
      intro x y z hs h1 h2
      cases x <;> cases y <;> cases z <;> simp_all [pyHEq]
      case tuple.tuple.tuple xs ys zs =>
        refine pyHEqList_trans_of (fun a ha b hb c hc hab hbc => ?_) h1 h2
        have s1 := List.sizeOf_lt_of_mem ha
        have s2 := List.sizeOf_lt_of_mem hb
        have s3 := List.sizeOf_lt_of_mem hc
        exact ih a b c (by omega) hab hbc
      case fset.fset.fset xs ys zs =>
        have hel : ∀ a ∈ xs, ∀ b ∈ ys, ∀ c ∈ zs,
            pyHEq a b = true → pyHEq b c = true → pyHEq a c = true := by
          intro a ha b hb c hc hab hbc
          have s1 := List.sizeOf_lt_of_mem ha
          have s2 := List.sizeOf_lt_of_mem hb
          have s3 := List.sizeOf_lt_of_mem hc
          exact ih a b c (by omega) hab hbc
        have hel2 : ∀ a ∈ zs, ∀ b ∈ ys, ∀ c ∈ xs,
            pyHEq a b = true → pyHEq b c = true → pyHEq a c = true := by
          intro a ha b hb c hc hab hbc
          have s1 := List.sizeOf_lt_of_mem ha
          have s2 := List.sizeOf_lt_of_mem hb
          have s3 := List.sizeOf_lt_of_mem hc
          exact ih a b c (by omega) hab hbc
        exact ⟨subH_trans_of hel h1.1 h2.1, subH_trans_of hel2 h2.2 h1.2⟩
  exact fun x y z => key (sizeOf x + sizeOf y + sizeOf z) x y z le_rfl

theorem pyHEq_congr_left {a a2 : HVal} (h : pyHEq a a2 = true) (b : HVal) :
    pyHEq a b = pyHEq a2 b := by
  have ha2a : pyHEq a2 a = true := by rw [pyHEq_symm]; exact h
  apply Bool.eq_iff_iff.mpr
  exact ⟨fun hb => pyHEq_trans a2 a b ha2a hb, fun hb => pyHEq_trans a a2 b h hb⟩

theorem pyHEq_congr_right {b b2 : HVal} (h : pyHEq b b2 = true) (a : HVal) :
    pyHEq a b = pyHEq a b2 := by
  have hb2b : pyHEq b2 b = true := by rw [pyHEq_symm]; exact h
  apply Bool.eq_iff_iff.mpr
  exact ⟨fun hb => pyHEq_trans a b b2 hb h, fun hb => pyHEq_trans a b2 b hb hb2b⟩

theorem memH_congr {a a2 : HVal} (h : pyHEq a a2 = true) (l : List HVal) :
    memH a l = memH a2 l := by
  apply Bool.eq_iff_iff.mpr
  constructor
  · intro hm
    obtain ⟨y, hy, hxy⟩ := memH_exists.1 hm
    exact memH_of hy (by rw [← pyHEq_congr_left h]; exact hxy)
  · intro hm
    obtain ⟨y, hy, hxy⟩ := memH_exists.1 hm
    exact memH_of hy (by rw [pyHEq_congr_left h]; exact hxy)

/-- Two set-equal element lists are interchangeable on the left of `subH`. -/
theorem subH_congr_left {xs ys : List HVal} (h1 : subH xs ys = true)
    (h2 : subH ys xs = true) (c : List HVal) : subH xs c = subH ys c := by
  apply Bool.eq_iff_iff.mpr
  rw [subH_iff, subH_iff] at *
  constructor
  · intro hall y hy
    obtain ⟨x, hx, hyx⟩ := memH_exists.1 (h2 y hy)
    rw [memH_congr hyx]
    exact hall x hx
  · intro hall x hx
    obtain ⟨y, hy, hxy⟩ := memH_exists.1 (h1 x hx)
    rw [memH_congr hxy]
    exact hall y hy

/-- Two set-equal element lists are interchangeable on the right of `subH`. -/
theorem subH_congr_right {xs ys : List HVal} (h1 : subH xs ys = true)
    (h2 : subH ys xs = true) (c : List HVal) : subH c xs = subH c ys := by
  apply Bool.eq_iff_iff.mpr
  rw [subH_iff, subH_iff]
  constructor
  · intro hall a ha
    obtain ⟨x, hx, hax⟩ := memH_exists.1 (hall a ha)
    obtain ⟨y, hy, hxy⟩ := memH_exists.1 ((subH_iff.1 h1) x hx)
    exact memH_of hy (pyHEq_trans a x y hax hxy)
  · intro hall a ha
    obtain ⟨y, hy, hay⟩ := memH_exists.1 (hall a ha)
    obtain ⟨x, hx, hyx⟩ := memH_exists.1 ((subH_iff.1 h2) y hy)
    exact memH_of hx (pyHEq_trans a y x hay hyx)

/-! ### Properties of Python `<` on canonical values -/

theorem tupLt_congr_left_of : ∀ {xs xs2 b : List HVal},
    (∀ x ∈ xs, ∀ x2 ∈ xs2, ∀ w ∈ b, pyHEq x x2 = true → pyHLt x w = pyHLt x2 w) →
    pyHEqList xs xs2 = true → tupLt xs b = tupLt xs2 b := by
  intro xs
  induction xs with
  | nil =>
    intro xs2 b ih h
    cases xs2 with
    | nil => rfl
    | cons _ _ => simp [pyHEqList] at h
  | cons x xs ihl =>
    intro xs2 b ih h
    cases xs2 with
    | nil => simp [pyHEqList] at h
    | cons x2 xs2 =>
      simp only [pyHEqList, Bool.and_eq_true] at h
      cases b with
      | nil => simp [tupLt]
      | cons w ws =>
        simp only [tupLt]
        rw [show pyHEq x w = pyHEq x2 w from pyHEq_congr_left h.1 w]
        by_cases hxw : pyHEq x2 w = true
        · rw [if_pos hxw, if_pos hxw]
          exact ihl
            (fun a ha a2 ha2 v hv hq =>
              ih a (by simp [ha]) a2 (by simp [ha2]) v (by simp [hv]) hq)
            h.2
        · rw [if_neg hxw, if_neg hxw]
          exact ih x (by simp) x2 (by simp) w (by simp) h.1

theorem pyHLt_congr_left : ∀ (a a2 b : HVal), pyHEq a a2 = true →
    pyHLt a b = pyHLt a2 b := by
  have key : ∀ (n : Nat) (a a2 b : HVal), sizeOf a + sizeOf a2 + sizeOf b ≤ n →
      pyHEq a a2 = true → pyHLt a b = pyHLt a2 b := by
    intro n
    induction n with
    | zero => intro a a2 b h; cases a <;> simp at h
    | succ n ih =>
      intro a a2 b hs h
      cases a <;> cases a2 <;> simp [pyHEq] at h
      case int.int v v2 => subst h; rfl
      case str.str v v2 => subst h; rfl
      case obj.obj v v2 => subst h; rfl
      case tuple.tuple xs xs2 =>
        cases b <;> simp only [pyHLt]
        case tuple bs =>
          refine tupLt_congr_left_of (fun x hx x2 hx2 w hw hq => ?_) h
          have s1 := List.sizeOf_lt_of_mem hx
          have s2 := List.sizeOf_lt_of_mem hx2
          have s3 := List.sizeOf_lt_of_mem hw
          simp at hs
          exact ih x x2 w (by omega) hq
      case fset.fset xs xs2 =>
        cases b <;> simp only [pyHLt]
        case fset bs =>
          rw [subH_congr_left h.1 h.2 bs, subH_congr_right h.1 h.2 bs]
  exact fun a a2 b => key (sizeOf a + sizeOf a2 + sizeOf b) a a2 b le_rfl

theorem tupLt_congr_right_of : ∀ {xs b b2 : List HVal},
    (∀ x ∈ xs, ∀ w ∈ b, ∀ w2 ∈ b2, pyHEq w w2 = true → pyHLt x w = pyHLt x w2) →
    pyHEqList b b2 = true → tupLt xs b = tupLt xs b2 := by
  intro xs
  induction xs with
  | nil =>
    intro b b2 ih h
    cases b <;> cases b2 <;> simp_all [pyHEqList, tupLt]
  | cons x xs ihl =>
    intro b b2 ih h
    cases b with
    | nil =>
      cases b2 with
      | nil => rfl
      | cons _ _ => simp [pyHEqList] at h
    | cons w ws =>
      cases b2 with
      | nil => simp [pyHEqList] at h
      | cons w2 ws2 =>
        simp only [pyHEqList, Bool.and_eq_true] at h
        simp only [tupLt]
        rw [show pyHEq x w = pyHEq x w2 from pyHEq_congr_right h.1 x]
        by_cases hxw : pyHEq x w2 = true
        · rw [if_pos hxw, if_pos hxw]
          exact ihl
            (fun a ha v hv v2 hv2 hq =>
              ih a (by simp [ha]) v (by simp [hv]) v2 (by simp [hv2]) hq)
            h.2
        · rw [if_neg hxw, if_neg hxw]
          exact ih x (by simp) w (by simp) w2 (by simp) h.1

theorem pyHLt_congr_right : ∀ (a b b2 : HVal), pyHEq b b2 = true →
    pyHLt a b = pyHLt a b2 := by
  have key : ∀ (n : Nat) (a b b2 : HVal), sizeOf a + sizeOf b + sizeOf b2 ≤ n →
      pyHEq b b2 = true → pyHLt a b = pyHLt a b2 := by
    intro n
    induction n with
    | zero => intro a b b2 h; cases a <;> simp at h
    | succ n ih =>
      intro a b b2 hs h
      cases b <;> cases b2 <;> simp [pyHEq] at h
      case int.int v v2 => subst h; rfl
      case str.str v v2 => subst h; rfl
      case obj.obj v v2 => subst h; rfl
      case tuple.tuple bs bs2 =>
        cases a <;> simp only [pyHLt]
        case tuple xs =>
          refine tupLt_congr_right_of (fun x hx w hw w2 hw2 hq => ?_) h
          have s1 := List.sizeOf_lt_of_mem hx
          have s2 := List.sizeOf_lt_of_mem hw
          have s3 := List.sizeOf_lt_of_mem hw2
          simp at hs
          exact ih x w w2 (by omega) hq
      case fset.fset bs bs2 =>
        cases a <;> simp only [pyHLt]
        case fset xs =>
          rw [subH_congr_left h.1 h.2 xs, subH_congr_right h.1 h.2 xs]
  exact fun a b b2 => key (sizeOf a + sizeOf b + sizeOf b2) a b b2 le_rfl

theorem tupLt_asymm_of : ∀ {xs ys : List HVal},
    (∀ x ∈ xs, ∀ y ∈ ys, pyHLt x y = some true → pyHLt y x = some false) →
    tupLt xs ys = some true → tupLt ys xs = some false := by
  intro xs
  induction xs with
  | nil =>
    intro ys ih h
    cases ys with
    | nil => simp [tupLt] at h
    | cons y ys => simp [tupLt]
  | cons x xs ihl =>
    intro ys ih h
    cases ys with
    | nil => simp [tupLt] at h
    | cons y ys =>
      simp only [tupLt] at h ⊢
      by_cases hxy : pyHEq x y = true
      · have hyx : pyHEq y x = true := by rw [pyHEq_symm]; exact hxy
        rw [if_pos hxy] at h
        rw [if_pos hyx]
        exact ihl (fun a ha b hb => ih a (by simp [ha]) b (by simp [hb])) h
      · have hyx : ¬ pyHEq y x = true := by rw [pyHEq_symm]; exact hxy
        rw [if_neg hxy] at h
        rw [if_neg hyx]
        exact ih x (by simp) y (by simp) h

theorem pyHLt_asymm : ∀ (a b : HVal), pyHLt a b = some true → pyHLt b a = some false := by
  have key : ∀ (n : Nat) (a b : HVal), sizeOf a + sizeOf b ≤ n →
      pyHLt a b = some true → pyHLt b a = some false := by
    intro n
    induction n with
    | zero => intro a b h; cases a <;> simp at h
    | succ n ih =>
      intro a b hs h
      cases a <;> cases b <;> simp [pyHLt] at h ⊢
      case int.int v w => omega
      case str.str v w => exact le_of_not_lt (lt_asymm h)
      case tuple.tuple xs ys =>
        refine tupLt_asymm_of (fun x hx y hy hlt => ?_) h
        have s1 := List.sizeOf_lt_of_mem hx
        have s2 := List.sizeOf_lt_of_mem hy
        simp at hs
        exact ih x y (by omega) hlt
      case fset.fset xs ys => simp [h.1, h.2]
  exact fun a b => key (sizeOf a + sizeOf b) a b le_rfl

theorem tupLt_trans_of : ∀ {xs ys zs : List HVal},
    (∀ x ∈ xs, ∀ y ∈ ys, ∀ z ∈ zs,
      pyHLt x y = some true → pyHLt y z = some true → pyHLt x z = some true) →
    tupLt xs ys = some true → tupLt ys zs = some true → tupLt xs zs = some true := by
  intro xs
  induction xs with
  | nil =>
    intro ys zs ih h1 h2
    cases ys with
    | nil => simp [tupLt] at h1
    | cons y ys =>
      cases zs with
      | nil => simp [tupLt] at h2
      | cons z zs => simp [tupLt]
  | cons x xs ihl =>
    intro ys zs ih h1 h2
    cases ys with
    | nil => simp [tupLt] at h1
    | cons y ys =>
      cases zs with
      | nil => simp [tupLt] at h2
      | cons z zs =>
        simp only [tupLt] at h1 h2 ⊢
        by_cases hxy : pyHEq x y = true <;> by_cases hyz : pyHEq y z = true
        · rw [if_pos hxy] at h1
          rw [if_pos hyz] at h2
          rw [if_pos (pyHEq_trans x y z hxy hyz)]
          exact ihl (fun a ha b hb c hc => ih a (by simp [ha]) b (by simp [hb]) c (by simp [hc]))
            h1 h2
        · rw [if_pos hxy] at h1
          rw [if_neg hyz] at h2
          have hxz : ¬ pyHEq x z = true := by
            intro hc
            have hyx : pyHEq y x = true := by rw [pyHEq_symm]; exact hxy
            exact hyz (pyHEq_trans y x z hyx hc)
          rw [if_neg hxz]
          rw [pyHLt_congr_left x y z hxy]
          exact h2
        · rw [if_neg hxy] at h1
          rw [if_pos hyz] at h2
          have hxz : ¬ pyHEq x z = true := by
            intro hc
            have hzy : pyHEq z y = true := by rw [pyHEq_symm]; exact hyz
            exact hxy (pyHEq_trans x z y hc hzy)
          rw [if_neg hxz]
          rw [← pyHLt_congr_right x y z hyz]
          exact h1
        · rw [if_neg hxy] at h1
          rw [if_neg hyz] at h2
          have hxz : ¬ pyHEq x z = true := by
            intro hc
            have h3 : pyHLt x y = pyHLt z y := pyHLt_congr_left x z y hc
            have h4 : pyHLt z y = some false := pyHLt_asymm y z h2
            rw [h3, h4] at h1
            exact Option.noConfusion h1 (fun h => Bool.noConfusion h)
          rw [if_neg hxz]
          exact ih x (by simp) y (by simp) z (by simp) h1 h2

theorem pyHLt_trans : ∀ (a b c : HVal),
    pyHLt a b = some true → pyHLt b c = some true → pyHLt a c = some true := by
  have key : ∀ (n : Nat) (a b c : HVal), sizeOf a + sizeOf b + sizeOf c ≤ n →
      pyHLt a b = some true → pyHLt b c = some true → pyHLt a c = some true := by
    intro n
    induction n with
    | zero => intro a b c h; cases a <;> simp at h
    | succ n ih =>
      intro a b c hs h1 h2
      cases a <;> cases b <;> simp [pyHLt] at h1 <;> cases c <;> simp [pyHLt] at h2 ⊢
      case int.int.int => omega
      case str.str.str => exact lt_trans h1 h2
      case tuple.tuple.tuple xs ys zs =>
        refine tupLt_trans_of (fun x hx y hy z hz hxy hyz => ?_) h1 h2
        have s1 := List.sizeOf_lt_of_mem hx
        have s2 := List.sizeOf_lt_of_mem hy
        have s3 := List.sizeOf_lt_of_mem hz
        simp at hs
        exact ih x y z (by omega) hxy hyz
      case fset.fset.fset xs ys zs =>
        have hel : ∀ a2 ∈ xs, ∀ b2 ∈ ys, ∀ c2 ∈ zs,
            pyHEq a2 b2 = true → pyHEq b2 c2 = true → pyHEq a2 c2 = true :=
          fun a2 _ b2 _ c2 _ => pyHEq_trans a2 b2 c2
        constructor
        · exact subH_trans_of hel h1.1 h2.1
        · cases hq : subH zs xs with
          | false => rfl
          | true =>
            have hcontra : subH ys xs = true :=
              subH_trans_of (fun a2 _ b2 _ c2 _ => pyHEq_trans a2 b2 c2) h2.1 hq
            rw [h1.2] at hcontra
            cases hcontra
  exact fun a b c => key (sizeOf a + sizeOf b + sizeOf c) a b c le_rfl

theorem nofsList_iff : ∀ {xs : List HVal}, nofsList xs = true ↔ ∀ x ∈ xs, nofs x = true := by
  intro xs
  induction xs with
  | nil => simp [nofsList]
  | cons x xs ih => simp [nofsList, ih]

theorem tupLt_trichot_of : ∀ {xs ys : List HVal},
    (∀ x ∈ xs, ∀ y ∈ ys, pyHLt x y = some false → pyHEq x y = false →
      pyHLt y x = some true) →
    tupLt xs ys = some false → pyHEqList xs ys = false → tupLt ys xs = some true := by
  intro xs
  induction xs with
  | nil =>
    intro ys ih hlt hne
    cases ys with
    | nil => simp [pyHEqList] at hne
    | cons y ys => simp [tupLt] at hlt
  | cons x xs ihl =>
    intro ys ih hlt hne
    cases ys with
    | nil => simp [tupLt]
    | cons y ys =>
      simp only [tupLt] at hlt ⊢
      by_cases hxy : pyHEq x y = true
      · have hyx : pyHEq y x = true := by rw [pyHEq_symm]; exact hxy
        rw [if_pos hxy] at hlt
        rw [if_pos hyx]
        have hne2 : pyHEqList xs ys = false := by
          simp only [pyHEqList, hxy, Bool.true_and] at hne
          exact hne
        exact ihl (fun a ha b hb => ih a (by simp [ha]) b (by simp [hb])) hlt hne2
      · have hyx : ¬ pyHEq y x = true := by rw [pyHEq_symm]; exact hxy
        rw [if_neg hxy] at hlt
        rw [if_neg hyx]
        exact ih x (by simp) y (by simp) hlt (by revert hxy; cases pyHEq x y <;> simp)

theorem pyHLt_trichot : ∀ (a b : HVal), nofs a = true → nofs b = true →
    pyHLt a b = some false → pyHEq a b = false → pyHLt b a = some true := by
  have key : ∀ (n : Nat) (a b : HVal), sizeOf a + sizeOf b ≤ n →
      nofs a = true → nofs b = true →
      pyHLt a b = some false → pyHEq a b = false → pyHLt b a = some true := by
    intro n
    induction n with
    | zero => intro a b h; cases a <;> simp at h
    | succ n ih =>
      intro a b hs hna hnb hlt hne
      cases a <;> cases b <;> try simp [pyHLt] at hlt
      case fset.fset => simp [nofs] at hna
      case int.int v w =>
        simp [pyHEq] at hne
        simp [pyHLt]
        omega
      case str.str v w =>
        simp [pyHEq] at hne
        simp [pyHLt]
        have hdne : w.data ≠ v.data := by
          intro hd
          apply hne
          cases v
          cases w
          simp_all
        exact lt_of_le_of_ne hlt hdne
      case tuple.tuple xs ys =>
        simp [pyHEq] at hne
        simp only [nofs] at hna hnb
        simp only [pyHLt]
        refine tupLt_trichot_of (fun x hx y hy hl hn => ?_) hlt hne
        have s1 := List.sizeOf_lt_of_mem hx
        have s2 := List.sizeOf_lt_of_mem hy
        simp at hs
        exact ih x y (by omega) (nofsList_iff.1 hna x hx) (nofsList_iff.1 hnb y hy) hl hn
  exact fun a b => key (sizeOf a + sizeOf b) a b le_rfl

theorem tupLt_isSome_symm_of : ∀ {xs ys : List HVal},
    (∀ x ∈ xs, ∀ y ∈ ys, (pyHLt x y).isSome → (pyHLt y x).isSome) →
    (tupLt xs ys).isSome → (tupLt ys xs).isSome := by
  intro xs
  induction xs with
  | nil =>
    intro ys ih h
    cases ys <;> simp [tupLt]
  | cons x xs ihl =>
    intro ys ih h
    cases ys with
    | nil => simp [tupLt]
    | cons y ys =>
      simp only [tupLt] at h ⊢
      by_cases hxy : pyHEq x y = true
      · have hyx : pyHEq y x = true := by rw [pyHEq_symm]; exact hxy
        rw [if_pos hxy] at h
        rw [if_pos hyx]
        exact ihl (fun a ha b hb => ih a (by simp [ha]) b (by simp [hb])) h
      · have hyx : ¬ pyHEq y x = true := by rw [pyHEq_symm]; exact hxy
        rw [if_neg hxy] at h
        rw [if_neg hyx]
        exact ih x (by simp) y (by simp) h

theorem pyHLt_isSome_symm : ∀ (a b : HVal), (pyHLt a b).isSome → (pyHLt b a).isSome := by
  have key : ∀ (n : Nat) (a b : HVal), sizeOf a + sizeOf b ≤ n →
      (pyHLt a b).isSome → (pyHLt b a).isSome := by
    intro n
    induction n with
    | zero => intro a b h; cases a <;> simp at h
    | succ n ih =>
      intro a b hs h
      cases a <;> cases b <;> simp [pyHLt] at h ⊢
      case tuple.tuple xs ys =>
        refine tupLt_isSome_symm_of (fun x hx y hy hq => ?_) h
        have s1 := List.sizeOf_lt_of_mem hx
        have s2 := List.sizeOf_lt_of_mem hy
        simp at hs
        exact ih x y (by omega) hq
  exact fun a b => key (sizeOf a + sizeOf b) a b le_rfl

/-! ### The insertion sort used by `_make_hashable`'s dict branch -/

/-- Strict order proposition: Python `a < b` evaluates to `True`. -/
def ltT (a b : HVal) : Prop := pyHLt a b = some true

/-- Comparability: Python `a < b` does not raise. -/
def cOK (a b : HVal) : Prop := (pyHLt a b).isSome

instance : IsTrans HVal ltT := ⟨fun a b c => pyHLt_trans a b c⟩

theorem cOK_symm : ∀ {a b : HVal}, cOK a b → cOK b a := fun {a b} h =>
  pyHLt_isSome_symm a b h

theorem insertP_perm : ∀ {x : HVal} {l r : List HVal},
    insertP x l = some r → r.Perm (x :: l) := by
  intro x l
  induction l with
  | nil => intro r h; simp [insertP] at h; subst h; exact List.Perm.refl _
  | cons y ys ih =>
    intro r h
    cases hlt : pyHLt x y with
    | none => simp [insertP, hlt] at h
    | some b =>
      cases b with
      | true =>
        simp only [insertP, hlt, Option.some_inj] at h
        subst h
        exact List.Perm.refl _
      | false =>
        simp only [insertP, hlt, Option.map_eq_some'] at h
        obtain ⟨r2, hr2, hr⟩ := h
        subst hr
        exact (List.Perm.cons y (ih hr2)).trans (List.Perm.swap x y ys)

theorem insortP_perm : ∀ {l r : List HVal}, insortP l = some r → r.Perm l := by
  intro l
  induction l with
  | nil => intro r h; simp [insortP] at h; subst h; exact List.Perm.refl _
  | cons x xs ih =>
    intro r h
    simp only [insortP, Option.bind_eq_some] at h
    obtain ⟨r0, hr0, hins⟩ := h
    exact (insertP_perm hins).trans (List.Perm.cons x (ih hr0))

theorem insertP_isSome_of {x : HVal} : ∀ {l : List HVal},
    (∀ y ∈ l, cOK x y) → (insertP x l).isSome := by
  intro l
  induction l with
  | nil => intro h; simp [insertP]
  | cons y ys ih =>
    intro h
    have hxy : cOK x y := h y (by simp)
    cases hlt : pyHLt x y with
    | none => rw [cOK, hlt] at hxy; simp at hxy
    | some b =>
      cases b with
      | true => simp [insertP, hlt]
      | false =>
        have hrec := ih (fun z hz => h z (by simp [hz]))
        obtain ⟨r2, hr2⟩ := Option.isSome_iff_exists.1 hrec
        simp [insertP, hlt, hr2]

theorem insortP_isSome_of_pairwise : ∀ {l : List HVal},
    l.Pairwise cOK → (insortP l).isSome := by
  intro l
  induction l with
  | nil => simp [insortP]
  | cons x xs ih =>
    intro h
    have hx := List.pairwise_cons.1 h
    obtain ⟨r0, hr0⟩ := Option.isSome_iff_exists.1 (ih hx.2)
    have hperm := insortP_perm hr0
    simp only [insortP, hr0, Option.bind_some]
    exact insertP_isSome_of fun y hy => hx.1 y (hperm.mem_iff.1 hy)

theorem insertP_chain : ∀ {x : HVal} {l r : List HVal},
    (∀ y ∈ l, pyHLt x y = some false → pyHLt y x = some true) →
    l.Chain' ltT → insertP x l = some r → r.Chain' ltT := by
  intro x l
  induction l with
  | nil =>
    intro r htri hchain hins
    simp [insertP] at hins
    subst hins
    simp
  | cons y ys ih =>
    intro r htri hchain hins
    cases hlt : pyHLt x y with
    | none => simp [insertP, hlt] at hins
    | some b =>
      cases b with
      | true =>
        simp only [insertP, hlt, Option.some_inj] at hins
        subst hins
        exact List.chain'_cons.2 ⟨hlt, hchain⟩
      | false =>
        simp only [insertP, hlt, Option.map_eq_some'] at hins
        obtain ⟨r2, hins2, hr⟩ := hins
        subst hr
        have hyx : ltT y x := htri y (by simp) hlt
        have hchain2 : List.Chain' ltT r2 :=
          ih (fun z hz hlz => htri z (by simp [hz]) hlz) hchain.tail hins2
        refine List.chain'_cons'.2 ⟨?_, hchain2⟩
        intro w hw
        cases ys with
        | nil =>
          simp [insertP] at hins2
          subst hins2
          simp at hw
          subst hw
          exact hyx
        | cons z zs =>
          cases hlt2 : pyHLt x z with
          | none => simp [insertP, hlt2] at hins2
          | some b2 =>
            cases b2 with
            | true =>
              simp only [insertP, hlt2, Option.some_inj] at hins2
              subst hins2
              simp at hw
              subst hw
              exact hyx
            | false =>
              simp only [insertP, hlt2, Option.map_eq_some'] at hins2
              obtain ⟨r3, _, hr2⟩ := hins2
              subst hr2
              simp at hw
              subst hw
              exact (List.chain'_cons.1 hchain).1

/-- The key component of a canonical dict pair `⟨k, v⟩`. -/
def keyO : HVal → HVal
  | .tuple (k :: _) => k
  | x => x

/-- A canonical dict pair: a 2-tuple whose key component is frozenset-free. -/
def cpair (p : HVal) : Prop := ∃ k v, p = .tuple [k, v] ∧ nofs k = true

/-- A list of canonical dict pairs with pairwise `==`-distinct keys — the shape
of the pair list sorted in `_make_hashable`'s dict branch for any Python dict. -/
def GoodL (l : List HVal) : Prop :=
  (∀ p ∈ l, cpair p) ∧ l.Pairwise (fun p q => pyHEq (keyO p) (keyO q) = false)

theorem pairLt_keys {p q : HVal} (hp : cpair p) (hq : cpair q)
    (hne : pyHEq (keyO p) (keyO q) = false) : pyHLt p q = pyHLt (keyO p) (keyO q) := by
  obtain ⟨k, v, rfl, _⟩ := hp
  obtain ⟨k2, v2, rfl, _⟩ := hq
  simp only [keyO] at hne ⊢
  simp [pyHLt, tupLt, hne]

theorem pairHEq_key {p q : HVal} (hp : cpair p) (hq : cpair q)
    (h : pyHEq p q = true) : pyHEq (keyO p) (keyO q) = true := by
  obtain ⟨k, v, rfl, _⟩ := hp
  obtain ⟨k2, v2, rfl, _⟩ := hq
  simp only [pyHEq, pyHEqList, Bool.and_eq_true] at h
  simp only [keyO]
  exact h.1

theorem pair_trichot {p q : HVal} (hp : cpair p) (hq : cpair q)
    (hne : pyHEq (keyO p) (keyO q) = false) (h : pyHLt p q = some false) :
    pyHLt q p = some true := by
  have hne2 : pyHEq (keyO q) (keyO p) = false := by rw [pyHEq_symm]; exact hne
  rw [pairLt_keys hq hp hne2]
  rw [pairLt_keys hp hq hne] at h
  obtain ⟨k, v, hpe, hk⟩ := hp
  obtain ⟨k2, v2, hqe, hk2⟩ := hq
  have e1 : keyO p = k := by rw [hpe]; rfl
  have e2 : keyO q = k2 := by rw [hqe]; rfl
  rw [e1, e2] at h hne ⊢
  exact pyHLt_trichot k k2 hk hk2 h hne

theorem insortP_good : ∀ {l r : List HVal}, GoodL l → insortP l = some r →
    r.Chain' ltT ∧ r.Perm l := by
  intro l
  induction l with
  | nil =>
    intro r _ h
    simp [insortP] at h
    subst h
    exact ⟨by simp, List.Perm.refl _⟩
  | cons x xs ih =>
    intro r hg hins
    simp only [insortP, Option.bind_eq_some] at hins
    obtain ⟨r0, hr0, hinsx⟩ := hins
    have hgtail : GoodL xs := ⟨fun p hp => hg.1 p (by simp [hp]), (List.pairwise_cons.1 hg.2).2⟩
    obtain ⟨hchain0, hperm0⟩ := ih hgtail hr0
    have hkeys : ∀ y ∈ xs, pyHEq (keyO x) (keyO y) = false :=
      (List.pairwise_cons.1 hg.2).1
    have htri : ∀ y ∈ r0, pyHLt x y = some false → pyHLt y x = some true := by
      intro y hy hlt
      have hymem : y ∈ xs := hperm0.mem_iff.1 hy
      exact pair_trichot (hg.1 x (by simp)) (hg.1 y (by simp [hymem]))
        (hkeys y hymem) hlt
    refine ⟨insertP_chain htri hchain0 hinsx, ?_⟩
    exact (insertP_perm hinsx).trans (List.Perm.cons x hperm0)

theorem rel_exists_mid : ∀ {l1 l2 : List HVal},
    Multiset.Rel HRel (↑l1 : Multiset HVal) (↑l2 : Multiset HVal) →
    ∃ mid, List.Forall₂ HRel l1 mid ∧ mid.Perm l2 := by
  intro l1
  induction l1 with
  | nil =>
    intro l2 h
    have h2 : l2 = [] := by simpa using h
    subst h2
    exact ⟨[], List.Forall₂.nil, List.Perm.refl _⟩
  | cons a as ih =>
    intro l2 h
    have hc : Multiset.Rel HRel (a ::ₘ (↑as : Multiset HVal)) ↑l2 := by simpa using h
    obtain ⟨b, bs2, hab, hrel, heq⟩ := Multiset.rel_cons_left.1 hc
    have hbmem : b ∈ l2 := by
      have : b ∈ (↑l2 : Multiset HVal) := heq ▸ Multiset.mem_cons_self b bs2
      simpa using this
    obtain ⟨pre, post, rfl⟩ := List.append_of_mem hbmem
    have hco : (↑(pre ++ b :: post) : Multiset HVal) = b ::ₘ ↑(pre ++ post) := by
      have hpm : (pre ++ b :: post).Perm (b :: (pre ++ post)) := List.perm_middle
      calc (↑(pre ++ b :: post) : Multiset HVal)
            = ↑(b :: (pre ++ post)) := Multiset.coe_eq_coe.2 hpm
          _ = b ::ₘ ↑(pre ++ post) := by simp
    have hbs2 : bs2 = ↑(pre ++ post) := by
      have := heq.symm.trans hco
      exact (Multiset.cons_inj_right b).1 this
    obtain ⟨mid2, hf2, hp2⟩ := ih (hbs2 ▸ hrel)
    refine ⟨b :: mid2, List.Forall₂.cons hab hf2, ?_⟩
    exact (List.Perm.cons b hp2).trans List.perm_middle.symm

theorem forall₂_mem_right {R : HVal → HVal → Prop} :
    ∀ {l1 l2 : List HVal}, List.Forall₂ R l1 l2 → ∀ {b}, b ∈ l2 → ∃ a ∈ l1, R a b := by
  intro l1 l2 h
  induction h with
  | nil => intro b hb; simp at hb
  | cons hab htail ih =>
    intro b2 hb2
    rcases List.mem_cons.1 hb2 with hb2 | hb2
    · subst hb2; exact ⟨_, by simp, hab⟩
    · obtain ⟨a2, ha2, hr⟩ := ih hb2
      exact ⟨a2, by simp [ha2], hr⟩

theorem pairwise_forall₂ {R S : HVal → HVal → Prop}
    (hcongr : ∀ a a2 b b2, R a a2 → R b b2 → S a b → S a2 b2) :
    ∀ {l1 l2 : List HVal}, List.Forall₂ R l1 l2 → l1.Pairwise S → l2.Pairwise S := by
  intro l1 l2 h
  induction h with
  | nil => intro _; exact List.Pairwise.nil
  | @cons a b as bs hab htail ih =>
    intro hp
    have hhead := (List.pairwise_cons.1 hp).1
    refine List.pairwise_cons.2 ⟨?_, ih (List.pairwise_cons.1 hp).2⟩
    intro b2 hb2
    obtain ⟨a2, ha2, hr⟩ := forall₂_mem_right htail hb2
    exact hcongr a b a2 b2 hab hr (hhead a2 ha2)

theorem cOK_congr {a a2 b b2 : HVal} (ha : HRel a a2) (hb : HRel b b2)
    (h : cOK a b) : cOK a2 b2 := by
  rw [cOK, ← pyHLt_congr_right a2 b b2 hb, ← pyHLt_congr_left a a2 b ha]
  exact h

theorem insort_pairwise_cOK {l r : List HVal} (hg : GoodL l)
    (hins : insortP l = some r) : l.Pairwise cOK := by
  obtain ⟨hchain, hperm⟩ := insortP_good hg hins
  have hplt : r.Pairwise ltT := List.chain'_iff_pairwise.1 hchain
  have hcok : r.Pairwise cOK := hplt.imp (fun h => by rw [cOK, h]; rfl)
  exact (hperm.pairwise_iff (fun hab => cOK_symm hab)).1 hcok

theorem insort_isSome_transfer {l1 l2 : List HVal} (hg1 : GoodL l1)
    (hrel : Multiset.Rel HRel (↑l1 : Multiset HVal) ↑l2)
    (h1 : (insortP l1).isSome) : (insortP l2).isSome := by
  obtain ⟨r1, hr1⟩ := Option.isSome_iff_exists.1 h1
  have hpc1 : l1.Pairwise cOK := insort_pairwise_cOK hg1 hr1
  obtain ⟨mid, hf, hp⟩ := rel_exists_mid hrel
  have hpcmid : mid.Pairwise cOK :=
    pairwise_forall₂ (S := cOK) (fun a a2 b b2 ha hb h => cOK_congr ha hb h) hf hpc1
  have hpc2 : l2.Pairwise cOK := (hp.pairwise_iff (fun hab => cOK_symm hab)).1 hpcmid
  exact insortP_isSome_of_pairwise hpc2

theorem multiset_rel_symm {s t : Multiset HVal} (h : Multiset.Rel HRel s t) :
    Multiset.Rel HRel t s :=
  (Multiset.rel_flip.2 h).mono fun a _ b _ hab => by
    rw [HRel, pyHEq_symm]
    exact hab

/-- Two sorted lists of key-distinct canonical pairs that hold the same
elements up to Python `==` agree pointwise up to Python `==`: the sorted
tuple produced for a dict is determined, up to `==`, by its contents. -/
theorem sorted_unique : ∀ (r1 r2 : List HVal),
    r1.Pairwise ltT → r2.Pairwise ltT →
    (∀ p ∈ r2, cpair p) →
    r2.Pairwise (fun p q => pyHEq (keyO p) (keyO q) = false) →
    Multiset.Rel HRel (↑r1 : Multiset HVal) ↑r2 → List.Forall₂ HRel r1 r2 := by
  intro r1
  induction r1 with
  | nil =>
    intro r2 _ _ _ _ hrel
    have h2 : r2 = [] := by simpa using hrel
    subst h2
    exact List.Forall₂.nil
  | cons a as ih =>
    intro r2 hp1 hp2 hcp2 hkey2 hrel
    have hrelc : Multiset.Rel HRel (a ::ₘ (↑as : Multiset HVal)) ↑r2 := by simpa using hrel
    obtain ⟨b1, bs1, hab1, hrel1, heq1⟩ := Multiset.rel_cons_left.1 hrelc
    cases r2 with
    | nil => simp at heq1
    | cons b bs =>
      have hrelflip : Multiset.Rel HRel (b ::ₘ (↑bs : Multiset HVal)) ↑(a :: as) := by
        have := multiset_rel_symm hrel
        simpa using this
      obtain ⟨a1, as1, hba1, hrel2, heq2⟩ := Multiset.rel_cons_left.1 hrelflip
      have hb1mem : b1 ∈ b :: bs := by
        have hm : b1 ∈ (↑(b :: bs) : Multiset HVal) := heq1 ▸ Multiset.mem_cons_self b1 bs1
        simpa using hm
      have ha1mem : a1 ∈ a :: as := by
        have hm : a1 ∈ (↑(a :: as) : Multiset HVal) := heq2 ▸ Multiset.mem_cons_self a1 as1
        simpa using hm
      have hab : HRel a b := by
        rcases List.mem_cons.1 hb1mem with hb1 | hb1
        · exact hb1 ▸ hab1
        · rcases List.mem_cons.1 ha1mem with ha1 | ha1
          · rw [HRel, pyHEq_symm]
            exact ha1 ▸ hba1
          · exfalso
            have hlt1 : ltT a a1 := (List.pairwise_cons.1 hp1).1 a1 ha1
            have hlt2 : ltT b b1 := (List.pairwise_cons.1 hp2).1 b1 hb1
            have ha1b : pyHEq a1 b = true := by rw [pyHEq_symm]; exact hba1
            have hb1a : pyHEq b1 a = true := by rw [pyHEq_symm]; exact hab1
            have hab2 : pyHLt a b = some true := by
              rw [← pyHLt_congr_right a a1 b ha1b]
              exact hlt1
            have hba2 : pyHLt b a = some true := by
              rw [← pyHLt_congr_right b b1 a hb1a]
              exact hlt2
            have hasymm := pyHLt_asymm a b hab2
            rw [hasymm] at hba2
            simp at hba2
      have heqc : b ::ₘ (↑bs : Multiset HVal) = b1 ::ₘ bs1 := by simpa using heq1
      rcases Multiset.cons_eq_cons.1 heqc with ⟨hbb, hbs⟩ | ⟨hne, cs, hcs1, hcs2⟩
      · have htail : Multiset.Rel HRel (↑as : Multiset HVal) ↑bs := by
          rw [hbs]
          exact hrel1
        exact List.Forall₂.cons hab
          (ih bs (List.pairwise_cons.1 hp1).2 (List.pairwise_cons.1 hp2).2
            (fun p hp => hcp2 p (by simp [hp])) (List.pairwise_cons.1 hkey2).2 htail)
      · exfalso
        have hb1bs : b1 ∈ bs := by
          have hm : b1 ∈ (↑bs : Multiset HVal) := hcs1 ▸ Multiset.mem_cons_self b1 cs
          simpa using hm
        have h1 : HRel b1 a := by rw [HRel, pyHEq_symm]; exact hab1
        have hb1b : HRel b1 b := pyHEq_trans b1 a b h1 hab
        have hkeq := pairHEq_key (hcp2 b1 (by simp [hb1bs])) (hcp2 b (by simp)) hb1b
        have hkne := (List.pairwise_cons.1 hkey2).1 b1 hb1bs
        rw [pyHEq_symm] at hkeq
        rw [hkne] at hkeq
        simp at hkeq

/-- Sorting two `==`-equivalent well-formed pair lists yields pointwise
`==`-equivalent results. -/
theorem insort_unique {l1 l2 r1 r2 : List HVal} (hg1 : GoodL l1) (hg2 : GoodL l2)
    (hrel : Multiset.Rel HRel (↑l1 : Multiset HVal) ↑l2)
    (h1 : insortP l1 = some r1) (h2 : insortP l2 = some r2) :
    List.Forall₂ HRel r1 r2 := by
  obtain ⟨hchain1, hperm1⟩ := insortP_good hg1 h1
  obtain ⟨hchain2, hperm2⟩ := insortP_good hg2 h2
  have hplt1 : r1.Pairwise ltT := List.chain'_iff_pairwise.1 hchain1
  have hplt2 : r2.Pairwise ltT := List.chain'_iff_pairwise.1 hchain2
  have hcp2 : ∀ p ∈ r2, cpair p := fun p hp => hg2.1 p (hperm2.mem_iff.1 hp)
  have hkey2 : r2.Pairwise (fun p q => pyHEq (keyO p) (keyO q) = false) :=
    (hperm2.pairwise_iff (fun hab => by rw [pyHEq_symm]; exact hab)).2 hg2.2
  have hrelr : Multiset.Rel HRel (↑r1 : Multiset HVal) ↑r2 := by
    rw [Multiset.coe_eq_coe.2 hperm1, Multiset.coe_eq_coe.2 hperm2]
    exact hrel
  exact sorted_unique r1 r2 hplt1 hplt2 hcp2 hkey2 hrelr

/-! ### Characterizations of the canonicalization helpers -/

theorem memP_exists : ∀ {x : PyVal} {ys : List PyVal},
    memP x ys = true ↔ ∃ y ∈ ys, pyEq x y = true := by
  intro x ys
  induction ys with
  | nil => simp [memP]
  | cons y ys ih => simp [memP, ih]

theorem subP_iff : ∀ {xs ys : List PyVal},
    subP xs ys = true ↔ ∀ x ∈ xs, memP x ys = true := by
  intro xs ys
  induction xs with
  | nil => simp [subP]
  | cons x xs ih => simp [subP, ih]

theorem pyEqList_iff : ∀ {xs ys : List PyVal},
    pyEqList xs ys = true ↔ List.Forall₂ (fun a b => pyEq a b = true) xs ys := by
  intro xs ys
  induction xs generalizing ys with
  | nil => cases ys <;> simp [pyEqList]
  | cons x xs ih => cases ys <;> simp [pyEqList, ih]

theorem pairMemP_exists : ∀ {k v : PyVal} {qs : List (PyVal × PyVal)},
    pairMemP k v qs = true ↔ ∃ q ∈ qs, pyEq k q.1 = true ∧ pyEq v q.2 = true := by
  intro k v qs
  induction qs with
  | nil => simp [pairMemP]
  | cons q qs ih =>
    obtain ⟨k2, v2⟩ := q
    simp [pairMemP, ih]

theorem dictSubP_iff : ∀ {ps qs : List (PyVal × PyVal)},
    dictSubP ps qs = true ↔ ∀ p ∈ ps, pairMemP p.1 p.2 qs = true := by
  intro ps qs
  induction ps with
  | nil => simp [dictSubP]
  | cons p ps ih =>
    obtain ⟨k, v⟩ := p
    simp [dictSubP, ih]

theorem keyMemP_exists : ∀ {k : PyVal} {ps : List (PyVal × PyVal)},
    keyMemP k ps = true ↔ ∃ q ∈ ps, pyEq k q.1 = true := by
  intro k ps
  induction ps with
  | nil => simp [keyMemP]
  | cons q ps ih =>
    obtain ⟨k2, v2⟩ := q
    simp [keyMemP, ih]

theorem keysDistinct_pairwise : ∀ {ps : List (PyVal × PyVal)},
    keysDistinct ps = true ↔ ps.Pairwise (fun p q => pyEq p.1 q.1 = false) := by
  intro ps
  induction ps with
  | nil => simp [keysDistinct]
  | cons p ps ih =>
    obtain ⟨k, v⟩ := p
    simp only [keysDistinct, Bool.and_eq_true, List.pairwise_cons, ih]
    constructor
    · intro ⟨hmem, hp⟩
      refine ⟨fun q hq => ?_, hp⟩
      cases hkq : pyEq k q.1 with
      | false => rfl
      | true =>
        exfalso
        simp only [Bool.not_eq_true'] at hmem
        have h2 : keyMemP k ps = true := keyMemP_exists.2 ⟨q, hq, hkq⟩
        rw [h2] at hmem
        cases hmem
    · intro ⟨hall, hp⟩
      refine ⟨?_, hp⟩
      cases hmem : keyMemP k ps with
      | false => rfl
      | true =>
        obtain ⟨q, hq, hkq⟩ := keyMemP_exists.1 hmem
        rw [hall q hq] at hkq
        cases hkq

theorem wfList_iff : ∀ {xs : List PyVal}, wfList xs = true ↔ ∀ x ∈ xs, wfP x = true := by
  intro xs
  induction xs with
  | nil => simp [wfList]
  | cons x xs ih => simp [wfList, ih]

theorem wfPairs_iff : ∀ {ps : List (PyVal × PyVal)},
    wfPairs ps = true ↔ ∀ p ∈ ps, wfP p.1 = true ∧ wfP p.2 = true := by
  intro ps
  induction ps with
  | nil => simp [wfPairs]
  | cons p ps ih =>
    obtain ⟨k, v⟩ := p
    simp [wfPairs, ih]

theorem canonList_forall₂ : ∀ {xs : List PyVal} {hs : List HVal},
    canonList xs = some hs ↔ List.Forall₂ (fun x h => canonKey x = some h) xs hs := by
  intro xs
  induction xs with
  | nil => intro hs; cases hs <;> simp [canonList]
  | cons x xs ih =>
    intro hs
    constructor
    · intro h
      cases hck : canonKey x with
      | none => simp [canonList, hck] at h
      | some hx =>
        cases hcl : canonList xs with
        | none => simp [canonList, hck, hcl] at h
        | some hxs =>
          simp only [canonList, hck, hcl, Option.some_inj] at h
          subst h
          exact List.Forall₂.cons hck (ih.1 hcl)
    · intro h
      cases hs with
      | nil => cases h
      | cons hx hxs =>
        have h1 := List.forall₂_cons.1 h
        simp [canonList, h1.1, ih.2 h1.2]

theorem canonList_none_iff : ∀ {xs : List PyVal},
    canonList xs = none ↔ ∃ x ∈ xs, canonKey x = none := by
  intro xs
  induction xs with
  | nil => simp [canonList]
  | cons x xs ih =>
    cases hck : canonKey x with
    | none => simp [canonList, hck]
    | some hx =>
      cases hcl : canonList xs with
      | none =>
        simp only [canonList, hck, hcl, true_iff]
        obtain ⟨y, hy, hyn⟩ := ih.1 hcl
        exact ⟨y, by simp [hy], hyn⟩
      | some hxs =>
        simp only [canonList, hck, hcl]
        constructor
        · intro h; cases h
        · intro ⟨y, hy, hyn⟩
          rcases List.mem_cons.1 hy with rfl | hy2
          · rw [hck] at hyn; cases hyn
          · have : canonList xs = none := ih.2 ⟨y, hy2, hyn⟩
            rw [hcl] at this; cases this

theorem hashKeyList_forall₂ : ∀ {xs : List PyVal} {hs : List HVal},
    hashKeyList xs = some hs ↔ List.Forall₂ (fun x h => hashKey x = some h) xs hs := by
  intro xs
  induction xs with
  | nil => intro hs; cases hs <;> simp [hashKeyList]
  | cons x xs ih =>
    intro hs
    constructor
    · intro h
      cases hck : hashKey x with
      | none => simp [hashKeyList, hck] at h
      | some hx =>
        cases hcl : hashKeyList xs with
        | none => simp [hashKeyList, hck, hcl] at h
        | some hxs =>
          simp only [hashKeyList, hck, hcl, Option.some_inj] at h
          subst h
          exact List.Forall₂.cons hck (ih.1 hcl)
    · intro h
      cases hs with
      | nil => cases h
      | cons hx hxs =>
        have h1 := List.forall₂_cons.1 h
        simp [hashKeyList, h1.1, ih.2 h1.2]

/-- The relation between a dict entry and its canonical pair. -/
def PairRel (kv : PyVal × PyVal) (p : HVal) : Prop :=
  ∃ hk hv, hashKey kv.1 = some hk ∧ canonKey kv.2 = some hv ∧ p = HVal.tuple [hk, hv]

theorem canonPairs_forall₂ : ∀ {ps : List (PyVal × PyVal)} {l : List HVal},
    canonPairs ps = some l ↔ List.Forall₂ PairRel ps l := by
  intro ps
  induction ps with
  | nil => intro l; cases l <;> simp [canonPairs]
  | cons p ps ih =>
    obtain ⟨k, v⟩ := p
    intro l
    constructor
    · intro h
      cases hk : hashKey k with
      | none => simp [canonPairs, hk] at h
      | some hhk =>
        cases hv : canonKey v with
        | none => simp [canonPairs, hk, hv] at h
        | some hhv =>
          cases hps : canonPairs ps with
          | none => simp [canonPairs, hk, hv, hps] at h
          | some rest =>
            simp only [canonPairs, hk, hv, hps, Option.some_inj] at h
            subst h
            exact List.Forall₂.cons ⟨hhk, hhv, hk, hv, rfl⟩ (ih.1 hps)
    · intro h
      cases l with
      | nil => cases h
      | cons p0 rest =>
        have h1 := List.forall₂_cons.1 h
        obtain ⟨hhk, hhv, hk, hv, rfl⟩ := h1.1
        simp [canonPairs, hk, hv, ih.2 h1.2]

theorem canonPairs_none_iff : ∀ {ps : List (PyVal × PyVal)},
    canonPairs ps = none ↔ ∃ p ∈ ps, hashKey p.1 = none ∨ canonKey p.2 = none := by
  intro ps
  induction ps with
  | nil => simp [canonPairs]
  | cons p ps ih =>
    obtain ⟨k, v⟩ := p
    cases hk : hashKey k with
    | none => simp [canonPairs, hk]
    | some hhk =>
      cases hv : canonKey v with
      | none => simp [canonPairs, hk, hv]
      | some hhv =>
        cases hps : canonPairs ps with
        | none =>
          simp only [canonPairs, hk, hv, hps, true_iff]
          obtain ⟨q, hq, hqn⟩ := ih.1 hps
          exact ⟨q, by simp [hq], hqn⟩
        | some rest =>
          simp only [canonPairs, hk, hv, hps]
          constructor
          · intro h; cases h
          · intro ⟨q, hq, hqn⟩
            rcases List.mem_cons.1 hq with rfl | hq2
            · rcases hqn with hqn | hqn
              · rw [hk] at hqn; cases hqn
              · rw [hv] at hqn; cases hqn
            · have : canonPairs ps = none := ih.2 ⟨q, hq2, hqn⟩
              rw [hps] at this; cases this

theorem forall₂_mem_right_gen {α β : Type} {R : α → β → Prop} :
    ∀ {l1 : List α} {l2 : List β}, List.Forall₂ R l1 l2 →
    ∀ {b}, b ∈ l2 → ∃ a ∈ l1, R a b := by
  intro l1 l2 h
  induction h with
  | nil => intro b hb; simp at hb
  | cons hab htail ih =>
    intro b2 hb2
    rcases List.mem_cons.1 hb2 with rfl | hb2
    · exact ⟨_, by simp, hab⟩
    · obtain ⟨a2, ha2, hr⟩ := ih hb2
      exact ⟨a2, by simp [ha2], hr⟩

theorem forall₂_mem_left_gen {α β : Type} {R : α → β → Prop} :
    ∀ {l1 : List α} {l2 : List β}, List.Forall₂ R l1 l2 →
    ∀ {a}, a ∈ l1 → ∃ b ∈ l2, R a b := by
  intro l1 l2 h
  induction h with
  | nil => intro a ha; simp at ha
  | cons hab htail ih =>
    intro a2 ha2
    rcases List.mem_cons.1 ha2 with rfl | ha2
    · exact ⟨_, by simp, hab⟩
    · obtain ⟨b2, hb2, hr⟩ := ih ha2
      exact ⟨b2, by simp [hb2], hr⟩

theorem pairwise_forall₂_gen {α β : Type} {R : α → β → Prop}
    {S : α → α → Prop} {T : β → β → Prop}
    (hcongr : ∀ a a2 b b2, R a b → R a2 b2 → S a a2 → T b b2) :
    ∀ {l1 : List α} {l2 : List β}, List.Forall₂ R l1 l2 →
    l1.Pairwise S → l2.Pairwise T := by
  intro l1 l2 h
  induction h with
  | nil => intro _; exact List.Pairwise.nil
  | @cons a b as bs hab htail ih =>
    intro hp
    have hhead := (List.pairwise_cons.1 hp).1
    refine List.pairwise_cons.2 ⟨?_, ih (List.pairwise_cons.1 hp).2⟩
    intro b2 hb2
    obtain ⟨a2, ha2, hr⟩ := forall₂_mem_right_gen htail hb2
    exact hcongr a a2 b b2 hab hr (hhead a2 ha2)

theorem hashKey_nofs : ∀ (k : PyVal) (h : HVal), hashKey k = some h → nofs h = true := by
  have key : ∀ (n : Nat) (k : PyVal) (h : HVal), sizeOf k ≤ n →
      hashKey k = some h → nofs h = true := by
    intro n
    induction n with
    | zero => intro k h hs; cases k <;> simp at hs
    | succ n ih =>
      intro k h hs hk
      cases k <;> simp [hashKey] at hk
      case int a => subst hk; simp [nofs]
      case str s => subst hk; simp [nofs]
      case obj i => subst hk; simp [nofs]
      case tuple xs =>
        obtain ⟨hs2, hl, rfl⟩ := hk
        simp only [nofs]
        rw [nofsList_iff]
        intro hh hhmem
        obtain ⟨x, hx, hxk⟩ := forall₂_mem_right_gen (hashKeyList_forall₂.1 hl) hhmem
        have s1 := List.sizeOf_lt_of_mem hx
        simp at hs
        exact ih x hh (by omega) hxk
  exact fun k h => key (sizeOf k) k h le_rfl

theorem hashKeyList_rel_of {xs ys : List PyVal}
    (ih : ∀ x ∈ xs, ∀ y ∈ ys, pyEq x y = true →
      (hashKey x = none ∧ hashKey y = none) ∨
      ∃ h h2, hashKey x = some h ∧ hashKey y = some h2 ∧ pyHEq h h2 = true)
    (h : pyEqList xs ys = true) :
    (hashKeyList xs = none ∧ hashKeyList ys = none) ∨
    ∃ hs hs2, hashKeyList xs = some hs ∧ hashKeyList ys = some hs2 ∧
      pyHEqList hs hs2 = true := by
  induction xs generalizing ys with
  | nil =>
    cases ys with
    | nil => exact Or.inr ⟨[], [], by simp [hashKeyList], by simp [hashKeyList], by simp [pyHEqList]⟩
    | cons y ys => simp [pyEqList] at h
  | cons x xs ihl =>
    cases ys with
    | nil => simp [pyEqList] at h
    | cons y ys =>
      simp only [pyEqList, Bool.and_eq_true] at h
      rcases ih x (by simp) y (by simp) h.1 with ⟨hx, hy⟩ | ⟨hh, hh2, hx, hy, hrel⟩
      · exact Or.inl ⟨by simp [hashKeyList, hx], by simp [hashKeyList, hy]⟩
      · rcases ihl (fun a ha b hb hab => ih a (by simp [ha]) b (by simp [hb]) hab) h.2 with
          ⟨hxs, hys⟩ | ⟨hs, hs2, hxs, hys, hrel2⟩
        · exact Or.inl ⟨by simp [hashKeyList, hx, hxs], by simp [hashKeyList, hy, hys]⟩
        · exact Or.inr ⟨hh :: hs, hh2 :: hs2, by simp [hashKeyList, hx, hxs],
            by simp [hashKeyList, hy, hys], by simp [pyHEqList, hrel, hrel2]⟩

theorem pyEq_hashKey : ∀ (k k2 : PyVal), pyEq k k2 = true →
    (hashKey k = none ∧ hashKey k2 = none) ∨
    ∃ h h2, hashKey k = some h ∧ hashKey k2 = some h2 ∧ pyHEq h h2 = true := by
  have key : ∀ (n : Nat) (k k2 : PyVal), sizeOf k + sizeOf k2 ≤ n → pyEq k k2 = true →
      (hashKey k = none ∧ hashKey k2 = none) ∨
      ∃ h h2, hashKey k = some h ∧ hashKey k2 = some h2 ∧ pyHEq h h2 = true := by
    intro n
    induction n with
    | zero => intro k k2 hs; cases k <;> simp at hs
    | succ n ih =>
      intro k k2 hs h
      cases k <;> cases k2 <;> simp [pyEq] at h
      case int.int a b =>
        subst h
        exact Or.inr ⟨.int a, .int a, by simp [hashKey], by simp [hashKey], by simp [pyHEq]⟩
      case str.str a b =>
        subst h
        exact Or.inr ⟨.str a, .str a, by simp [hashKey], by simp [hashKey], by simp [pyHEq]⟩
      case obj.obj a b =>
        subst h
        exact Or.inr ⟨.obj a, .obj a, by simp [hashKey], by simp [hashKey], by simp [pyHEq]⟩
      case uobj.uobj a b => exact Or.inl ⟨by simp [hashKey], by simp [hashKey]⟩
      case list.list xs ys => exact Or.inl ⟨by simp [hashKey], by simp [hashKey]⟩
      case dict.dict ps qs => exact Or.inl ⟨by simp [hashKey], by simp [hashKey]⟩
      case set.set xs ys => exact Or.inl ⟨by simp [hashKey], by simp [hashKey]⟩
      case tuple.tuple xs ys =>
        have hel : ∀ x ∈ xs, ∀ y ∈ ys, pyEq x y = true →
            (hashKey x = none ∧ hashKey y = none) ∨
            ∃ hh h2, hashKey x = some hh ∧ hashKey y = some h2 ∧ pyHEq hh h2 = true := by
          intro x hx y hy hxy
          have s1 := List.sizeOf_lt_of_mem hx
          have s2 := List.sizeOf_lt_of_mem hy
          simp at hs
          exact ih x y (by omega) hxy
        rcases hashKeyList_rel_of hel h with ⟨hx, hy⟩ | ⟨hs1, hs2, hx, hy, hrel⟩
        · exact Or.inl ⟨by simp [hashKey, hx], by simp [hashKey, hy]⟩
        · exact Or.inr ⟨.tuple hs1, .tuple hs2, by simp [hashKey, hx],
            by simp [hashKey, hy], by simp [pyHEq, hrel]⟩
  exact fun k k2 => key (sizeOf k + sizeOf k2) k k2 le_rfl

theorem hashKeyList_faithful_of {xs ys : List PyVal} {hs hs2 : List HVal}
    (ih : ∀ x ∈ xs, ∀ y ∈ ys, ∀ hx hy, hashKey x = some hx → hashKey y = some hy →
      pyHEq hx hy = true → pyEq x y = true)
    (h1 : hashKeyList xs = some hs) (h2 : hashKeyList ys = some hs2)
    (hrel : pyHEqList hs hs2 = true) : pyEqList xs ys = true := by
  induction xs generalizing ys hs hs2 with
  | nil =>
    cases ys with
    | nil => simp [pyEqList]
    | cons y ys =>
      simp [hashKeyList] at h1
      subst h1
      cases hy : hashKey y <;> cases hys : hashKeyList ys <;>
        simp [hashKeyList, hy, hys] at h2 <;> subst h2 <;> simp [pyHEqList] at hrel
  | cons x xs ihl =>
    cases ys with
    | nil =>
      simp [hashKeyList] at h2
      subst h2
      cases hx : hashKey x <;> cases hxs : hashKeyList xs <;>
        simp [hashKeyList, hx, hxs] at h1 <;> subst h1 <;> simp [pyHEqList] at hrel
    | cons y ys =>
      cases hx : hashKey x with
      | none => simp [hashKeyList, hx] at h1
      | some hhx =>
        cases hxs : hashKeyList xs with
        | none => simp [hashKeyList, hx, hxs] at h1
        | some hrest =>
          cases hy : hashKey y with
          | none => simp [hashKeyList, hy] at h2
          | some hhy =>
            cases hys : hashKeyList ys with
            | none => simp [hashKeyList, hy, hys] at h2
            | some hrest2 =>
              simp only [hashKeyList, hx, hxs, Option.some_inj] at h1
              simp only [hashKeyList, hy, hys, Option.some_inj] at h2
              subst h1
              subst h2
              simp only [pyHEqList, Bool.and_eq_true] at hrel
              simp only [pyEqList, Bool.and_eq_true]
              exact ⟨ih x (by simp) y (by simp) hhx hhy hx hy hrel.1,
                ihl (fun a ha b hb hha hhb hhab hr =>
                  ih a (by simp [ha]) b (by simp [hb]) hha hhb hhab hr) hxs hys hrel.2⟩

theorem hashKey_faithful : ∀ (k k2 : PyVal) (h h2 : HVal),
    hashKey k = some h → hashKey k2 = some h2 → pyHEq h h2 = true →
    pyEq k k2 = true := by
  have key : ∀ (n : Nat) (k k2 : PyVal) (h h2 : HVal), sizeOf k + sizeOf k2 ≤ n →
      hashKey k = some h → hashKey k2 = some h2 → pyHEq h h2 = true →
      pyEq k k2 = true := by
    intro n
    induction n with
    | zero => intro k k2 h h2 hs; cases k <;> simp at hs
    | succ n ih =>
      intro k k2 h h2 hs hk1 hk2 hrel
      cases k <;> simp [hashKey] at hk1
      case int a =>
        subst hk1
        cases k2 <;> simp [hashKey] at hk2
        case int b =>
          subst hk2
          simp [pyHEq] at hrel
          simp [pyEq, hrel]
        case str s => subst hk2; simp [pyHEq] at hrel
        case obj i => subst hk2; simp [pyHEq] at hrel
        case tuple ys =>
          obtain ⟨l2, hl2, rfl⟩ := hk2
          simp [pyHEq] at hrel
      case str s =>
        subst hk1
        cases k2 <;> simp [hashKey] at hk2
        case int b => subst hk2; simp [pyHEq] at hrel
        case str s2 =>
          subst hk2
          simp [pyHEq] at hrel
          simp [pyEq, hrel]
        case obj i => subst hk2; simp [pyHEq] at hrel
        case tuple ys =>
          obtain ⟨l2, hl2, rfl⟩ := hk2
          simp [pyHEq] at hrel
      case obj i =>
        subst hk1
        cases k2 <;> simp [hashKey] at hk2
        case int b => subst hk2; simp [pyHEq] at hrel
        case str s2 => subst hk2; simp [pyHEq] at hrel
        case obj i2 =>
          subst hk2
          simp [pyHEq] at hrel
          simp [pyEq, hrel]
        case tuple ys =>
          obtain ⟨l2, hl2, rfl⟩ := hk2
          simp [pyHEq] at hrel
      case tuple xs =>
        obtain ⟨l1, hl1, rfl⟩ := hk1
        cases k2 <;> simp [hashKey] at hk2
        case int b => subst hk2; simp [pyHEq] at hrel
        case str s2 => subst hk2; simp [pyHEq] at hrel
        case obj i2 => subst hk2; simp [pyHEq] at hrel
        case tuple ys =>
          obtain ⟨l2, hl2, rfl⟩ := hk2
          simp only [pyHEq] at hrel
          simp only [pyEq]
          refine hashKeyList_faithful_of (fun x hx y hy hhx hhy hhk1 hhk2 hr => ?_) hl1 hl2 hrel
          have s1 := List.sizeOf_lt_of_mem hx
          have s2 := List.sizeOf_lt_of_mem hy
          simp at hs
          exact ih x y hhx hhy (by omega) hhk1 hhk2 hr
  exact fun k k2 h h2 => key (sizeOf k + sizeOf k2) k k2 h h2 le_rfl

theorem canonPairs_length {ps : List (PyVal × PyVal)} {l : List HVal}
    (h : canonPairs ps = some l) : l.length = ps.length :=
  (canonPairs_forall₂.1 h).length_eq.symm

/-- The canonical pair list of any Python dict (distinct keys) is a
well-shaped sortable list. -/
theorem canonPairs_GoodL {ps : List (PyVal × PyVal)} {l : List HVal}
    (h : canonPairs ps = some l) (hd : keysDistinct ps = true) : GoodL l := by
  have hf := canonPairs_forall₂.1 h
  constructor
  · intro p hp
    obtain ⟨kv, _, hk, hv, hhk, _, rfl⟩ := forall₂_mem_right_gen hf hp
    exact ⟨hk, hv, rfl, hashKey_nofs kv.1 hk hhk⟩
  · refine pairwise_forall₂_gen (T := fun p q => pyHEq (keyO p) (keyO q) = false)
      (fun kv kv2 p q hr hr2 hS => ?_) hf (keysDistinct_pairwise.1 hd)
    obtain ⟨hk, hv, hhk, hhv, rfl⟩ := hr
    obtain ⟨hk2, hv2, hhk2, hhv2, rfl⟩ := hr2
    simp only [keyO]
    cases hq : pyHEq hk hk2 with
    | false => rfl
    | true =>
      have := hashKey_faithful kv.1 kv2.1 hk hk2 hhk hhk2 hq
      rw [hS] at this
      cases this

/-- A one-sided `==`-containment between equally long lists of key-distinct
canonical pairs is a bijection: the two lists are multiset-related by `==`. -/
theorem rel_of_subset_distinct : ∀ (l1 l2 : List HVal),
    (∀ p ∈ l1, ∃ q ∈ l2, HRel p q) →
    l1.length = l2.length →
    (∀ p ∈ l1, cpair p) → (∀ q ∈ l2, cpair q) →
    l1.Pairwise (fun p q => pyHEq (keyO p) (keyO q) = false) →
    Multiset.Rel HRel (↑l1 : Multiset HVal) ↑l2 := by
  intro l1
  induction l1 with
  | nil =>
    intro l2 _ hlen _ _ _
    have : l2 = [] := List.length_eq_zero.1 hlen.symm
    subst this
    simp
  | cons p ps ih =>
    intro l2 hsub hlen hcp1 hcp2 hkey1
    obtain ⟨q, hq, hpq⟩ := hsub p (by simp)
    obtain ⟨pre, post, rfl⟩ := List.append_of_mem hq
    have hsub2 : ∀ p2 ∈ ps, ∃ q2 ∈ pre ++ post, HRel p2 q2 := by
      intro p2 hp2
      obtain ⟨q2, hq2, hq2rel⟩ := hsub p2 (by simp [hp2])
      rcases List.mem_append.1 hq2 with hq2m | hq2m
      · exact ⟨q2, List.mem_append.2 (Or.inl hq2m), hq2rel⟩
      · rcases List.mem_cons.1 hq2m with rfl | hq2m
        · exfalso
          have hp2p : HRel p2 p :=
            pyHEq_trans p2 q2 p hq2rel (by rw [pyHEq_symm]; exact hpq)
          have hkeq := pairHEq_key (hcp1 p2 (by simp [hp2])) (hcp1 p (by simp)) hp2p
          have hkne := (List.pairwise_cons.1 hkey1).1 p2 hp2
          rw [pyHEq_symm] at hkeq
          rw [hkne] at hkeq
          cases hkeq
        · exact ⟨q2, List.mem_append.2 (Or.inr hq2m), hq2rel⟩
    have hlen2 : ps.length = (pre ++ post).length := by
      simp at hlen ⊢
      omega
    have hrel2 := ih (pre ++ post) hsub2 hlen2
      (fun p2 hp2 => hcp1 p2 (by simp [hp2]))
      (fun q2 hq2 => hcp2 q2 (by
        rcases List.mem_append.1 hq2 with hh | hh
        · simp [hh]
        · simp [hh]))
      (List.pairwise_cons.1 hkey1).2
    have hco : (↑(pre ++ q :: post) : Multiset HVal) = q ::ₘ ↑(pre ++ post) := by
      calc (↑(pre ++ q :: post) : Multiset HVal)
            = ↑(q :: (pre ++ post)) := Multiset.coe_eq_coe.2 List.perm_middle
          _ = q ::ₘ ↑(pre ++ post) := by simp
    have : Multiset.Rel HRel (p ::ₘ (↑ps : Multiset HVal)) ↑(pre ++ q :: post) :=
      Multiset.rel_cons_left.2 ⟨q, ↑(pre ++ post), hpq, hrel2, hco⟩
    simpa using this

/-! ### Python `==` implies equivalence of canonical keys -/

theorem canonList_rel_of {xs ys : List PyVal}
    (ih : ∀ x ∈ xs, ∀ y ∈ ys, pyEq x y = true →
      (canonKey x = none ∧ canonKey y = none) ∨
      ∃ h h2, canonKey x = some h ∧ canonKey y = some h2 ∧ pyHEq h h2 = true)
    (h : pyEqList xs ys = true) :
    (canonList xs = none ∧ canonList ys = none) ∨
    ∃ hs hs2, canonList xs = some hs ∧ canonList ys = some hs2 ∧
      pyHEqList hs hs2 = true := by
  induction xs generalizing ys with
  | nil =>
    cases ys with
    | nil =>
      exact Or.inr ⟨[], [], by simp [canonList], by simp [canonList], by simp [pyHEqList]⟩
    | cons y ys => simp [pyEqList] at h
  | cons x xs ihl =>
    cases ys with
    | nil => simp [pyEqList] at h
    | cons y ys =>
      simp only [pyEqList, Bool.and_eq_true] at h
      rcases ih x (by simp) y (by simp) h.1 with ⟨hx, hy⟩ | ⟨hh, hh2, hx, hy, hrel⟩
      · exact Or.inl ⟨by simp [canonList, hx], by simp [canonList, hy]⟩
      · rcases ihl (fun a ha b hb hab => ih a (by simp [ha]) b (by simp [hb]) hab) h.2 with
          ⟨hxs, hys⟩ | ⟨hs, hs2, hxs, hys, hrel2⟩
        · exact Or.inl ⟨by simp [canonList, hx, hxs], by simp [canonList, hy, hys]⟩
        · exact Or.inr ⟨hh :: hs, hh2 :: hs2, by simp [canonList, hx, hxs],
            by simp [canonList, hy, hys], by simp [pyHEqList, hrel, hrel2]⟩

theorem canonSet_rel_of {xs ys : List PyVal}
    (ih : ∀ x ∈ xs, ∀ y ∈ ys, pyEq x y = true →
      (canonKey x = none ∧ canonKey y = none) ∨
      ∃ h h2, canonKey x = some h ∧ canonKey y = some h2 ∧ pyHEq h h2 = true)
    (ihr : ∀ y ∈ ys, ∀ x ∈ xs, pyEq y x = true →
      (canonKey y = none ∧ canonKey x = none) ∨
      ∃ h h2, canonKey y = some h ∧ canonKey x = some h2 ∧ pyHEq h h2 = true)
    (hsub1 : subP xs ys = true) (hsub2 : subP ys xs = true) :
    (canonList xs = none ∧ canonList ys = none) ∨
    ∃ hs hs2, canonList xs = some hs ∧ canonList ys = some hs2 ∧
      subH hs hs2 = true ∧ subH hs2 hs = true := by
  cases hcx : canonList xs with
  | none =>
    obtain ⟨x, hx, hxn⟩ := canonList_none_iff.1 hcx
    obtain ⟨y, hy, hxy⟩ := memP_exists.1 (subP_iff.1 hsub1 x hx)
    rcases ih x hx y hy hxy with ⟨_, hyn⟩ | ⟨hh, hh2, hxs, _, _⟩
    · exact Or.inl ⟨rfl, canonList_none_iff.2 ⟨y, hy, hyn⟩⟩
    · rw [hxn] at hxs; cases hxs
  | some hs =>
    cases hcy : canonList ys with
    | none =>
      obtain ⟨y, hy, hyn⟩ := canonList_none_iff.1 hcy
      obtain ⟨x, hx, hyx⟩ := memP_exists.1 (subP_iff.1 hsub2 y hy)
      rcases ihr y hy x hx hyx with ⟨_, hxn⟩ | ⟨hh, hh2, hys, _, _⟩
      · exfalso
        have : canonList xs = none := canonList_none_iff.2 ⟨x, hx, hxn⟩
        rw [hcx] at this; cases this
      · rw [hyn] at hys; cases hys
    | some hs2 =>
      refine Or.inr ⟨hs, hs2, rfl, rfl, ?_, ?_⟩
      · rw [subH_iff]
        intro ch hch
        obtain ⟨x, hx, hxc⟩ := forall₂_mem_right_gen (canonList_forall₂.1 hcx) hch
        obtain ⟨y, hy, hxy⟩ := memP_exists.1 (subP_iff.1 hsub1 x hx)
        rcases ih x hx y hy hxy with ⟨hxn, _⟩ | ⟨hh, hh2, hxs, hys, hrel⟩
        · rw [hxc] at hxn; cases hxn
        · rw [hxc] at hxs
          obtain ⟨ch2, hch2, hyc⟩ := forall₂_mem_left_gen (canonList_forall₂.1 hcy) hy
          rw [hys] at hyc
          have e1 : hh = ch := by injection hxs.symm
          have e2 : hh2 = ch2 := by injection hyc
          subst e1
          subst e2
          exact memH_of hch2 hrel
      · rw [subH_iff]
        intro ch hch
        obtain ⟨y, hy, hyc⟩ := forall₂_mem_right_gen (canonList_forall₂.1 hcy) hch
        obtain ⟨x, hx, hyx⟩ := memP_exists.1 (subP_iff.1 hsub2 y hy)
        rcases ihr y hy x hx hyx with ⟨hyn, _⟩ | ⟨hh, hh2, hys, hxs, hrel⟩
        · rw [hyc] at hyn; cases hyn
        · rw [hyc] at hys
          obtain ⟨ch2, hch2, hxc⟩ := forall₂_mem_left_gen (canonList_forall₂.1 hcx) hx
          rw [hxs] at hxc
          have e1 : hh = ch := by injection hys.symm
          have e2 : hh2 = ch2 := by injection hxc
          subst e1
          subst e2
          exact memH_of hch2 hrel

theorem canonDict_rel_of {ps qs : List (PyVal × PyVal)}
    (ihv : ∀ p ∈ ps, ∀ q ∈ qs, pyEq p.2 q.2 = true →
      (canonKey p.2 = none ∧ canonKey q.2 = none) ∨
      ∃ h h2, canonKey p.2 = some h ∧ canonKey q.2 = some h2 ∧ pyHEq h h2 = true)
    (ihv2 : ∀ q ∈ qs, ∀ p ∈ ps, pyEq q.2 p.2 = true →
      (canonKey q.2 = none ∧ canonKey p.2 = none) ∨
      ∃ h h2, canonKey q.2 = some h ∧ canonKey p.2 = some h2 ∧ pyHEq h h2 = true)
    (hlen : ps.length = qs.length)
    (hsub1 : dictSubP ps qs = true) (hsub2 : dictSubP qs ps = true)
    (hd1 : keysDistinct ps = true) (hd2 : keysDistinct qs = true) :
    (canonKey (.dict ps) = none ∧ canonKey (.dict qs) = none) ∨
    ∃ h h2, canonKey (.dict ps) = some h ∧ canonKey (.dict qs) = some h2 ∧
      pyHEq h h2 = true := by
  have htrans1 : canonPairs ps = none → canonPairs qs = none := by
    intro hn
    obtain ⟨p, hp, hor⟩ := canonPairs_none_iff.1 hn
    obtain ⟨q, hq, hkq, hvq⟩ := pairMemP_exists.1 (dictSubP_iff.1 hsub1 p hp)
    apply canonPairs_none_iff.2
    refine ⟨q, hq, ?_⟩
    rcases hor with hk | hv
    · left
      rcases pyEq_hashKey p.1 q.1 hkq with ⟨_, h2⟩ | ⟨hh, hh2, h1, _, _⟩
      · exact h2
      · rw [hk] at h1; cases h1
    · right
      rcases ihv p hp q hq hvq with ⟨_, h2⟩ | ⟨hh, hh2, h1, _, _⟩
      · exact h2
      · rw [hv] at h1; cases h1
  have htrans2 : canonPairs qs = none → canonPairs ps = none := by
    intro hn
    obtain ⟨q, hq, hor⟩ := canonPairs_none_iff.1 hn
    obtain ⟨p, hp, hkq, hvq⟩ := pairMemP_exists.1 (dictSubP_iff.1 hsub2 q hq)
    apply canonPairs_none_iff.2
    refine ⟨p, hp, ?_⟩
    rcases hor with hk | hv
    · left
      rcases pyEq_hashKey q.1 p.1 hkq with ⟨_, h2⟩ | ⟨hh, hh2, h1, _, _⟩
      · exact h2
      · rw [hk] at h1; cases h1
    · right
      rcases ihv2 q hq p hp hvq with ⟨_, h2⟩ | ⟨hh, hh2, h1, _, _⟩
      · exact h2
      · rw [hv] at h1; cases h1
  cases hcp1 : canonPairs ps with
  | none =>
    left
    exact ⟨by simp [canonKey, hcp1], by simp [canonKey, htrans1 hcp1]⟩
  | some cp1 =>
    cases hcp2 : canonPairs qs with
    | none =>
      exfalso
      have := htrans2 hcp2
      rw [hcp1] at this
      cases this
    | some cp2 =>
      have good1 : GoodL cp1 := canonPairs_GoodL hcp1 hd1
      have good2 : GoodL cp2 := canonPairs_GoodL hcp2 hd2
      have hsubH : ∀ p0 ∈ cp1, ∃ q0 ∈ cp2, HRel p0 q0 := by
        intro p0 hp0
        obtain ⟨kv, hkv, hpr⟩ := forall₂_mem_right_gen (canonPairs_forall₂.1 hcp1) hp0
        obtain ⟨hk, hv, hhk, hhv, rfl⟩ := hpr
        obtain ⟨kv2, hkv2, hkq, hvq⟩ := pairMemP_exists.1 (dictSubP_iff.1 hsub1 kv hkv)
        obtain ⟨q0, hq0, hq0rel⟩ := forall₂_mem_left_gen (canonPairs_forall₂.1 hcp2) hkv2
        obtain ⟨hk2, hv2, hhk2, hhv2, rfl⟩ := hq0rel
        refine ⟨_, hq0, ?_⟩
        have hkk : pyHEq hk hk2 = true := by
          rcases pyEq_hashKey kv.1 kv2.1 hkq with ⟨h1, _⟩ | ⟨a1, a2, e1, e2, hr⟩
          · rw [hhk] at h1; cases h1
          · rw [hhk] at e1
            rw [hhk2] at e2
            rw [Option.some_inj.1 e1, Option.some_inj.1 e2]
            exact hr
        have hvv : pyHEq hv hv2 = true := by
          rcases ihv kv hkv kv2 hkv2 hvq with ⟨h1, _⟩ | ⟨a1, a2, e1, e2, hr⟩
          · rw [hhv] at h1; cases h1
          · rw [hhv] at e1
            rw [hhv2] at e2
            rw [Option.some_inj.1 e1, Option.some_inj.1 e2]
            exact hr
        show pyHEq (.tuple [hk, hv]) (.tuple [hk2, hv2]) = true
        simp [pyHEq, pyHEqList, hkk, hvv]
      have hrel := rel_of_subset_distinct cp1 cp2 hsubH
        (by rw [canonPairs_length hcp1, canonPairs_length hcp2, hlen])
        good1.1 good2.1 good1.2
      cases hins1 : insortP cp1 with
      | none =>
        left
        constructor
        · simp [canonKey, hcp1, hins1]
        · cases hins2 : insortP cp2 with
          | none => simp [canonKey, hcp2, hins2]
          | some r2 =>
            exfalso
            have h1s : (insortP cp1).isSome :=
              insort_isSome_transfer good2 (multiset_rel_symm hrel) (by simp [hins2])
            rw [hins1] at h1s
            simp at h1s
      | some r1 =>
        have h2s : (insortP cp2).isSome :=
          insort_isSome_transfer good1 hrel (by simp [hins1])
        obtain ⟨r2, hr2⟩ := Option.isSome_iff_exists.1 h2s
        have hf := insort_unique good1 good2 hrel hins1 hr2
        right
        refine ⟨.tuple r1, .tuple r2, by simp [canonKey, hcp1, hins1],
          by simp [canonKey, hcp2, hr2], ?_⟩
        simp only [pyHEq]
        exact pyHEqList_iff.2 hf

/-- Python `==`-equal well-formed values canonicalize together: either both
raise `TypeError`, or both produce canonical keys that are `==`-equal.  This
is the reason the tracker's value-equality matching is insensitive to how a
value is written (dict ordering, set ordering, list/tuple spelling of equal
element sequences). -/
theorem pyEq_canon : ∀ (x y : PyVal), wfP x = true → wfP y = true → pyEq x y = true →
    (canonKey x = none ∧ canonKey y = none) ∨
    ∃ hx hy, canonKey x = some hx ∧ canonKey y = some hy ∧ pyHEq hx hy = true := by
  have key : ∀ (n : Nat) (x y : PyVal), sizeOf x + sizeOf y ≤ n →
      wfP x = true → wfP y = true → pyEq x y = true →
      (canonKey x = none ∧ canonKey y = none) ∨
      ∃ hx hy, canonKey x = some hx ∧ canonKey y = some hy ∧ pyHEq hx hy = true := by
    intro n
    induction n with
    | zero => intro x y hs; cases x <;> simp at hs
    | succ n ih =>
      intro x y hs hwx hwy h
      cases x <;> cases y <;> simp [pyEq] at h
      case int.int a b =>
        subst h
        exact Or.inr ⟨.int a, .int a, by simp [canonKey], by simp [canonKey], by simp [pyHEq]⟩
      case str.str a b =>
        subst h
        exact Or.inr ⟨.str a, .str a, by simp [canonKey], by simp [canonKey], by simp [pyHEq]⟩
      case obj.obj a b =>
        subst h
        exact Or.inr ⟨.obj a, .obj a, by simp [canonKey], by simp [canonKey], by simp [pyHEq]⟩
      case uobj.uobj a b => exact Or.inl ⟨by simp [canonKey], by simp [canonKey]⟩
      case list.list xs ys =>
        simp only [wfP] at hwx hwy
        have hel : ∀ x2 ∈ xs, ∀ y2 ∈ ys, pyEq x2 y2 = true →
            (canonKey x2 = none ∧ canonKey y2 = none) ∨
            ∃ h1 h2, canonKey x2 = some h1 ∧ canonKey y2 = some h2 ∧ pyHEq h1 h2 = true := by
          intro x2 hx2 y2 hy2 hq
          have s1 := List.sizeOf_lt_of_mem hx2
          have s2 := List.sizeOf_lt_of_mem hy2
          simp at hs
          exact ih x2 y2 (by omega) (wfList_iff.1 hwx x2 hx2) (wfList_iff.1 hwy y2 hy2) hq
        rcases canonList_rel_of hel h with ⟨h1, h2⟩ | ⟨hs1, hs2, h1, h2, hrel⟩
        · exact Or.inl ⟨by simp [canonKey, h1], by simp [canonKey, h2]⟩
        · exact Or.inr ⟨.tuple hs1, .tuple hs2, by simp [canonKey, h1],
            by simp [canonKey, h2], by simp [pyHEq, hrel]⟩
      case tuple.tuple xs ys =>
        simp only [wfP] at hwx hwy
        have hel : ∀ x2 ∈ xs, ∀ y2 ∈ ys, pyEq x2 y2 = true →
            (canonKey x2 = none ∧ canonKey y2 = none) ∨
            ∃ h1 h2, canonKey x2 = some h1 ∧ canonKey y2 = some h2 ∧ pyHEq h1 h2 = true := by
          intro x2 hx2 y2 hy2 hq
          have s1 := List.sizeOf_lt_of_mem hx2
          have s2 := List.sizeOf_lt_of_mem hy2
          simp at hs
          exact ih x2 y2 (by omega) (wfList_iff.1 hwx x2 hx2) (wfList_iff.1 hwy y2 hy2) hq
        rcases canonList_rel_of hel h with ⟨h1, h2⟩ | ⟨hs1, hs2, h1, h2, hrel⟩
        · exact Or.inl ⟨by simp [canonKey, h1], by simp [canonKey, h2]⟩
        · exact Or.inr ⟨.tuple hs1, .tuple hs2, by simp [canonKey, h1],
            by simp [canonKey, h2], by simp [pyHEq, hrel]⟩
      case set.set xs ys =>
        simp only [wfP] at hwx hwy
        have hel : ∀ x2 ∈ xs, ∀ y2 ∈ ys, pyEq x2 y2 = true →
            (canonKey x2 = none ∧ canonKey y2 = none) ∨
            ∃ h1 h2, canonKey x2 = some h1 ∧ canonKey y2 = some h2 ∧ pyHEq h1 h2 = true := by
          intro x2 hx2 y2 hy2 hq
          have s1 := List.sizeOf_lt_of_mem hx2
          have s2 := List.sizeOf_lt_of_mem hy2
          simp at hs
          exact ih x2 y2 (by omega) (wfList_iff.1 hwx x2 hx2) (wfList_iff.1 hwy y2 hy2) hq
        have hel2 : ∀ y2 ∈ ys, ∀ x2 ∈ xs, pyEq y2 x2 = true →
            (canonKey y2 = none ∧ canonKey x2 = none) ∨
            ∃ h1 h2, canonKey y2 = some h1 ∧ canonKey x2 = some h2 ∧ pyHEq h1 h2 = true := by
          intro y2 hy2 x2 hx2 hq
          have s1 := List.sizeOf_lt_of_mem hx2
          have s2 := List.sizeOf_lt_of_mem hy2
          simp at hs
          exact ih y2 x2 (by omega) (wfList_iff.1 hwy y2 hy2) (wfList_iff.1 hwx x2 hx2) hq
        rcases canonSet_rel_of hel hel2 h.1 h.2 with ⟨h1, h2⟩ | ⟨hs1, hs2, h1, h2, hq1, hq2⟩
        · exact Or.inl ⟨by simp [canonKey, h1], by simp [canonKey, h2]⟩
        · exact Or.inr ⟨.fset hs1, .fset hs2, by simp [canonKey, h1],
            by simp [canonKey, h2], by simp [pyHEq, hq1, hq2]⟩
      case dict.dict ps qs =>
        simp only [wfP, Bool.and_eq_true] at hwx hwy
        have hel : ∀ p ∈ ps, ∀ q ∈ qs, pyEq p.2 q.2 = true →
            (canonKey p.2 = none ∧ canonKey q.2 = none) ∨
            ∃ h1 h2, canonKey p.2 = some h1 ∧ canonKey q.2 = some h2 ∧ pyHEq h1 h2 = true := by
          intro p hp q hq hvq
          have s1 := List.sizeOf_lt_of_mem hp
          have s2 := List.sizeOf_lt_of_mem hq
          obtain ⟨k, v⟩ := p
          obtain ⟨k2, v2⟩ := q
          simp at hs s1 s2
          exact ih v v2 (by omega) ((wfPairs_iff.1 hwx.2 (k, v) hp).2)
            ((wfPairs_iff.1 hwy.2 (k2, v2) hq).2) hvq
        have hel2 : ∀ q ∈ qs, ∀ p ∈ ps, pyEq q.2 p.2 = true →
            (canonKey q.2 = none ∧ canonKey p.2 = none) ∨
            ∃ h1 h2, canonKey q.2 = some h1 ∧ canonKey p.2 = some h2 ∧ pyHEq h1 h2 = true := by
          intro q hq p hp hvq
          have s1 := List.sizeOf_lt_of_mem hp
          have s2 := List.sizeOf_lt_of_mem hq
          obtain ⟨k, v⟩ := p
          obtain ⟨k2, v2⟩ := q
          simp at hs s1 s2
          exact ih v2 v (by omega) ((wfPairs_iff.1 hwy.2 (k2, v2) hq).2)
            ((wfPairs_iff.1 hwx.2 (k, v) hp).2) hvq
        exact canonDict_rel_of hel hel2 h.1.1 h.1.2 h.2 hwx.1 hwy.1
  exact fun x y => key (sizeOf x + sizeOf y) x y le_rfl

/-! ### The progress tracker (src/snapperable/snapshot_tracker.py) -/

/-- Python `set.add` on the tracker's processed-inputs set: a no-op when an
`==`-equal element is already present. -/
def setAdd (s : List HVal) (h : HVal) : List HVal := if memH h s then s else h :: s

/-- The loop in `SnapshotTracker._initialize` that canonicalizes every stored
input into the membership set, silently skipping unhashable ones
(`except TypeError: pass`). -/
def loadProcessedSet (storedInputs : List PyVal) : List HVal :=
  storedInputs.foldl
    (fun s inp =>
      match canonKey inp with
      | some h => setAdd s h
      | none => s)
    []

/-- The result of `inspect.getsource`/`__code__` reflection on the user
function, as far as `FunctionHasher` consumes it: the source text if
available, else the raw bytecode, else nothing. -/
structure PyFunctionInfo : Type where
  source : Option String
  co_code : Option (List Nat)

/-- `FunctionHasher.compute_hash` (src/snapperable/function_hasher.py, lines
13–40): hash the source text; failing that, hash the bytecode; failing that,
return the constant `"unknown"`.  The two SHA-256 applications are abstract
parameters — their only relevant property here is which one is applied. -/
def compute_hash (shaSource : String → String) (shaBytes : List Nat → String)
    (fn : PyFunctionInfo) : String :=
  match fn.source with
  | some src => shaSource src
  | none =>
    match fn.co_code with
    | some code => shaBytes code
    | none => "unknown"

/-- `SnapshotTracker._initialize` (src/snapperable/snapshot_tracker.py, lines
58–89): if a function version is stored and differs from the current one,
the processed-inputs set is cleared (nothing from storage is treated as
done); otherwise the stored inputs are canonicalized into the set.  The
current version is then written to storage; the second component is the
function version stored after initialization. -/
def initializeTracker (currentFnVersion : String) (storedFnVersion : Option String)
    (storedInputs : List PyVal) : List HVal × String :=
  if storedFnVersion ≠ none ∧ storedFnVersion ≠ some currentFnVersion then
    ([], currentFnVersion)
  else
    (loadProcessedSet storedInputs, currentFnVersion)

/-- The membership test in `SnapshotTracker.get_remaining`'s generator body:
an item is yielded unless its canonical key is already in the set; an item
whose canonicalization raises `TypeError` is always yielded. -/
def keepItem (s : List HVal) (item : PyVal) : Bool :=
  match canonKey item with
  | some h => !(memH h s)
  | none => true

/-- `SnapshotTracker.get_remaining` over a fixed membership set (no
interleaved `mark_processed` calls): the items of the iterable whose
canonical keys are not yet recorded. -/
def getRemaining (s : List HVal) (iterable : List PyVal) : List PyVal :=
  iterable.filter (keepItem s)

/-- `SnapshotTracker.mark_processed` (lines 112–124): add the canonical key
to the set; a no-op (`except TypeError: pass`) for unhashable items. -/
def markProcessed (s : List HVal) (item : PyVal) : List HVal :=
  match canonKey item with
  | some h => setAdd s h
  | none => s

/-! ### The batch accumulator and the orchestrator loop

`Snapper.start` (src/snapperable/snapper.py, lines 79–117) drives a batch
processor holding `(input, output)` pairs.  The flush/size/wait logic below
follows `BatchProcessor` (src/snapperable/batch_processor.py); the entry
type is the spec's Batch Entry. Modelled from the spec: the input-aware
`BatchProcessor` variant that `snapper.py` invokes with
`add_item(result, input_value=item)` is not in the tree — per §3 and §4.3 of
the design it buffers `(Input, Output)` pairs and hands each flushed batch
to the durable-write worker as one unit. -/

/-- A Batch Entry: an `(input, output)` pair awaiting durable write. -/
abbrev BatchEntry : Type := PyVal × PyVal

/-- The accumulator state: the in-memory buffer, the units already handed to
the durable-write worker (in hand-off order), and the flush clock. -/
structure BatchSt : Type where
  currentBatch : List BatchEntry
  queued : List (List BatchEntry)
  lastFlushTime : Option Nat

/-- `BatchProcessor._is_wait_time_exceeded` (lines 135–150). -/
def bpIsWaitExceeded (maxWaitTime : Option Nat) (bp : BatchSt) (now : Nat) : Bool :=
  match maxWaitTime with
  | none => false
  | some mw =>
    match bp.lastFlushTime with
    | none => false
    | some lf => decide (now - lf > mw)

/-- `BatchProcessor.flush` (lines 74–92): if the buffer is nonempty, swap it
out, enqueue it as one unit for background saving, and update the flush
clock; a no-op on an empty buffer. -/
def bpFlush (bp : BatchSt) (now : Nat) : BatchSt :=
  if bp.currentBatch.isEmpty then bp
  else { currentBatch := [], queued := bp.queued ++ [bp.currentBatch],
         lastFlushTime := some now }

/-- `BatchProcessor.add_item` (lines 46–72): append the entry, start the
flush clock on a first addition, then flush if the wait time is exceeded or
the buffer has reached `batch_size`. -/
def bpAddItem (batchSize : Nat) (maxWaitTime : Option Nat) (bp : BatchSt)
    (entry : BatchEntry) (now : Nat) : BatchSt :=
  let bp1 : BatchSt := { bp with currentBatch := bp.currentBatch ++ [entry] }
  let bp2 : BatchSt :=
    if bp1.lastFlushTime = none then { bp1 with lastFlushTime := some now } else bp1
  if bpIsWaitExceeded maxWaitTime bp2 now || decide (bp2.currentBatch.length ≥ batchSize) then
    bpFlush bp2 now
  else bp2

/-- The outcome of one `Snapper.start` call. -/
structure RunResult (E : Type) : Type where
  /-- the items the user function was invoked on, in invocation order -/
  calls : List PyVal
  /-- the tracker's processed-inputs set when the loop ended -/
  pset : List HVal
  /-- the accumulator buffer at the moment the loop ended (never flushed on
  the exception path) -/
  haltBatch : List BatchEntry
  /-- the units handed to the durable-write worker, in hand-off order -/
  flushedUnits : List (List BatchEntry)
  /-- the durable contents after `shutdown()` drained the queue (each
  appended unit assumed to persist; retry behavior is modelled separately
  by the worker component) -/
  stored : List BatchEntry
  /-- the exception that halted the run, if any -/
  error : Option E

/-- The `for item in snapshot_tracker.get_remaining()` loop of
`Snapper.start` (lines 101–111).  The generator re-reads the membership set
each time it advances, so the loop is an interleaving of the remaining-test
with `mark_processed`; an exception from `fn` propagates immediately and
stops the loop.  The flush clock is irrelevant in the theorems below
(`max_wait_time = None` is the `Snapper` default), so the clock reads 0. -/
def runLoop {E : Type} (fn : PyVal → Except E PyVal) (batchSize : Nat)
    (maxWaitTime : Option Nat) :
    List PyVal → List HVal → BatchSt → List PyVal →
    List HVal × BatchSt × List PyVal × Option E
  | [], s, bp, calls => (s, bp, calls, none)
  | item :: rest, s, bp, calls =>
    if keepItem s item then
      match fn item with
      | .ok result =>
        runLoop fn batchSize maxWaitTime rest (markProcessed s item)
          (bpAddItem batchSize maxWaitTime bp (item, result) 0) (calls ++ [item])
      | .error e => (s, bp, calls ++ [item], some e)
    else runLoop fn batchSize maxWaitTime rest s bp calls

/-- `Snapper.start` (lines 79–117) over a storage whose durable contents are
`priorStored`: materialize the iterable, build the tracker, run the loop;
on success flush the trailing batch, then (in `finally`) shut the worker
down, which drains every queued unit into durable storage;  on an exception
the flush is skipped but the shutdown still drains the queue. -/
def snapperStart {E : Type} (fn : PyVal → Except E PyVal) (batchSize : Nat)
    (maxWaitTime : Option Nat) (priorStored : List BatchEntry)
    (fnVersion : String) (storedVersion : Option String)
    (iterable : List PyVal) : RunResult E :=
  let init := initializeTracker fnVersion storedVersion (priorStored.map Prod.fst)
  match runLoop fn batchSize maxWaitTime iterable init.1
      ⟨[], [], none⟩ [] with
  | (s, bp, calls, none) =>
    let bpF := bpFlush bp 0
    { calls := calls, pset := s, haltBatch := bpF.currentBatch,
      flushedUnits := bpF.queued, stored := priorStored ++ bpF.queued.flatten,
      error := none }
  | (s, bp, calls, some e) =>
    { calls := calls, pset := s, haltBatch := bp.currentBatch,
      flushedUnits := bp.queued, stored := priorStored ++ bp.queued.flatten,
      error := some e }

/-! ### `Snapper.load` and its input-matching (src/snapperable/snapper.py) -/

/-- Python dict assignment `d[k] = v` on the `input_to_output` dict built by
`_get_matching_outputs`: replace the value if an `==`-equal key is present
(keeping its position and key object), else append. -/
def mapInsert (m : List (HVal × PyVal)) (k : HVal) (v : PyVal) : List (HVal × PyVal) :=
  if m.any (fun kv => pyHEq kv.1 k) then
    m.map (fun kv => if pyHEq kv.1 k then (kv.1, v) else kv)
  else m ++ [(k, v)]

/-- Python dict lookup `d[k]` guarded by `k in d`: the value of the first
`==`-equal key, if any. -/
def mapLookup (m : List (HVal × PyVal)) (k : HVal) : Option PyVal :=
  (m.find? (fun kv => pyHEq kv.1 k)).map (fun kv => kv.2)

/-- The `input_to_output` dict of `Snapper._get_matching_outputs` (lines
196–219): fold over `zip(stored_inputs, all_outputs)`, keyed by the
canonical key of each stored input; unhashable stored inputs are skipped
(`except TypeError: pass`).  Later duplicates overwrite earlier ones
(last-write-wins); the `seen_inputs` set only feeds a warning and does not
affect the result. -/
def buildInputToOutput (storedInputs allOutputs : List PyVal) : List (HVal × PyVal) :=
  (storedInputs.zip allOutputs).foldl
    (fun m kv =>
      match canonKey kv.1 with
      | some h => mapInsert m h kv.2
      | none => m)
    []

/-- The second loop of `Snapper._get_matching_outputs` (lines 221–232):
for each current input, append the mapped output of its canonical key when
present; unhashable current inputs are skipped. -/
def getMatchingOutputs (currentInputs storedInputs allOutputs : List PyVal) : List PyVal :=
  let inputToOutput := buildInputToOutput storedInputs allOutputs
  currentInputs.foldl
    (fun acc inp =>
      match canonKey inp with
      | some h =>
        match mapLookup inputToOutput h with
        | some out => acc ++ [out]
        | none => acc
      | none => acc)
    []

/-- `Snapper._inputs_match` (lines 165–183): equal lengths and pointwise
Python `==`. -/
def inputsMatch (currentInputs storedInputs : List PyVal) : Bool :=
  currentInputs.length == storedInputs.length &&
    (currentInputs.zip storedInputs).all (fun cs => pyEq cs.1 cs.2)

/-- `Snapper.load` (lines 119–153).  `cachedInputs` is `self._cached_inputs`
(set by a completed `start()` on the same instance, `None` on a fresh
instance); `iterable` is the current input sequence, materialized only when
no cache is present.  The single `storedOutputs` list stands for both
`load_snapshot()` and `load_all_outputs()`, which coincide for every storage
backend in the tree. -/
def snapperLoad (cachedInputs : Option (List PyVal)) (iterable : List PyVal)
    (storedInputs storedOutputs : List PyVal) : List PyVal :=
  if storedInputs.isEmpty then storedOutputs
  else
    let current := match cachedInputs with
      | some c => c
      | none => iterable
    if inputsMatch current storedInputs then storedOutputs
    else getMatchingOutputs current storedInputs storedOutputs

/-- "The stored output of `x`": the output recorded under `x`'s canonical
key, i.e. the `input_to_output` entry its key selects.  This is the
formal reading of the specification's "outputs whose recorded inputs match
the current input sequence by value" — the code matches by canonical key. -/
def findOutput (storedInputs storedOutputs : List PyVal) (x : PyVal) : Option PyVal :=
  (canonKey x).bind (mapLookup (buildInputToOutput storedInputs storedOutputs))

/-! ### The per-item failure policy (src/snapperable/item_error_handler.py) -/

/-- `ItemErrorHandler`: configuration plus mutable failure-tracking state.
`T` is the item type, `E` the exception type, `K` the exception-kind type
(`isinstance` checks are abstracted by a relation `isInst : E → K → Bool`). -/
structure ItemErrorHandler (T E K : Type) : Type where
  skip_item_errors : Bool
  fatal_exceptions : List K
  max_consecutive_exceptions : Option Nat
  failed_items : List (T × E)
  consecutive_count : Nat

/-- The observable outcome of one `on_item_error` call: `skip` is a `True`
return, `halt` a `False` return (the caller re-raises the original
exception), and `limitHalt cause` the raised
`RuntimeError(...) from exc` consecutive-limit condition, a distinct halt
condition chaining the triggering exception as its cause. -/
inductive ErrorDecision (E : Type) : Type where
  | skip : ErrorDecision E
  | halt : ErrorDecision E
  | limitHalt : E → ErrorDecision E

/-- `ItemErrorHandler.reset` (lines 59–62). -/
def handlerReset {T E K : Type} (h : ItemErrorHandler T E K) : ItemErrorHandler T E K :=
  { h with failed_items := [], consecutive_count := 0 }

/-- `ItemErrorHandler.on_item_success` (lines 64–69). -/
def onItemSuccess {T E K : Type} (h : ItemErrorHandler T E K) : ItemErrorHandler T E K :=
  { h with consecutive_count := 0 }

/-- `ItemErrorHandler.on_item_error` (lines 71–104): fatal exceptions halt
before anything is recorded; with skipping disabled everything halts;
otherwise the consecutive counter is incremented and, when it reaches the
configured limit, the consecutive-limit condition is raised without
appending to `failed_items`; below the limit the failure is recorded and
skipped. -/
def onItemError {T E K : Type} (isInst : E → K → Bool)
    (h : ItemErrorHandler T E K) (item : T) (exc : E) :
    ItemErrorHandler T E K × ErrorDecision E :=
  if !h.fatal_exceptions.isEmpty && h.fatal_exceptions.any (isInst exc) then
    (h, .halt)
  else if !h.skip_item_errors then
    (h, .halt)
  else
    let h1 : ItemErrorHandler T E K := { h with consecutive_count := h.consecutive_count + 1 }
    match h1.max_consecutive_exceptions with
    | some m =>
      if h1.consecutive_count ≥ m then (h1, .limitHalt exc)
      else ({ h1 with failed_items := h1.failed_items ++ [(item, exc)] }, .skip)
    | none => ({ h1 with failed_items := h1.failed_items ++ [(item, exc)] }, .skip)

/-- Feed a sequence of failing `(item, exception)` events into the handler,
stopping at the first non-skip decision; returns the final handler and, if
processing stopped, the zero-based index and the decision that stopped it. -/
def feedFailures {T E K : Type} (isInst : E → K → Bool) :
    ItemErrorHandler T E K → List (T × E) → Nat →
    ItemErrorHandler T E K × Option (Nat × ErrorDecision E)
  | h, [], _ => (h, none)
  | h, (item, exc) :: rest, i =>
    match onItemError isInst h item exc with
    | (h1, .skip) => feedFailures isInst h1 rest (i + 1)
    | (h1, d) => (h1, some (i, d))

/-- How a run driven by the failure policy ended. -/
inductive RunHalt (E : Type) : Type where
  /-- the original item exception, re-raised unchanged -/
  | propagated : E → RunHalt E
  /-- the consecutive-limit condition, chaining its cause -/
  | limitCond : E → RunHalt E

/-- The outcome of a policy-driven orchestration loop. -/
structure PolicyRes (E K : Type) : Type where
  pset : List HVal
  handler : ItemErrorHandler PyVal E K
  calls : List PyVal
  halted : Option (RunHalt E)
  /-- the items that were never reached because the loop halted -/
  rest : List PyVal

/-- Modelled from the spec: the orchestrator's error-policy wiring (§4.5
step 3) is absent from the tree — `snapper.py`'s `start` does not reference
`ItemErrorHandler`.  Per the spec, each item from the tracker's remaining
sequence is processed; success reports `on_item_success`, hands the result
over and marks the item processed; an exception consults `on_item_error`:
`skip` continues without marking the item processed, `halt` re-raises the
original exception, and the consecutive-limit condition propagates as such
— in both halting cases processing stops immediately and the items after
the failing one are never attempted. -/
def runPolicyLoop {E K : Type} (isInst : E → K → Bool) (fn : PyVal → Except E PyVal) :
    List PyVal → List HVal → ItemErrorHandler PyVal E K → List PyVal → PolicyRes E K
  | [], s, h, calls => ⟨s, h, calls, none, []⟩
  | item :: rest, s, h, calls =>
    if keepItem s item then
      match fn item with
      | .ok _ =>
        runPolicyLoop isInst fn rest (markProcessed s item) (onItemSuccess h) (calls ++ [item])
      | .error e =>
        match onItemError isInst h item e with
        | (h1, .skip) => runPolicyLoop isInst fn rest s h1 (calls ++ [item])
        | (h1, .halt) => ⟨s, h1, calls ++ [item], some (.propagated e), rest⟩
        | (h1, .limitHalt c) => ⟨s, h1, calls ++ [item], some (.limitCond c), rest⟩
    else runPolicyLoop isInst fn rest s h calls

/-! ### The background storage worker (src/snapperable/batch_storage_worker.py) -/

/-- A unit of work on the worker's queue: `(outputs, inputs, batch_id,
metrics)`. -/
structure WorkUnit (O I M : Type) : Type where
  outputs : List O
  inputs : List I
  batch_id : String
  metrics : List M

/-- The storage backend's behavior across successive calls: the outcome
(`none` = success, `some e` = raised exception) of its k-th
`store_snapshot` call and its k-th `store_metrics` call. -/
structure StorageBehavior (E : Type) : Type where
  snapshotExc : Nat → Option E
  metricsExc : Nat → Option E

/-- The worker's mutable state: how many storage calls it has issued of each
kind, and `_failed_exception`. -/
structure WorkerSt (E : Type) : Type where
  snapCalls : Nat
  metCalls : Nat
  failedException : Option E

/-- The body of one attempt in `_save_worker`'s retry loop (lines 94–118):
`store_snapshot(outputs, inputs)` followed, when the unit carries metrics,
by `store_metrics(metrics)`; either call may raise. -/
def attemptStore {E : Type} (env : StorageBehavior E) (st : WorkerSt E)
    (hasMetrics : Bool) : WorkerSt E × Option E :=
  match env.snapshotExc st.snapCalls with
  | some e => ({ st with snapCalls := st.snapCalls + 1 }, some e)
  | none =>
    let st1 : WorkerSt E := { st with snapCalls := st.snapCalls + 1 }
    if hasMetrics then
      match env.metricsExc st1.metCalls with
      | some e => ({ st1 with metCalls := st1.metCalls + 1 }, some e)
      | none => ({ st1 with metCalls := st1.metCalls + 1 }, none)
    else (st1, none)

/-- The retry loop `for attempt in range(self.max_retries + 1)` (lines
93–136), with `n` attempts still allowed: stop on the first success
(`last_exception = None`), otherwise keep the last attempt's exception.
Returns the state, the final `last_exception`, and the number of attempts
made. -/
def retryLoop {E : Type} (env : StorageBehavior E) (hasMetrics : Bool) :
    Nat → WorkerSt E → WorkerSt E × Option E × Nat
  | 0, st => (st, none, 0)
  | n + 1, st =>
    match attemptStore env st hasMetrics with
    | (st1, none) => (st1, none, 1)
    | (st1, some e) =>
      match n with
      | 0 => (st1, some e, 1)
      | m + 1 =>
        let r := retryLoop env hasMetrics (m + 1) st1
        (r.1, r.2.1, r.2.2 + 1)

/-- Processing of one dequeued unit by `_save_worker` (lines 90–142): run
the retry loop with `max_retries + 1` allowed attempts; if it ends with an
exception, remember it in `_failed_exception` (overwriting any earlier one)
and continue — nothing is raised inline.  Returns the new state and the
number of attempts made. -/
def processUnit {E O I M : Type} (env : StorageBehavior E) (maxRetries : Nat)
    (st : WorkerSt E) (u : WorkUnit O I M) : WorkerSt E × Nat :=
  let r := retryLoop env (!u.metrics.isEmpty) (maxRetries + 1) st
  match r.2.1 with
  | some e => ({ r.1 with failedException := some e }, r.2.2)
  | none => (r.1, r.2.2)

/-- The worker's consumption of the queue, one unit after another in FIFO
order (single consumer).  Returns the final state and the attempts made per
unit. -/
def runWorker {E O I M : Type} (env : StorageBehavior E) (maxRetries : Nat) :
    WorkerSt E → List (WorkUnit O I M) → WorkerSt E × List Nat
  | st, [] => (st, [])
  | st, u :: rest =>
    let r1 := processUnit env maxRetries st u
    let r2 := runWorker env maxRetries r1.1 rest
    (r2.1, r1.2 :: r2.2)

/-- `BatchStorageWorker.shutdown` (lines 144–171): wait for the still-queued
units to be fully consumed, then raise `_failed_exception` if one was
recorded — the only place a persistent storage failure surfaces. -/
def workerShutdown {E O I M : Type} (env : StorageBehavior E) (maxRetries : Nat)
    (st : WorkerSt E) (queued : List (WorkUnit O I M)) : Except E Unit × WorkerSt E :=
  let r := runWorker env maxRetries st queued
  match r.1.failedException with
  | some e => (.error e, r.1)
  | none => (.ok (), r.1)

/-- `BatchStorageWorker.enqueue_batch` (lines 41–73): fail fast after
shutdown has begun, otherwise append the unit to the queue. -/
def enqueueBatch {E O I M : Type} (shutdownFlag : Bool)
    (queue : List (WorkUnit O I M)) (u : WorkUnit O I M) :
    Option (List (WorkUnit O I M)) :=
  if shutdownFlag then none else some (queue ++ [u])

/-! ### The storage-handle registry (`Snapper._active_storages`) -/

/-- One `Snapper` object, as far as the registry is concerned: its identity,
its resolved storage identifier, and whether `_release_storage` has run. -/
structure RegInstance : Type where
  iid : Nat
  identifier : String
  released : Bool

/-- The process-wide picture: the class-level `_active_storages` set and the
constructed `Snapper` objects in construction order. -/
structure RegState : Type where
  registry : List String
  instances : List RegInstance

/-- The registry-relevant events of a process run. -/
inductive RegEvent : Type where
  /-- `Snapper.__init__` of object `iid` over a storage resolving to
  `ident`: raises `ValueError` (creating no instance) when the identifier
  is registered, otherwise registers it -/
  | construct : Nat → String → RegEvent
  /-- `__exit__` or `__del__` on object `iid`: `_release_storage`, a
  `discard` of that object's identifier (both paths may fire for the same
  object) -/
  | teardown : Nat → RegEvent

/-- One event against the process state (src/snapperable/snapper.py, lines
54–65 and 234–268). -/
def applyEvent (st : RegState) (e : RegEvent) : RegState :=
  match e with
  | .construct iid ident =>
    if st.registry.contains ident then st
    else { registry := ident :: st.registry,
           instances := st.instances ++ [⟨iid, ident, false⟩] }
  | .teardown iid =>
    match st.instances.find? (fun inst => inst.iid == iid) with
    | none => st
    | some inst =>
      { registry := st.registry.filter (fun s => s ≠ inst.identifier),
        instances := st.instances.map
          (fun i2 => if i2.iid == iid then { i2 with released := true } else i2) }

/-- A process run from the initial empty state. -/
def runEvents (es : List RegEvent) : RegState := es.foldl applyEvent ⟨[], []⟩

/-- The live, unreleased orchestrators. -/
def liveUnreleased (st : RegState) : List RegInstance :=
  st.instances.filter (fun i => !i.released)

/-- A trace is single-teardown when each `construct` uses a fresh object
identity and each `teardown` targets a constructed object not yet torn
down. -/
def wfEvents (st : RegState) (torn : List Nat) : List RegEvent → Bool
  | [] => true
  | .construct iid ident :: rest =>
    !(st.instances.any (fun i => i.iid == iid)) &&
      wfEvents (applyEvent st (.construct iid ident)) torn rest
  | .teardown iid :: rest =>
    st.instances.any (fun i => i.iid == iid) && !(torn.contains iid) &&
      wfEvents (applyEvent st (.teardown iid)) (iid :: torn) rest

/-! ## Claim-level development -/

/-- An empty membership set keeps everything. -/
theorem keepItem_nil (x : PyVal) : keepItem [] x = true := by
  simp only [keepItem]
  cases canonKey x <;> simp [memH]

/-- A freshly added key is a member of the set. -/
theorem memH_setAdd_self (h : HVal) (s : List HVal) : memH h (setAdd s h) = true := by
  unfold setAdd
  cases hm : memH h s with
  | true => simpa using hm
  | false => simp [memH, pyHEq_refl]

/-- `setAdd` never removes members. -/
theorem memH_setAdd_mono {g : HVal} {s : List HVal} (h : HVal)
    (hg : memH g s = true) : memH g (setAdd s h) = true := by
  unfold setAdd
  cases memH h s with
  | true => simpa using hg
  | false => simp [memH, hg]

/-- `mark_processed` never removes members. -/
theorem memH_markProcessed_mono {g : HVal} {s : List HVal} (x : PyVal)
    (hg : memH g s = true) : memH g (markProcessed s x) = true := by
  unfold markProcessed
  cases canonKey x with
  | none => exact hg
  | some h => exact memH_setAdd_mono h hg

/-- C7: An input that cannot be canonicalized to a hashable key never makes
the tracker raise: it is kept by `get_remaining` against every membership
set (so it is yielded on every run, hence reprocessed every run),
`mark_processed` on it is a no-op rather than an error, and the
`_initialize` loop skips it when rebuilding the set — it bypasses the
membership set entirely.  The embedded tracker operations are total
functions; the `except TypeError: pass` branches are the `none` cases. -/
theorem C7_unhashable_bypass (x : PyVal) (hx : canonKey x = none) :
    (∀ s : List HVal, keepItem s x = true) ∧
    (∀ s : List HVal, markProcessed s x = s) ∧
    (∀ (s : List HVal) (pre post : List PyVal),
      getRemaining s (pre ++ x :: post) = getRemaining s pre ++ x :: getRemaining s post) ∧
    (∀ stored : List PyVal, loadProcessedSet (stored ++ [x]) = loadProcessedSet stored) := by
  have hkeep : ∀ s : List HVal, keepItem s x = true := by
    intro s; simp [keepItem, hx]
  refine ⟨hkeep, ?_, ?_, ?_⟩
  · intro s; simp [markProcessed, hx]
  · intro s pre post
    simp [getRemaining, List.filter_append, List.filter_cons, hkeep s]
  · intro stored
    simp [loadProcessedSet, List.foldl_append, hx]

/-- Witness for C7 at the opaque unhashable value. -/
theorem C7_unhashable_bypass_witness :
    keepItem [] (PyVal.uobj 0) = true ∧ markProcessed [] (PyVal.uobj 0) = [] := by
  have h := C7_unhashable_bypass (PyVal.uobj 0) (by simp [canonKey])
  exact ⟨h.1 [], h.2.1 []⟩

/-- C9: When storage holds a function version and it differs from the hash
of the current user function, `_initialize` discards the recorded inputs
entirely — the membership set comes out empty, so `get_remaining` yields
every element of the current input sequence (full reprocessing) — and the
current version is the one written to storage.  The version is the hash of
the function's source text, falling back to its bytecode. -/
theorem C9_version_invalidation (shaSource : String → String)
    (shaBytes : List Nat → String) (currentV v : String)
    (storedInputs iterable : List PyVal) (hv : v ≠ currentV) :
    initializeTracker currentV (some v) storedInputs = ([], currentV) ∧
    getRemaining [] iterable = iterable ∧
    (∀ fn : PyFunctionInfo, ∀ src, fn.source = some src →
      compute_hash shaSource shaBytes fn = shaSource src) ∧
    (∀ fn : PyFunctionInfo, ∀ code, fn.source = none → fn.co_code = some code →
      compute_hash shaSource shaBytes fn = shaBytes code) := by
  refine ⟨?_, ?_, ?_, ?_⟩
  · simp [initializeTracker, hv]
  · rw [getRemaining, List.filter_eq_self]
    intro a _
    exact keepItem_nil a
  · intro fn src hs; simp [compute_hash, hs]
  · intro fn code hs hc; simp [compute_hash, hs, hc]

/-- Witness for C9 at a concrete version mismatch. -/
theorem C9_version_invalidation_witness :
    initializeTracker "a" (some "b") [PyVal.int 1] = ([], "a") ∧
    getRemaining [] [PyVal.int 7] = [PyVal.int 7] :=
  ⟨(C9_version_invalidation id (fun _ => "") "a" "b" [PyVal.int 1] [PyVal.int 7]
      (by decide)).1,
   (C9_version_invalidation id (fun _ => "") "a" "b" [PyVal.int 1] [PyVal.int 7]
      (by decide)).2.1⟩

/-- C10: A list and the tuple with the same elements in the same order
canonicalize to the same key (a tuple of canonicalized elements), so once
either is marked processed the other is skipped by `get_remaining` — one
processing event for both — even though Python `==` distinguishes lists
from tuples. -/
theorem C10_list_tuple_conflation :
    (∀ xs : List PyVal, canonKey (.list xs) = canonKey (.tuple xs)) ∧
    (∀ (xs : List PyVal) (s : List HVal) (h : HVal),
      canonKey (.list xs) = some h →
      keepItem (markProcessed s (.list xs)) (.tuple xs) = false ∧
      keepItem (markProcessed s (.tuple xs)) (.list xs) = false) ∧
    (∀ xs ys : List PyVal, pyEq (.list xs) (.tuple ys) = false) := by
  have hsame : ∀ xs : List PyVal, canonKey (PyVal.list xs) = canonKey (PyVal.tuple xs) := by
    intro xs; simp [canonKey]
  refine ⟨hsame, ?_, ?_⟩
  · intro xs s h hc
    have hct : canonKey (PyVal.tuple xs) = some h := (hsame xs) ▸ hc
    constructor
    · simp [markProcessed, hc, keepItem, hct, memH_setAdd_self]
    · simp [markProcessed, hct, keepItem, hc, memH_setAdd_self]
  · intro xs ys; simp [pyEq]

/-- Witness for C10: marking the list `[1]` processed makes the tuple `(1,)`
skipped. -/
theorem C10_list_tuple_conflation_witness :
    keepItem (markProcessed [] (PyVal.list [PyVal.int 1])) (PyVal.tuple [PyVal.int 1]) = false :=
  ((C10_list_tuple_conflation.2.1) [PyVal.int 1] [] (HVal.tuple [HVal.int 1])
    (by simp [canonKey, canonList])).1

/-- One `feedFailures` step whose decision is `skip` continues with the
updated handler. -/
theorem feedFailures_cons_skip {T E K : Type} {isInst : E → K → Bool}
    {h h1 : ItemErrorHandler T E K} {item : T} {exc : E}
    (he : onItemError isInst h item exc = (h1, ErrorDecision.skip))
    (rest : List (T × E)) (i : Nat) :
    feedFailures isInst h ((item, exc) :: rest) i =
      feedFailures isInst h1 rest (i + 1) := by
  simp only [feedFailures, he]

/-- One `feedFailures` step whose decision is the consecutive-limit
condition stops there. -/
theorem feedFailures_cons_limit {T E K : Type} {isInst : E → K → Bool}
    {h h1 : ItemErrorHandler T E K} {item : T} {exc : E} {c : E}
    (he : onItemError isInst h item exc = (h1, ErrorDecision.limitHalt c))
    (rest : List (T × E)) (i : Nat) :
    feedFailures isInst h ((item, exc) :: rest) i =
      (h1, some (i, ErrorDecision.limitHalt c)) := by
  simp only [feedFailures, he]

/-- `on_item_error` on a non-fatal failure strictly below the consecutive
limit: record and skip. -/
theorem onItemError_skip {T E K : Type} (isInst : E → K → Bool)
    (h : ItemErrorHandler T E K) (item : T) (exc : E) (m : Nat)
    (hf : h.fatal_exceptions.any (isInst exc) = false)
    (hsk : h.skip_item_errors = true)
    (hmx : h.max_consecutive_exceptions = some m)
    (hlt : h.consecutive_count + 1 < m) :
    onItemError isInst h item exc =
      (⟨h.skip_item_errors, h.fatal_exceptions, h.max_consecutive_exceptions,
        h.failed_items ++ [(item, exc)], h.consecutive_count + 1⟩,
       ErrorDecision.skip) := by
  obtain ⟨sk, fats, mx, fi, cc⟩ := h
  replace hf : fats.any (isInst exc) = false := hf
  replace hsk : sk = true := hsk
  replace hmx : mx = some m := hmx
  replace hlt : cc + 1 < m := hlt
  subst hsk
  subst hmx
  simp only [onItemError, hf, Bool.and_false, Bool.false_eq_true, if_false,
    Bool.not_true]
  rw [if_neg (by omega)]

/-- `on_item_error` on a non-fatal failure that reaches the consecutive
limit: the limit condition is raised, chaining the exception, without
appending to `failed_items`. -/
theorem onItemError_limit {T E K : Type} (isInst : E → K → Bool)
    (h : ItemErrorHandler T E K) (item : T) (exc : E) (m : Nat)
    (hf : h.fatal_exceptions.any (isInst exc) = false)
    (hsk : h.skip_item_errors = true)
    (hmx : h.max_consecutive_exceptions = some m)
    (hge : m ≤ h.consecutive_count + 1) :
    onItemError isInst h item exc =
      (⟨h.skip_item_errors, h.fatal_exceptions, h.max_consecutive_exceptions,
        h.failed_items, h.consecutive_count + 1⟩,
       ErrorDecision.limitHalt exc) := by
  obtain ⟨sk, fats, mx, fi, cc⟩ := h
  replace hf : fats.any (isInst exc) = false := hf
  replace hsk : sk = true := hsk
  replace hmx : mx = some m := hmx
  replace hge : m ≤ cc + 1 := hge
  subst hsk
  subst hmx
  simp only [onItemError, hf, Bool.and_false, Bool.false_eq_true, if_false,
    Bool.not_true]
  rw [if_pos (by omega)]

/-- Driving `feedFailures` through `front ++ [last]` consecutive non-fatal
failures with the limit reached exactly at the end: every failure in
`front` is appended and skipped, and the final one triggers the
consecutive-limit condition without being appended. -/
theorem feedFailures_run {T E K : Type} (isInst : E → K → Bool) (m : Nat) :
    ∀ (front : List (T × E)) (lastP : T × E) (h : ItemErrorHandler T E K) (i : Nat),
    h.skip_item_errors = true →
    h.max_consecutive_exceptions = some m →
    (∀ p ∈ front ++ [lastP], h.fatal_exceptions.any (isInst p.2) = false) →
    h.consecutive_count + front.length + 1 = m →
    feedFailures isInst h (front ++ [lastP]) i =
      (⟨h.skip_item_errors, h.fatal_exceptions, h.max_consecutive_exceptions,
        h.failed_items ++ front, m⟩,
       some (i + front.length, ErrorDecision.limitHalt lastP.2)) := by
  intro front
  induction front with
  | nil =>
    intro lastP h i hsk hmx hfat hcnt
    obtain ⟨item, exc⟩ := lastP
    simp only [List.length_nil] at hcnt
    have hf : h.fatal_exceptions.any (isInst exc) = false := hfat (item, exc) (by simp)
    rw [List.nil_append,
      feedFailures_cons_limit (onItemError_limit isInst h item exc m hf hsk hmx
        (by omega)) [] i]
    have hm : h.consecutive_count + 1 = m := by omega
    simp [hm]
  | cons p front ih =>
    intro lastP h i hsk hmx hfat hcnt
    obtain ⟨item, exc⟩ := p
    simp only [List.length_cons] at hcnt
    have hf : h.fatal_exceptions.any (isInst exc) = false :=
      hfat (item, exc) (by simp)
    rw [List.cons_append,
      feedFailures_cons_skip (onItemError_skip isInst h item exc m hf hsk hmx
        (by omega)) (front ++ [lastP]) i]
    rw [ih lastP
      ⟨h.skip_item_errors, h.fatal_exceptions, h.max_consecutive_exceptions,
        h.failed_items ++ [(item, exc)], h.consecutive_count + 1⟩
      (i + 1) hsk hmx
      (by intro q hq; exact hfat q (by simp at hq ⊢; tauto))
      (by simpa using by omega)]
    simp only [List.append_assoc, List.singleton_append, List.length_cons]
    rw [show i + 1 + front.length = i + (front.length + 1) from by omega]

/-- C3: With skipping enabled and `max_consecutive_exceptions = N`, a run of
`N` consecutive non-fatal failures skips and records the first `N − 1` of
them, and on the `N`-th — not before — `on_item_error` raises the distinct
consecutive-limit condition, chaining that `N`-th exception as its cause and
not appending it to `failed_items`; `on_item_success` resets the consecutive
counter to `0` (without touching `failed_items`), so only uninterrupted
failures accumulate. -/
theorem C3_consecutive_limit {T E K : Type} (isInst : E → K → Bool)
    (h0 : ItemErrorHandler T E K) (N : Nat) (front : List (T × E))
    (lastItem : T) (lastExc : E)
    (hsk : h0.skip_item_errors = true)
    (hmx : h0.max_consecutive_exceptions = some N)
    (hlen : front.length + 1 = N)
    (hfat : ∀ p ∈ front ++ [(lastItem, lastExc)],
      h0.fatal_exceptions.any (isInst p.2) = false) :
    feedFailures isInst (handlerReset h0) (front ++ [(lastItem, lastExc)]) 0 =
      (⟨h0.skip_item_errors, h0.fatal_exceptions, h0.max_consecutive_exceptions,
        front, N⟩,
       some (front.length, ErrorDecision.limitHalt lastExc)) ∧
    (∀ h : ItemErrorHandler T E K,
      (onItemSuccess h).consecutive_count = 0 ∧
      (onItemSuccess h).failed_items = h.failed_items) := by
  constructor
  · have h := feedFailures_run isInst N front (lastItem, lastExc) (handlerReset h0) 0
      hsk hmx hfat (by simp only [handlerReset]; omega)
    simpa [handlerReset] using h
  · intro h; exact ⟨rfl, rfl⟩

/-- Witness for C3: two consecutive failures against a limit of 2 — the
first is recorded, the second raises the limit condition carrying its
exception. -/
theorem C3_consecutive_limit_witness :
    feedFailures (fun (_ : Nat) (_ : Nat) => false)
      (handlerReset ⟨true, [], some 2, [(0, 0)], 5⟩) [(10, 100), (20, 200)] 0 =
      (⟨true, [], some 2, [(10, 100)], 2⟩,
       some (1, ErrorDecision.limitHalt 200)) := by
  have h := (C3_consecutive_limit (fun (_ : Nat) (_ : Nat) => false)
    ⟨true, [], some 2, [(0, 0)], 5⟩ 2 [(10, 100)] 20 200 rfl rfl (by decide)
    (by intro p hp; rfl)).1
  simpa using h

/-- A fatal exception makes `on_item_error` halt with the handler state
untouched, whatever `skip_item_errors` is. -/
theorem onItemError_fatal {T E K : Type} (isInst : E → K → Bool)
    (h : ItemErrorHandler T E K) (item : T) (exc : E)
    (hf : h.fatal_exceptions.any (isInst exc) = true) :
    onItemError isInst h item exc = (h, ErrorDecision.halt) := by
  have hne : h.fatal_exceptions.isEmpty = false := by
    cases hl : h.fatal_exceptions with
    | nil => rw [hl] at hf; simp at hf
    | cons a l => simp
  simp [onItemError, hf, hne]

/-- Policy-loop step: an item whose key is already processed is passed over. -/
theorem runPolicyLoop_cons_drop {E K : Type} {isInst : E → K → Bool}
    {fn : PyVal → Except E PyVal} {item : PyVal} {s : List HVal}
    (hk : keepItem s item = false) (rest : List PyVal)
    (h : ItemErrorHandler PyVal E K) (calls : List PyVal) :
    runPolicyLoop isInst fn (item :: rest) s h calls =
      runPolicyLoop isInst fn rest s h calls := by
  simp only [runPolicyLoop, hk, Bool.false_eq_true, if_false]

/-- Policy-loop step: a successful item is marked processed and reported to
`on_item_success`. -/
theorem runPolicyLoop_cons_ok {E K : Type} {isInst : E → K → Bool}
    {fn : PyVal → Except E PyVal} {item : PyVal} {s : List HVal} {r : PyVal}
    (hk : keepItem s item = true) (hfn : fn item = Except.ok r) (rest : List PyVal)
    (h : ItemErrorHandler PyVal E K) (calls : List PyVal) :
    runPolicyLoop isInst fn (item :: rest) s h calls =
      runPolicyLoop isInst fn rest (markProcessed s item) (onItemSuccess h)
        (calls ++ [item]) := by
  simp only [runPolicyLoop, hk, if_true, hfn]

/-- Policy-loop step: a failure the policy skips continues without marking
the item processed. -/
theorem runPolicyLoop_cons_skip {E K : Type} {isInst : E → K → Bool}
    {fn : PyVal → Except E PyVal} {item : PyVal} {s : List HVal} {e : E}
    {h h1 : ItemErrorHandler PyVal E K}
    (hk : keepItem s item = true) (hfn : fn item = Except.error e)
    (hdec : onItemError isInst h item e = (h1, ErrorDecision.skip))
    (rest : List PyVal) (calls : List PyVal) :
    runPolicyLoop isInst fn (item :: rest) s h calls =
      runPolicyLoop isInst fn rest s h1 (calls ++ [item]) := by
  simp only [runPolicyLoop, hk, if_true, hfn, hdec]

/-- Policy-loop step: a failure the policy halts on stops the loop, leaving
the remaining items unattempted and re-raising the original exception. -/
theorem runPolicyLoop_cons_halt {E K : Type} {isInst : E → K → Bool}
    {fn : PyVal → Except E PyVal} {item : PyVal} {s : List HVal} {e : E}
    {h h1 : ItemErrorHandler PyVal E K}
    (hk : keepItem s item = true) (hfn : fn item = Except.error e)
    (hdec : onItemError isInst h item e = (h1, ErrorDecision.halt))
    (rest : List PyVal) (calls : List PyVal) :
    runPolicyLoop isInst fn (item :: rest) s h calls =
      ⟨s, h1, calls ++ [item], some (RunHalt.propagated e), rest⟩ := by
  simp only [runPolicyLoop, hk, if_true, hfn, hdec]

/-- Policy-loop step: the consecutive-limit condition stops the loop. -/
theorem runPolicyLoop_cons_limit {E K : Type} {isInst : E → K → Bool}
    {fn : PyVal → Except E PyVal} {item : PyVal} {s : List HVal} {e c : E}
    {h h1 : ItemErrorHandler PyVal E K}
    (hk : keepItem s item = true) (hfn : fn item = Except.error e)
    (hdec : onItemError isInst h item e = (h1, ErrorDecision.limitHalt c))
    (rest : List PyVal) (calls : List PyVal) :
    runPolicyLoop isInst fn (item :: rest) s h calls =
      ⟨s, h1, calls ++ [item], some (RunHalt.limitCond c), rest⟩ := by
  simp only [runPolicyLoop, hk, if_true, hfn, hdec]

/-- Whenever the policy loop halts, the consumed items are exactly a prefix
ending at the failing item: everything in `rest` was never attempted. -/
theorem runPolicyLoop_halt_shape {E K : Type} (isInst : E → K → Bool)
    (fn : PyVal → Except E PyVal) :
    ∀ (items : List PyVal) (s : List HVal) (h : ItemErrorHandler PyVal E K)
      (calls : List PyVal) (hl : RunHalt E),
    (runPolicyLoop isInst fn items s h calls).halted = some hl →
    ∃ pre x e, items = pre ++ x :: (runPolicyLoop isInst fn items s h calls).rest ∧
      fn x = Except.error e := by
  intro items
  induction items with
  | nil =>
    intro s h calls hl hh
    simp [runPolicyLoop] at hh
  | cons item rest ih =>
    intro s h calls hl hh
    cases hk : keepItem s item with
    | false =>
      rw [runPolicyLoop_cons_drop hk rest h calls] at hh ⊢
      obtain ⟨pre, x, e, heq, herr⟩ := ih s h calls hl hh
      exact ⟨item :: pre, x, e, by rw [List.cons_append, ← heq], herr⟩
    | true =>
      cases hfn : fn item with
      | ok r =>
        rw [runPolicyLoop_cons_ok hk hfn rest h calls] at hh ⊢
        obtain ⟨pre, x, e, heq, herr⟩ :=
          ih (markProcessed s item) (onItemSuccess h) (calls ++ [item]) hl hh
        exact ⟨item :: pre, x, e, by rw [List.cons_append, ← heq], herr⟩
      | error e =>
        rcases hde : onItemError isInst h item e with ⟨h1, d⟩
        cases d with
        | skip =>
          rw [runPolicyLoop_cons_skip hk hfn hde rest calls] at hh ⊢
          obtain ⟨pre, x, e2, heq, herr⟩ := ih s h1 (calls ++ [item]) hl hh
          exact ⟨item :: pre, x, e2, by rw [List.cons_append, ← heq], herr⟩
        | halt =>
          rw [runPolicyLoop_cons_halt hk hfn hde rest calls] at hh ⊢
          exact ⟨[], item, e, by simp, hfn⟩
        | limitHalt c =>
          rw [runPolicyLoop_cons_limit hk hfn hde rest calls] at hh ⊢
          exact ⟨[], item, e, by simp, hfn⟩

/-- When every exception the user function raises is of a fatal kind, the
policy records nothing into `failed_items` and any halt is a plain
re-raise of the original exception. -/
theorem runPolicyLoop_fatal_only {E K : Type} (isInst : E → K → Bool)
    (fn : PyVal → Except E PyVal) :
    ∀ (items : List PyVal) (s : List HVal) (h : ItemErrorHandler PyVal E K)
      (calls : List PyVal),
    (∀ x e, fn x = Except.error e → h.fatal_exceptions.any (isInst e) = true) →
    ((runPolicyLoop isInst fn items s h calls).handler).failed_items = h.failed_items ∧
    (∀ hl, (runPolicyLoop isInst fn items s h calls).halted = some hl →
      ∃ e, hl = RunHalt.propagated e) := by
  intro items
  induction items with
  | nil =>
    intro s h calls hfatal
    constructor
    · rfl
    · intro hl hh; simp [runPolicyLoop] at hh
  | cons item rest ih =>
    intro s h calls hfatal
    cases hk : keepItem s item with
    | false =>
      rw [runPolicyLoop_cons_drop hk rest h calls]
      exact ih s h calls hfatal
    | true =>
      cases hfn : fn item with
      | ok r =>
        rw [runPolicyLoop_cons_ok hk hfn rest h calls]
        exact ih (markProcessed s item) (onItemSuccess h) (calls ++ [item]) hfatal
      | error e =>
        have hf : h.fatal_exceptions.any (isInst e) = true := hfatal item e hfn
        rw [runPolicyLoop_cons_halt hk hfn (onItemError_fatal isInst h item e hf)
          rest calls]
        exact ⟨rfl, by intro hl hh; exact ⟨e, by simpa using hh.symm⟩⟩

/-- C4: A fatal exception makes `on_item_error` return `halt` regardless of
`skip_item_errors`, with the `(item, exception)` pair not recorded into
`failed_items` (the handler is returned untouched); consequently, whenever
the policy-driven loop halts, the items after the failing one are never
attempted (they come back as the untouched `rest`), and under a function
whose every exception is fatal, the halt propagates the original exception
and `failed_items` stays untouched. -/
theorem C4_fatal_halt {E K : Type} (isInst : E → K → Bool) :
    (∀ (T : Type) (h : ItemErrorHandler T E K) (item : T) (exc : E),
      h.fatal_exceptions.any (isInst exc) = true →
      onItemError isInst h item exc = (h, ErrorDecision.halt)) ∧
    (∀ (fn : PyVal → Except E PyVal) (items : List PyVal) (s : List HVal)
        (h : ItemErrorHandler PyVal E K) (calls : List PyVal) (hl : RunHalt E),
      (runPolicyLoop isInst fn items s h calls).halted = some hl →
      ∃ pre x e, items = pre ++ x :: (runPolicyLoop isInst fn items s h calls).rest ∧
        fn x = Except.error e) ∧
    (∀ (fn : PyVal → Except E PyVal) (items : List PyVal) (s : List HVal)
        (h : ItemErrorHandler PyVal E K) (calls : List PyVal),
      (∀ x e, fn x = Except.error e → h.fatal_exceptions.any (isInst e) = true) →
      ((runPolicyLoop isInst fn items s h calls).handler).failed_items = h.failed_items ∧
      ∀ hl, (runPolicyLoop isInst fn items s h calls).halted = some hl →
        ∃ e, hl = RunHalt.propagated e) :=
  ⟨fun _ h item exc hf => onItemError_fatal isInst h item exc hf,
   fun fn items s h calls hl hh => runPolicyLoop_halt_shape isInst fn items s h calls hl hh,
   fun fn items s h calls hfatal => runPolicyLoop_fatal_only isInst fn items s h calls hfatal⟩

/-- Witness for C4: with skipping enabled and exception kind 7 fatal, the
handler still halts untouched. -/
theorem C4_fatal_halt_witness :
    onItemError (fun (e : Nat) (k : Nat) => e == k)
      (⟨true, [7], none, [], 0⟩ : ItemErrorHandler Nat Nat Nat) 3 7 =
      (⟨true, [7], none, [], 0⟩, ErrorDecision.halt) :=
  (C4_fatal_halt (fun (e : Nat) (k : Nat) => e == k)).1 Nat
    ⟨true, [7], none, [], 0⟩ 3 7 (by decide)

/-- One unfolding of the retry loop. -/
theorem retryLoop_succ {E : Type} (env : StorageBehavior E) (hm : Bool)
    (n : Nat) (st : WorkerSt E) :
    retryLoop env hm (n + 1) st =
      match attemptStore env st hm with
      | (st1, none) => (st1, none, 1)
      | (st1, some e) =>
        match n with
        | 0 => (st1, some e, 1)
        | m + 1 =>
          let r := retryLoop env hm (m + 1) st1
          (r.1, r.2.1, r.2.2 + 1) := by
  conv_lhs => rw [retryLoop]

/-- The retry loop never makes more attempts than it is allowed. -/
theorem retryLoop_le {E : Type} (env : StorageBehavior E) (hm : Bool) :
    ∀ (n : Nat) (st : WorkerSt E), (retryLoop env hm n st).2.2 ≤ n := by
  intro n
  induction n with
  | zero => intro st; exact Nat.le_refl 0
  | succ n ih =>
    intro st
    rcases ha : attemptStore env st hm with ⟨st1, oe⟩
    rw [retryLoop_succ, ha]
    cases oe with
    | none =>
      show 1 ≤ n + 1
      omega
    | some e =>
      cases n with
      | zero =>
        show 1 ≤ 1
        omega
      | succ m =>
        show (retryLoop env hm (m + 1) st1).2.2 + 1 ≤ m + 1 + 1
        have := ih st1
        omega

/-- When the backend's `store_snapshot` fails on every call, one attempt
increments the snapshot-call counter and reports that call's exception. -/
theorem attemptStore_fail {E : Type} {env : StorageBehavior E}
    (hAll : ∀ k, (env.snapshotExc k).isSome = true) (st : WorkerSt E) (hm : Bool) :
    attemptStore env st hm =
      ({ st with snapCalls := st.snapCalls + 1 }, env.snapshotExc st.snapCalls) := by
  rcases he : env.snapshotExc st.snapCalls with _ | e
  · have := hAll st.snapCalls
    rw [he] at this
    simp at this
  · simp [attemptStore, he]

/-- When the backend fails on every call, the retry loop uses its whole
budget, keeps the last attempt's exception, and leaves the metrics counter
and the remembered failure untouched. -/
theorem retryLoop_all_fail {E : Type} {env : StorageBehavior E} (hm : Bool)
    (hAll : ∀ k, (env.snapshotExc k).isSome = true) :
    ∀ (n sc mc : Nat) (fe : Option E), 1 ≤ n →
    retryLoop env hm n ⟨sc, mc, fe⟩ =
      (⟨sc + n, mc, fe⟩, env.snapshotExc (sc + (n - 1)), n) := by
  intro n
  induction n with
  | zero => intro sc mc fe h0; omega
  | succ n ih =>
    intro sc mc fe _
    rcases he : env.snapshotExc sc with _ | e
    · exfalso
      have := hAll sc
      rw [he] at this
      simp at this
    · have ha : attemptStore env ⟨sc, mc, fe⟩ hm = (⟨sc + 1, mc, fe⟩, some e) := by
        rw [attemptStore_fail hAll ⟨sc, mc, fe⟩ hm, he]
      rw [retryLoop_succ, ha]
      cases n with
      | zero => simp [he]
      | succ m =>
        show ((retryLoop env hm (m + 1) ⟨sc + 1, mc, fe⟩).1,
          (retryLoop env hm (m + 1) ⟨sc + 1, mc, fe⟩).2.1,
          (retryLoop env hm (m + 1) ⟨sc + 1, mc, fe⟩).2.2 + 1) = _
        rw [ih (sc + 1) mc fe (by omega)]
        show ((⟨sc + 1 + (m + 1), mc, fe⟩ : WorkerSt E),
          env.snapshotExc (sc + 1 + (m + 1 - 1)), m + 1 + 1) = _
        rw [show sc + 1 + (m + 1) = sc + (m + 1 + 1) from by omega,
          show sc + 1 + (m + 1 - 1) = sc + (m + 1 + 1 - 1) from by omega]

/-- The worker makes one attempts-count per consumed unit. -/
theorem runWorker_length {E O I M : Type} (env : StorageBehavior E) (mr : Nat) :
    ∀ (us : List (WorkUnit O I M)) (st : WorkerSt E),
    (runWorker env mr st us).2.length = us.length := by
  intro us
  induction us with
  | nil => intro st; simp [runWorker]
  | cons u rest ih => intro st; simp [runWorker, ih]

/-- C5: Every consumed unit is attempted at most `max_retries + 1` times;
if the backend fails on every call, the unit uses exactly `max_retries + 1`
attempts and the worker remembers the last attempt's exception in
`_failed_exception` without raising inline; the worker then continues —
one attempts-count per unit, for every unit of the queue — and the
remembered failure surfaces exactly at `shutdown()`, after the queue has
drained: `shutdown` raises it if present and returns normally otherwise. -/
theorem C5_worker_retries {E O I M : Type} :
    (∀ (env : StorageBehavior E) (mr : Nat) (st : WorkerSt E) (u : WorkUnit O I M),
      (processUnit env mr st u).2 ≤ mr + 1) ∧
    (∀ (env : StorageBehavior E) (mr : Nat) (st : WorkerSt E) (u : WorkUnit O I M),
      (∀ k, (env.snapshotExc k).isSome = true) →
      (processUnit env mr st u).2 = mr + 1 ∧
      (processUnit env mr st u).1.failedException = env.snapshotExc (st.snapCalls + mr)) ∧
    (∀ (env : StorageBehavior E) (mr : Nat) (st : WorkerSt E)
        (us : List (WorkUnit O I M)),
      (runWorker env mr st us).2.length = us.length) ∧
    (∀ (env : StorageBehavior E) (mr : Nat) (st : WorkerSt E)
        (queued : List (WorkUnit O I M)),
      (∀ e, (runWorker env mr st queued).1.failedException = some e →
        (workerShutdown env mr st queued).1 = Except.error e) ∧
      ((runWorker env mr st queued).1.failedException = none →
        (workerShutdown env mr st queued).1 = Except.ok ())) := by
  refine ⟨?_, ?_, ?_, ?_⟩
  · intro env mr st u
    have h := retryLoop_le env (!u.metrics.isEmpty) (mr + 1) st
    unfold processUnit
    rcases hr : retryLoop env (!u.metrics.isEmpty) (mr + 1) st with ⟨st1, oe, k⟩
    rw [hr] at h
    cases oe <;> simpa using h
  · intro env mr st u hAll
    obtain ⟨sc, mc, fe⟩ := st
    unfold processUnit
    rw [retryLoop_all_fail (!u.metrics.isEmpty) hAll (mr + 1) sc mc fe (by omega)]
    rcases he : env.snapshotExc (sc + mr) with _ | e
    · exfalso
      have := hAll (sc + mr)
      rw [he] at this
      simp at this
    · simp [Nat.add_sub_cancel, he]
  · intro env mr st us
    exact runWorker_length env mr us st
  · intro env mr st queued
    constructor
    · intro e he
      simp only [workerShutdown, he]
    · intro he
      simp only [workerShutdown, he]

/-- Witness for C5: a backend that always fails with exception `9` and two
allowed retries — three attempts, `9` remembered. -/
theorem C5_worker_retries_witness :
    (processUnit (⟨fun _ => some 9, fun _ => none⟩ : StorageBehavior Nat) 2
      ⟨0, 0, none⟩ (⟨[], [], "b", []⟩ : WorkUnit Nat Nat Nat)).2 = 2 + 1 ∧
    (processUnit (⟨fun _ => some 9, fun _ => none⟩ : StorageBehavior Nat) 2
      ⟨0, 0, none⟩ (⟨[], [], "b", []⟩ : WorkUnit Nat Nat Nat)).1.failedException
      = some 9 :=
  ⟨((C5_worker_retries (E := Nat) (O := Nat) (I := Nat) (M := Nat)).2.1
      ⟨fun _ => some 9, fun _ => none⟩ 2 ⟨0, 0, none⟩ ⟨[], [], "b", []⟩
      (fun _ => rfl)).1,
   ((C5_worker_retries (E := Nat) (O := Nat) (I := Nat) (M := Nat)).2.1
      ⟨fun _ => some 9, fun _ => none⟩ 2 ⟨0, 0, none⟩ ⟨[], [], "b", []⟩
      (fun _ => rfl)).2⟩

/-- `Snapper.__init__`'s concurrent-use guard condition (lines 58–62): the
`ValueError` is raised exactly when the resolved identifier is already
registered. -/
def constructRaises (st : RegState) (ident : String) : Bool :=
  st.registry.contains ident

/-- `List.contains` on strings is plain membership. -/
theorem strContains_iff {a : String} {l : List String} :
    l.contains a = true ↔ a ∈ l := by
  simp [List.contains, List.elem_iff]

/-- The registry invariant carried through single-teardown traces: object
identities are distinct, a released mark only comes from a teardown, live
unreleased orchestrators have pairwise distinct identifiers, and the
registry holds exactly the identifiers of the live unreleased
orchestrators. -/
def RegInv (st : RegState) (torn : List Nat) : Prop :=
  (st.instances.map RegInstance.iid).Nodup ∧
  (∀ inst ∈ st.instances, inst.released = true → inst.iid ∈ torn) ∧
  ((liveUnreleased st).map RegInstance.identifier).Nodup ∧
  (∀ a : String, st.registry.contains a = true ↔
    a ∈ (liveUnreleased st).map RegInstance.identifier)

/-- Marking one object released removes exactly its entries from the
unreleased filter. -/
theorem live_after_teardown (tid : Nat) :
    ∀ l : List RegInstance,
    ((l.map (fun i2 => if i2.iid == tid then { i2 with released := true } else i2)).filter
        (fun i => !i.released))
      = (l.filter (fun i => !i.released)).filter (fun i => !(i.iid == tid)) := by
  intro l
  induction l with
  | nil => rfl
  | cons i rest ih =>
    simp only [List.map_cons]
    cases hi : (i.iid == tid) with
    | true =>
      rw [if_pos rfl, List.filter_cons_of_neg (by simp), ih]
      cases hr : i.released with
      | true =>
        rw [List.filter_cons_of_neg (p := fun i : RegInstance => !i.released) (by simp [hr])]
      | false =>
        rw [List.filter_cons_of_pos (p := fun i : RegInstance => !i.released) (by simp [hr]),
          List.filter_cons_of_neg (p := fun i : RegInstance => !(i.iid == tid)) (by simp [hi])]
    | false =>
      rw [if_neg Bool.false_ne_true]
      cases hr : i.released with
      | true =>
        rw [List.filter_cons_of_neg (p := fun i : RegInstance => !i.released) (by simp [hr]),
          List.filter_cons_of_neg (p := fun i : RegInstance => !i.released) (by simp [hr]), ih]
      | false =>
        rw [List.filter_cons_of_pos (p := fun i : RegInstance => !i.released) (by simp [hr]),
          List.filter_cons_of_pos (p := fun i : RegInstance => !i.released) (by simp [hr]),
          List.filter_cons_of_pos (p := fun i : RegInstance => !(i.iid == tid)) (by simp [hi]), ih]

/-- A fresh construction preserves the registry invariant. -/
theorem regInv_construct (st : RegState) (torn : List Nat) (iid : Nat)
    (ident : String) (hinv : RegInv st torn)
    (hfresh : st.instances.any (fun i => i.iid == iid) = false) :
    RegInv (applyEvent st (.construct iid ident)) torn := by
  obtain ⟨hiid, hrel, hliveN, hreg⟩ := hinv
  simp only [applyEvent]
  cases hc : st.registry.contains ident with
  | true =>
    rw [if_pos rfl]
    exact ⟨hiid, hrel, hliveN, hreg⟩
  | false =>
    rw [if_neg Bool.false_ne_true]
    have hnot : ident ∉ (liveUnreleased st).map RegInstance.identifier := by
      intro hmem
      rw [← hreg ident] at hmem
      rw [hc] at hmem
      exact Bool.false_ne_true hmem
    have hfresh2 : ∀ i ∈ st.instances, i.iid ≠ iid := by
      intro i hi hne
      have h2 : st.instances.any (fun j => j.iid == iid) = true :=
        List.any_eq_true.2 ⟨i, hi, beq_iff_eq.2 hne⟩
      rw [hfresh] at h2
      exact Bool.false_ne_true h2
    have hlive' : liveUnreleased ⟨ident :: st.registry,
        st.instances ++ [⟨iid, ident, false⟩]⟩
        = liveUnreleased st ++ [⟨iid, ident, false⟩] := by
      simp [liveUnreleased, List.filter_append]
    refine ⟨?_, ?_, ?_, ?_⟩
    · simp only [List.map_append, List.nodup_append]
      refine ⟨hiid, by simp, ?_⟩
      intro a ha hb
      simp only [List.map_cons, List.map_nil, List.mem_singleton] at hb
      obtain ⟨i, hi, hia⟩ := List.mem_map.1 ha
      exact hfresh2 i hi (by rw [hia, hb])
    · intro inst hm hr
      rcases List.mem_append.1 hm with hm1 | hm2
      · exact hrel inst hm1 hr
      · simp only [List.mem_singleton] at hm2
        rw [hm2] at hr
        exact absurd hr (by simp)
    · rw [hlive']
      simp only [List.map_append, List.nodup_append]
      exact ⟨hliveN, by simp, by
        intro a ha hb
        simp only [List.map_cons, List.map_nil, List.mem_singleton] at hb
        exact hnot (hb ▸ ha)⟩
    · intro a
      rw [hlive']
      simp only [List.contains_cons, List.map_append, List.mem_append,
        Bool.or_eq_true, beq_iff_eq]
      rw [hreg a]
      simp only [List.map_cons, List.map_nil, List.mem_singleton]
      tauto

/-- A first teardown of a constructed object preserves the registry
invariant. -/
theorem regInv_teardown (st : RegState) (torn : List Nat) (tid : Nat)
    (hinv : RegInv st torn)
    (hmem : st.instances.any (fun i => i.iid == tid) = true)
    (htorn : tid ∉ torn) :
    RegInv (applyEvent st (.teardown tid)) (tid :: torn) := by
  obtain ⟨hiid, hrel, hliveN, hreg⟩ := hinv
  obtain ⟨inst0, hf⟩ : ∃ inst,
      st.instances.find? (fun i => i.iid == tid) = some inst := by
    cases hfe : st.instances.find? (fun i => i.iid == tid) with
    | some inst => exact ⟨inst, rfl⟩
    | none =>
      exfalso
      rw [List.find?_eq_none] at hfe
      obtain ⟨i, hi, hp⟩ := List.any_eq_true.1 hmem
      exact hfe i hi hp
  have hmem0 : inst0 ∈ st.instances := List.mem_of_find?_eq_some hf
  have hid0 : inst0.iid = tid := by
    have := List.find?_some hf
    simpa using this
  have hrel0 : inst0.released = false := by
    cases hr0 : inst0.released with
    | false => rfl
    | true => exact absurd (hid0 ▸ hrel inst0 hmem0 hr0) htorn
  have hsubinst : ∀ i ∈ liveUnreleased st, i ∈ st.instances := by
    intro i hi
    exact (List.mem_filter.1 hi).1
  have hlive0 : inst0 ∈ liveUnreleased st := by
    rw [liveUnreleased, List.mem_filter]
    exact ⟨hmem0, by simp [hrel0]⟩
  have hinj : ∀ ⦃x⦄, x ∈ st.instances → ∀ ⦃y⦄, y ∈ st.instances →
      RegInstance.iid x = RegInstance.iid y → x = y :=
    List.inj_on_of_nodup_map hiid
  have hinjL : ∀ ⦃x⦄, x ∈ liveUnreleased st → ∀ ⦃y⦄, y ∈ liveUnreleased st →
      RegInstance.identifier x = RegInstance.identifier y → x = y :=
    List.inj_on_of_nodup_map hliveN
  simp only [applyEvent, hf]
  have hmapiid : List.map RegInstance.iid (st.instances.map
      (fun i2 => if i2.iid == tid then { i2 with released := true } else i2))
      = List.map RegInstance.iid st.instances := by
    rw [List.map_map]
    refine List.map_congr_left ?_
    intro i _
    by_cases h : i.iid = tid <;> simp [h]
  have hlive' : liveUnreleased ⟨st.registry.filter (fun s => s ≠ inst0.identifier),
      st.instances.map
        (fun i2 => if i2.iid == tid then { i2 with released := true } else i2)⟩
      = (liveUnreleased st).filter (fun i => !(i.iid == tid)) := by
    rw [liveUnreleased, liveUnreleased]
    exact live_after_teardown tid st.instances
  refine ⟨?_, ?_, ?_, ?_⟩
  · rw [hmapiid]
    exact hiid
  · intro inst hm hr
    obtain ⟨i, hi, hfi⟩ := List.mem_map.1 hm
    by_cases h : (i.iid == tid) = true
    · have : inst.iid = i.iid := by rw [← hfi]; simp [h]
      rw [this]
      exact List.mem_cons.2 (Or.inl (by simpa using h))
    · have : inst = i := by rw [← hfi]; simp [h]
      rw [this]
      exact List.mem_cons.2 (Or.inr (hrel i hi (this ▸ hr)))
  · rw [hlive']
    exact List.Nodup.sublist ((List.filter_sublist _).map _) hliveN
  · intro a
    rw [hlive']
    constructor
    · intro hca
      have hmf := strContains_iff.1 hca
      rw [List.mem_filter] at hmf
      obtain ⟨har, hane⟩ := hmf
      have hane : a ≠ inst0.identifier := by simpa using hane
      have := (hreg a).1 (strContains_iff.2 har)
      obtain ⟨i, hiL, hia⟩ := List.mem_map.1 this
      refine List.mem_map.2 ⟨i, List.mem_filter.2 ⟨hiL, ?_⟩, hia⟩
      by_contra hcon
      simp only [Bool.not_eq_true, Bool.not_eq_false] at hcon
      have : i = inst0 := hinj (hsubinst i hiL) hmem0 (by
        rw [hid0]; simpa using hcon)
      exact hane (by rw [← hia, this])
    · intro hma
      obtain ⟨i, hif, hia⟩ := List.mem_map.1 hma
      rw [List.mem_filter] at hif
      obtain ⟨hiL, hneq⟩ := hif
      have hin : a ∈ st.registry := strContains_iff.1 ((hreg a).2
        (List.mem_map.2 ⟨i, hiL, hia⟩))
      refine strContains_iff.2 (List.mem_filter.2 ⟨hin, ?_⟩)
      simp only [decide_eq_true_eq]
      intro hae
      have : i = inst0 := hinjL hiL hlive0 (by rw [hia, hae])
      rw [this] at hneq
      simp [hid0] at hneq

/-- Any single-teardown trace leaves the invariant intact. -/
theorem regInv_run :
    ∀ (es : List RegEvent) (st : RegState) (torn : List Nat),
    wfEvents st torn es = true → RegInv st torn →
    ∃ torn2, RegInv (es.foldl applyEvent st) torn2 := by
  intro es
  induction es with
  | nil => exact fun st torn _ h => ⟨torn, h⟩
  | cons e rest ih =>
    intro st torn hwf hinv
    cases e with
    | construct iid ident =>
      simp only [wfEvents, Bool.and_eq_true, Bool.not_eq_true'] at hwf
      rw [List.foldl_cons]
      exact ih (applyEvent st (.construct iid ident)) torn hwf.2
        (regInv_construct st torn iid ident hinv hwf.1)
    | teardown iid =>
      simp only [wfEvents, Bool.and_eq_true, Bool.not_eq_true'] at hwf
      rw [List.foldl_cons]
      refine ih (applyEvent st (.teardown iid)) (iid :: torn) hwf.2
        (regInv_teardown st torn iid hinv hwf.1.1 ?_)
      intro hmem
      have h2 : torn.contains iid = true := by
        simp [List.contains, List.elem_iff, hmem]
      rw [hwf.1.2] at h2
      exact Bool.false_ne_true h2

/-- C6 (amended to single-teardown traces): along any trace in which each
teardown targets a constructed object not yet torn down, no two live
unreleased orchestrators are bound to the same storage identifier;
constructing over an identifier held by a live unreleased orchestrator
raises the concurrent-use error, and once no live unreleased orchestrator
holds the identifier a construction succeeds, registering the identifier
and the new instance at construction time. -/
theorem C6_registry_invariant (es : List RegEvent)
    (hwf : wfEvents ⟨[], []⟩ [] es = true) :
    ((liveUnreleased (runEvents es)).map RegInstance.identifier).Nodup ∧
    (∀ ident, (∃ inst ∈ liveUnreleased (runEvents es), inst.identifier = ident) →
      constructRaises (runEvents es) ident = true) ∧
    (∀ iid ident, (∀ inst ∈ liveUnreleased (runEvents es), inst.identifier ≠ ident) →
      constructRaises (runEvents es) ident = false ∧
      (applyEvent (runEvents es) (.construct iid ident)).registry
        = ident :: (runEvents es).registry ∧
      (applyEvent (runEvents es) (.construct iid ident)).instances
        = (runEvents es).instances ++ [⟨iid, ident, false⟩]) := by
  have hinit : RegInv ⟨[], []⟩ [] := by
    refine ⟨by simp [liveUnreleased], by simp, by simp [liveUnreleased], ?_⟩
    intro a
    simp [liveUnreleased, List.contains]
  obtain ⟨torn2, hinv⟩ := regInv_run es ⟨[], []⟩ [] hwf hinit
  obtain ⟨hiid, hrel, hliveN, hreg⟩ := hinv
  refine ⟨hliveN, ?_, ?_⟩
  · intro ident hex
    obtain ⟨inst, hm, hi⟩ := hex
    exact (hreg ident).2 (List.mem_map.2 ⟨inst, hm, hi⟩)
  · intro iid ident hno
    have hc : constructRaises (runEvents es) ident = false := by
      cases hcc : constructRaises (runEvents es) ident with
      | false => rfl
      | true =>
        exfalso
        obtain ⟨inst, hm, hi⟩ := List.mem_map.1 ((hreg ident).1 hcc)
        exact hno inst hm hi
    have hnotin : ident ∉ (runEvents es).registry := by
      intro hmem
      have h3 : (runEvents es).registry.contains ident = true := strContains_iff.2 hmem
      rw [show (runEvents es).registry.contains ident
          = constructRaises (runEvents es) ident from rfl, hc] at h3
      exact Bool.false_ne_true h3
    refine ⟨hc, ?_, ?_⟩ <;> simp [applyEvent, hnotin]

/-- Witness for C6 at a release-then-rebind trace: construct on "X", tear it
down once, construct a second orchestrator on "X". -/
theorem C6_registry_invariant_witness :
    ((liveUnreleased (runEvents
      [RegEvent.construct 0 "X", RegEvent.teardown 0,
       RegEvent.construct 1 "X"])).map RegInstance.identifier).Nodup :=
  (C6_registry_invariant
    [RegEvent.construct 0 "X", RegEvent.teardown 0, RegEvent.construct 1 "X"]
    (by decide)).1

/-- C6 counterexample: the teardown paths are not idempotent — `__exit__`
followed by `__del__` on the same object discards the identifier twice, so
the second discard deregisters an identifier that a second live
orchestrator still holds, and a third construction over it succeeds: after
`construct 0 "X"; teardown 0; construct 1 "X"; teardown 0; construct 2 "X"`
two live unreleased orchestrators are bound to `"X"`. -/
theorem C6_registry_counterexample :
    ((liveUnreleased (runEvents
      [RegEvent.construct 0 "X", RegEvent.teardown 0, RegEvent.construct 1 "X",
       RegEvent.teardown 0, RegEvent.construct 2 "X"])).map
      RegInstance.identifier) = ["X", "X"] := by
  decide

/-- Orchestrator-loop step: an already-processed key is passed over. -/
theorem runLoop_cons_drop {E : Type} {fn : PyVal → Except E PyVal} {bs : Nat}
    {mw : Option Nat} {item : PyVal} {s : List HVal}
    (hk : keepItem s item = false) (rest : List PyVal) (bp : BatchSt)
    (calls : List PyVal) :
    runLoop fn bs mw (item :: rest) s bp calls = runLoop fn bs mw rest s bp calls := by
  simp only [runLoop, hk, Bool.false_eq_true, if_false]

/-- Orchestrator-loop step: a kept item is invoked, marked processed, and
its pair buffered. -/
theorem runLoop_cons_ok {E : Type} {fn : PyVal → Except E PyVal} {bs : Nat}
    {mw : Option Nat} {item r : PyVal} {s : List HVal}
    (hk : keepItem s item = true) (hfn : fn item = Except.ok r)
    (rest : List PyVal) (bp : BatchSt) (calls : List PyVal) :
    runLoop fn bs mw (item :: rest) s bp calls =
      runLoop fn bs mw rest (markProcessed s item)
        (bpAddItem bs mw bp (item, r) 0) (calls ++ [item]) := by
  simp only [runLoop, hk, if_true, hfn]

/-- Orchestrator-loop step: an exception from the user function stops the
loop at once. -/
theorem runLoop_cons_err {E : Type} {fn : PyVal → Except E PyVal} {bs : Nat}
    {mw : Option Nat} {item : PyVal} {s : List HVal} {e : E}
    (hk : keepItem s item = true) (hfn : fn item = Except.error e)
    (rest : List PyVal) (bp : BatchSt) (calls : List PyVal) :
    runLoop fn bs mw (item :: rest) s bp calls = (s, bp, calls ++ [item], some e) := by
  simp only [runLoop, hk, if_true, hfn]

/-- C2: `mark_processed` adds the canonical key to the membership set
immediately, so a later occurrence of the same value (by Python `==`, for
well-formed values) in the same pass is skipped; in particular running the
loop over `[a, a, b]` with distinct keys for `a` and `b` invokes the user
function exactly twice, on `a` and then `b`. -/
theorem C2_duplicate_collapse {E : Type} :
    (∀ (s : List HVal) (x : PyVal) (h : HVal), canonKey x = some h →
      memH h (markProcessed s x) = true) ∧
    (∀ (s : List HVal) (x y : PyVal), wfP x = true → wfP y = true →
      pyEq x y = true → canonKey x ≠ none →
      keepItem (markProcessed s x) y = false) ∧
    (∀ (fn : PyVal → Except E PyVal) (bs : Nat) (mw : Option Nat)
        (bp : BatchSt) (a b : PyVal) (ha hb : HVal) (ra rb : PyVal),
      canonKey a = some ha → canonKey b = some hb → pyHEq ha hb = false →
      fn a = Except.ok ra → fn b = Except.ok rb →
      ∃ s2 bp2, runLoop fn bs mw [a, a, b] [] bp [] = (s2, bp2, [a, b], none)) := by
  refine ⟨?_, ?_, ?_⟩
  · intro s x h hc
    simp only [markProcessed, hc]
    exact memH_setAdd_self h s
  · intro s x y hwx hwy heq hcx
    rcases pyEq_canon x y hwx hwy heq with ⟨hn, _⟩ | ⟨hx, hy, hcx2, hcy2, hrel⟩
    · exact absurd hn hcx
    · simp only [markProcessed, hcx2, keepItem, hcy2]
      have hyx : pyHEq hy hx = true := by rw [pyHEq_symm]; exact hrel
      unfold setAdd
      cases hm : memH hx s with
      | true =>
        rw [if_pos rfl, memH_congr hyx s, hm]
        rfl
      | false =>
        rw [if_neg Bool.false_ne_true]
        simp [memH, hyx]
  · intro fn bs mw bp a b ha hb ra rb hca hcb hne hfa hfb
    have hm : markProcessed [] a = [ha] := by
      simp [markProcessed, hca, setAdd, memH]
    have hk2 : keepItem (markProcessed [] a) a = false := by
      rw [hm]
      simp [keepItem, hca, memH, pyHEq_refl]
    have hba : pyHEq hb ha = false := by rw [pyHEq_symm]; exact hne
    have hk3 : keepItem (markProcessed [] a) b = true := by
      rw [hm]
      simp [keepItem, hcb, memH, hba]
    refine ⟨markProcessed (markProcessed [] a) b,
      bpAddItem bs mw (bpAddItem bs mw bp (a, ra) 0) (b, rb) 0, ?_⟩
    rw [runLoop_cons_ok (keepItem_nil a) hfa,
      runLoop_cons_drop hk2,
      runLoop_cons_ok hk3 hfb]
    simp [runLoop]

/-- Witness for C2 on `[1, 1, 2]` under the identity function. -/
theorem C2_duplicate_collapse_witness :
    ∃ s2 bp2,
      runLoop (fun v => (Except.ok v : Except Unit PyVal)) 10 none
        [PyVal.int 1, PyVal.int 1, PyVal.int 2] [] ⟨[], [], none⟩ [] =
      (s2, bp2, [PyVal.int 1, PyVal.int 2], none) :=
  (C2_duplicate_collapse (E := Unit)).2.2
    (fun v => Except.ok v) 10 none ⟨[], [], none⟩
    (PyVal.int 1) (PyVal.int 2) (HVal.int 1) (HVal.int 2)
    (PyVal.int 1) (PyVal.int 2)
    (by simp [canonKey]) (by simp [canonKey]) (by simp [pyHEq]) rfl rfl

/-- C8: When `start()` halts with an exception, the shutdown path does not
implicitly flush: the accumulator buffer at the moment of the halt comes
back exactly as the loop left it, the units handed to the durable-write
worker are exactly the loop's completed flushes, and the durable state
after the drain is the prior contents plus those completed flushes only —
the buffered-but-unflushed pairs are never handed to the durable-write
path. -/
theorem C8_halt_no_flush {E : Type} (fn : PyVal → Except E PyVal) (bs : Nat)
    (mw : Option Nat) (prior : List BatchEntry) (v : String) (sv : Option String)
    (iterable : List PyVal) (e : E)
    (hres : (snapperStart fn bs mw prior v sv iterable).error = some e) :
    (snapperStart fn bs mw prior v sv iterable).haltBatch =
      (runLoop fn bs mw iterable
        (initializeTracker v sv (prior.map Prod.fst)).1 ⟨[], [], none⟩ []).2.1.currentBatch ∧
    (snapperStart fn bs mw prior v sv iterable).flushedUnits =
      (runLoop fn bs mw iterable
        (initializeTracker v sv (prior.map Prod.fst)).1 ⟨[], [], none⟩ []).2.1.queued ∧
    (snapperStart fn bs mw prior v sv iterable).stored =
      prior ++ (snapperStart fn bs mw prior v sv iterable).flushedUnits.flatten := by
  rcases hl : runLoop fn bs mw iterable
      (initializeTracker v sv (prior.map Prod.fst)).1 ⟨[], [], none⟩ []
    with ⟨s, bp, calls, err⟩
  cases err with
  | none =>
    exfalso
    have h2 : (snapperStart fn bs mw prior v sv iterable).error = none := by
      simp only [snapperStart, hl]
    rw [h2] at hres
    exact Option.noConfusion hres
  | some e2 =>
    refine ⟨?_, ?_, ?_⟩ <;> simp only [snapperStart, hl]

/-- Witness for C8: a function failing on the first item — nothing beyond
the prior durable contents and completed flushes is stored. -/
theorem C8_halt_no_flush_witness :
    (snapperStart (fun _ => (Except.error 0 : Except Nat PyVal)) 2 none [] "v" none
      [PyVal.int 1]).stored =
      [] ++ (snapperStart (fun _ => (Except.error 0 : Except Nat PyVal)) 2 none []
        "v" none [PyVal.int 1]).flushedUnits.flatten :=
  (C8_halt_no_flush (fun _ => (Except.error 0 : Except Nat PyVal)) 2 none [] "v"
    none [PyVal.int 1] 0
    (by simp [snapperStart, runLoop, initializeTracker, loadProcessedSet,
      keepItem, canonKey, memH])).2.2

/-- Everything the accumulator has taken in: the units already handed over,
then the in-memory buffer. -/
def bpProduced (bp : BatchSt) : List BatchEntry :=
  bp.queued.flatten ++ bp.currentBatch

/-- `add_item` appends the entry to the produced pairs, whether or not it
triggers a flush. -/
theorem bpProduced_addItem (bs : Nat) (mw : Option Nat) (bp : BatchSt)
    (e : BatchEntry) (t : Nat) :
    bpProduced (bpAddItem bs mw bp e t) = bpProduced bp ++ [e] := by
  unfold bpAddItem
  have hne : (bp.currentBatch ++ [e]).isEmpty = false := by
    cases bp.currentBatch <;> rfl
  by_cases h1 : bp.lastFlushTime = none <;>
    simp only [h1, if_true, if_false, reduceIte] <;>
    split <;>
    simp [bpFlush, bpProduced, hne, List.flatten_append, List.append_assoc]

/-- Flushing hands the whole produced content over to the queue. -/
theorem bpFlush_flatten (bp : BatchSt) (t : Nat) :
    (bpFlush bp t).queued.flatten = bpProduced bp := by
  unfold bpFlush bpProduced
  cases hc : bp.currentBatch with
  | nil => simp
  | cons x l => simp [List.flatten_append]

/-- A member of `setAdd s h` was a member of `s` or equals the added key. -/
theorem memH_setAdd_cases {g h : HVal} {s : List HVal}
    (hm : memH g (setAdd s h) = true) :
    memH g s = true ∨ pyHEq g h = true := by
  unfold setAdd at hm
  by_cases hc : memH h s = true
  · rw [if_pos hc] at hm
    exact Or.inl hm
  · rw [if_neg hc] at hm
    simp only [memH, Bool.or_eq_true] at hm
    rcases hm with hm | hm
    · exact Or.inr hm
    · exact Or.inl hm

/-- Key-distinctness of buffered pairs: whenever both inputs are
canonicalizable, their keys differ. -/
def KeyDist (p q : BatchEntry) : Prop :=
  ∀ hp hq, canonKey p.1 = some hp → canonKey q.1 = some hq → pyHEq hp hq = false

/-- A run of the orchestrator loop whose user function succeeds on every
item: the loop completes with no error; the buffered pairs are exactly the
invoked items with their outputs, one per fresh canonical key in
first-occurrence order, with pairwise-distinct keys; the membership set
grows monotonically, ends up covering every canonicalizable item of the
iterable, and contains nothing but the initial keys and the buffered
inputs' keys. -/
theorem runLoop_ok_run {E : Type} (fn : PyVal → Except E PyVal) (bs : Nat)
    (mw : Option Nat) :
    ∀ (items : List PyVal) (s : List HVal) (bp : BatchSt) (calls : List PyVal),
    (∀ x ∈ items, ∃ r, fn x = Except.ok r) →
    ∃ (s2 : List HVal) (bp2 : BatchSt) (new : List BatchEntry),
      runLoop fn bs mw items s bp calls = (s2, bp2, calls ++ new.map Prod.fst, none) ∧
      bpProduced bp2 = bpProduced bp ++ new ∧
      (∀ p ∈ new, p.1 ∈ items ∧ fn p.1 = Except.ok p.2) ∧
      (∀ p ∈ new, ∀ hp, canonKey p.1 = some hp → memH hp s = false) ∧
      List.Pairwise KeyDist new ∧
      (∀ g, memH g s = true → memH g s2 = true) ∧
      (∀ x ∈ items, ∀ hx, canonKey x = some hx → memH hx s2 = true) ∧
      (∀ g, memH g s2 = true → memH g s = true ∨
        ∃ p ∈ new, ∃ hp, canonKey p.1 = some hp ∧ pyHEq g hp = true) := by
  intro items
  induction items with
  | nil =>
    intro s bp calls hok
    exact ⟨s, bp, [], by simp [runLoop], by simp [bpProduced], by simp, by simp,
      by simp, fun g hg => hg, by simp, fun g hg => Or.inl hg⟩
  | cons item rest ih =>
    intro s bp calls hok
    cases hk : keepItem s item with
    | false =>
      obtain ⟨s2, bp2, new, heq, hprod, hmemok, hfresh, hpair, hmono, hcov, hprov⟩ :=
        ih s bp calls (fun x hx => hok x (List.mem_cons_of_mem item hx))
      have hkey : ∀ h0, canonKey item = some h0 → memH h0 s = true := by
        intro h0 hc0
        simp only [keepItem, hc0] at hk
        simpa using hk
      refine ⟨s2, bp2, new, ?_, hprod, ?_, hfresh, hpair, hmono, ?_, hprov⟩
      · rw [runLoop_cons_drop hk rest bp calls]
        exact heq
      · exact fun p hp => ⟨List.mem_cons_of_mem item (hmemok p hp).1, (hmemok p hp).2⟩
      · intro x hxmem hxk hcx
        rcases List.mem_cons.1 hxmem with rfl | hxr
        · exact hmono hxk (hkey hxk hcx)
        · exact hcov x hxr hxk hcx
    | true =>
      obtain ⟨r, hr⟩ := hok item (List.mem_cons_self item rest)
      obtain ⟨s2, bp2, new, heq, hprod, hmemok, hfresh, hpair, hmono, hcov, hprov⟩ :=
        ih (markProcessed s item) (bpAddItem bs mw bp (item, r) 0) (calls ++ [item])
          (fun x hx => hok x (List.mem_cons_of_mem item hx))
      refine ⟨s2, bp2, (item, r) :: new, ?_, ?_, ?_, ?_, ?_, ?_, ?_, ?_⟩
      · rw [runLoop_cons_ok hk hr rest bp calls, heq]
        simp
      · rw [hprod, bpProduced_addItem]
        simp
      · intro p hp
        rcases List.mem_cons.1 hp with rfl | hpr
        · exact ⟨List.mem_cons_self item rest, hr⟩
        · exact ⟨List.mem_cons_of_mem item (hmemok p hpr).1, (hmemok p hpr).2⟩
      · intro p hp hkp hcp
        rcases List.mem_cons.1 hp with rfl | hpr
        · simp only [keepItem, hcp] at hk
          simpa using hk
        · cases hm : memH hkp s with
          | false => rfl
          | true =>
            have h2 := memH_markProcessed_mono item hm
            rw [hfresh p hpr hkp hcp] at h2
            exact (Bool.false_ne_true h2).elim
      · refine List.pairwise_cons.2 ⟨?_, hpair⟩
        intro q hq hp hq2 hcp hcq
        cases hrel : pyHEq hp hq2 with
        | false => rfl
        | true =>
          have hsym : pyHEq hq2 hp = true := by rw [pyHEq_symm]; exact hrel
          have h1 : memH hq2 (markProcessed s item) = true := by
            simp only [markProcessed, hcp]
            rw [memH_congr hsym (setAdd s hp)]
            exact memH_setAdd_self hp s
          rw [hfresh q hq hq2 hcq] at h1
          exact (Bool.false_ne_true h1).elim
      · intro g hg
        exact hmono g (memH_markProcessed_mono item hg)
      · intro x hxmem hxk hcx
        rcases List.mem_cons.1 hxmem with rfl | hxr
        · have h1 : memH hxk (markProcessed s x) = true := by
            simp only [markProcessed, hcx]
            exact memH_setAdd_self hxk s
          exact hmono hxk h1
        · exact hcov x hxr hxk hcx
      · intro g hg
        rcases hprov g hg with hg2 | hw
        · cases hcs : canonKey item with
          | none =>
            simp only [markProcessed, hcs] at hg2
            exact Or.inl hg2
          | some h0 =>
            simp only [markProcessed, hcs] at hg2
            rcases memH_setAdd_cases hg2 with hg3 | hg3
            · exact Or.inl hg3
            · exact Or.inr ⟨(item, r), List.mem_cons_self _ _, h0, hcs, hg3⟩
        · obtain ⟨p, hp, hpk, hck, hrel⟩ := hw
          exact Or.inr ⟨p, List.mem_cons_of_mem _ hp, hpk, hck, hrel⟩

/-- One step of the `input_to_output` fold, named for the proofs. -/
def b2oStep (m : List (HVal × PyVal)) (kv : PyVal × PyVal) : List (HVal × PyVal) :=
  match canonKey kv.1 with
  | some h => mapInsert m h kv.2
  | none => m

/-- `buildInputToOutput` is that fold over the zipped pairs. -/
theorem buildInputToOutput_eq (storedInputs allOutputs : List PyVal) :
    buildInputToOutput storedInputs allOutputs =
      (storedInputs.zip allOutputs).foldl b2oStep [] := rfl

/-- A lookup succeeds exactly when some entry's key matches. -/
theorem mapLookup_isSome_iff {m : List (HVal × PyVal)} {k : HVal} :
    (mapLookup m k).isSome = true ↔ ∃ kv ∈ m, pyHEq kv.1 k = true := by
  simp [mapLookup, List.find?_isSome]

/-- Inserting never loses a key. -/
theorem mapLookup_insert_mono {m : List (HVal × PyVal)} {k h : HVal} {v : PyVal}
    (hs : (mapLookup m k).isSome = true) :
    (mapLookup (mapInsert m h v) k).isSome = true := by
  rw [mapLookup_isSome_iff] at hs ⊢
  obtain ⟨kv, hm, hp⟩ := hs
  unfold mapInsert
  by_cases ha : (m.any fun kv => pyHEq kv.1 h) = true
  · rw [if_pos ha]
    refine ⟨if pyHEq kv.1 h then (kv.1, v) else kv, List.mem_map.2 ⟨kv, hm, rfl⟩, ?_⟩
    by_cases hh : pyHEq kv.1 h = true <;> simp [hh, hp]
  · rw [if_neg ha]
    exact ⟨kv, List.mem_append.2 (Or.inl hm), hp⟩

/-- After inserting under `h`, a `==`-equal key is found. -/
theorem mapLookup_insert_key {m : List (HVal × PyVal)} {k h : HVal} {v : PyVal}
    (hk : pyHEq k h = true) :
    (mapLookup (mapInsert m h v) k).isSome = true := by
  rw [mapLookup_isSome_iff]
  unfold mapInsert
  by_cases ha : (m.any fun kv => pyHEq kv.1 h) = true
  · rw [if_pos ha]
    obtain ⟨kv, hm, hp⟩ := List.any_eq_true.1 ha
    have htr : pyHEq kv.1 k = true :=
      pyHEq_trans kv.1 h k hp (by rw [pyHEq_symm]; exact hk)
    refine ⟨if pyHEq kv.1 h then (kv.1, v) else kv, List.mem_map.2 ⟨kv, hm, rfl⟩, ?_⟩
    by_cases hh : pyHEq kv.1 h = true <;> simp [hh, htr]
  · rw [if_neg ha]
    refine ⟨(h, v), List.mem_append.2 (Or.inr (List.mem_singleton.2 rfl)), ?_⟩
    rw [pyHEq_symm]
    exact hk

/-- Coverage of the `input_to_output` fold: a key `==`-matching some
canonicalizable zipped input is present in the final dict. -/
theorem buildFold_isSome :
    ∀ (zipped : List (PyVal × PyVal)) (acc : List (HVal × PyVal)) (k : HVal),
    ((mapLookup acc k).isSome = true ∨
      ∃ p ∈ zipped, ∃ hp, canonKey p.1 = some hp ∧ pyHEq k hp = true) →
    (mapLookup (zipped.foldl b2oStep acc) k).isSome = true := by
  intro zipped
  induction zipped with
  | nil =>
    intro acc k h
    rcases h with h | ⟨p, hp, _⟩
    · simpa using h
    · simp at hp
  | cons p rest ih =>
    intro acc k h
    rw [List.foldl_cons]
    cases hc : canonKey p.1 with
    | none =>
      have hstep : b2oStep acc p = acc := by simp [b2oStep, hc]
      rw [hstep]
      apply ih
      rcases h with h | ⟨q, hq, hkq, hck, hrel⟩
      · exact Or.inl h
      · rcases List.mem_cons.1 hq with rfl | hqr
        · rw [hc] at hck
          cases hck
        · exact Or.inr ⟨q, hqr, hkq, hck, hrel⟩
    | some h0 =>
      have hstep : b2oStep acc p = mapInsert acc h0 p.2 := by simp [b2oStep, hc]
      rw [hstep]
      apply ih
      rcases h with h | ⟨q, hq, hkq, hck, hrel⟩
      · exact Or.inl (mapLookup_insert_mono h)
      · rcases List.mem_cons.1 hq with rfl | hqr
        · rw [hc] at hck
          have hkq0 : hkq = h0 := by
            exact (Option.some_inj.1 hck.symm)
          left
          exact mapLookup_insert_key (hkq0 ▸ hrel)
        · exact Or.inr ⟨q, hqr, hkq, hck, hrel⟩

/-- With pairwise-distinct keys, the `input_to_output` fold never overwrites:
it is a plain keyed copy of the zipped pairs. -/
theorem buildFold_distinct :
    ∀ (zipped : List (PyVal × PyVal)) (acc : List (HVal × PyVal)),
    List.Pairwise KeyDist zipped →
    (∀ kv ∈ acc, ∀ p ∈ zipped, ∀ hp, canonKey p.1 = some hp →
      pyHEq kv.1 hp = false) →
    zipped.foldl b2oStep acc = acc ++ zipped.filterMap
      (fun p => (canonKey p.1).map (fun h => (h, p.2))) := by
  intro zipped
  induction zipped with
  | nil => intro acc _ _; simp
  | cons p rest ih =>
    intro acc hpair hacc
    rw [List.foldl_cons, List.filterMap_cons]
    obtain ⟨hhead, htail⟩ := List.pairwise_cons.1 hpair
    cases hc : canonKey p.1 with
    | none =>
      have hstep : b2oStep acc p = acc := by simp [b2oStep, hc]
      rw [hstep]
      simp only [Option.map_none']
      exact ih acc htail
        (fun kv hkv q hq hp hcq => hacc kv hkv q (List.mem_cons_of_mem p hq) hp hcq)
    | some h0 =>
      have hany : (acc.any fun kv => pyHEq kv.1 h0) = false := by
        cases hx : (acc.any fun kv => pyHEq kv.1 h0) with
        | false => rfl
        | true =>
          exfalso
          obtain ⟨kv, hkv, hp⟩ := List.any_eq_true.1 hx
          rw [hacc kv hkv p (List.mem_cons_self p rest) h0 hc] at hp
          exact Bool.false_ne_true hp
      have hstep : b2oStep acc p = acc ++ [(h0, p.2)] := by
        simp only [b2oStep, hc, mapInsert, hany, Bool.false_eq_true, if_false]
      rw [hstep]
      simp only [Option.map_some']
      rw [ih (acc ++ [(h0, p.2)]) htail ?_]
      · simp
      · intro kv hkv q hq hp hcq
        rcases List.mem_append.1 hkv with hkv1 | hkv2
        · exact hacc kv hkv1 q (List.mem_cons_of_mem p hq) hp hcq
        · rw [List.mem_singleton.1 hkv2]
          exact hhead q hq h0 hp hc hcq

/-- When every element's key exists, the keyed copy relates pointwise to its
source. -/
theorem filterMap_keys_forall₂ :
    ∀ (zipped : List (PyVal × PyVal)),
    (∀ p ∈ zipped, ∃ hp, canonKey p.1 = some hp) →
    List.Forall₂ (fun (p : PyVal × PyVal) (kv : HVal × PyVal) =>
      canonKey p.1 = some kv.1 ∧ kv.2 = p.2)
      zipped
      (zipped.filterMap (fun p => (canonKey p.1).map (fun h => (h, p.2)))) := by
  intro zipped
  induction zipped with
  | nil => intro _; exact List.Forall₂.nil
  | cons p rest ih =>
    intro hall
    obtain ⟨hp, hcp⟩ := hall p (List.mem_cons_self p rest)
    rw [List.filterMap_cons, hcp]
    exact List.Forall₂.cons ⟨hcp, rfl⟩
      (ih (fun q hq => hall q (List.mem_cons_of_mem p hq)))

/-- The first `==`-match decides a dict lookup. -/
theorem mapLookup_at :
    ∀ (m1 : List (HVal × PyVal)) (h : HVal) (v : PyVal)
      (m2 : List (HVal × PyVal)) (k : HVal),
    (∀ kv ∈ m1, pyHEq kv.1 k = false) → pyHEq h k = true →
    mapLookup (m1 ++ (h, v) :: m2) k = some v := by
  intro m1
  induction m1 with
  | nil =>
    intro h v m2 k _ hk
    rw [List.nil_append, mapLookup,
      List.find?_cons_of_pos (p := fun kv2 : HVal × PyVal => pyHEq kv2.1 k) m2
        (by exact hk)]
    rfl
  | cons kv m1 ih =>
    intro h v m2 k hm1 hk
    rw [List.cons_append, mapLookup,
      List.find?_cons_of_neg (p := fun kv2 : HVal × PyVal => pyHEq kv2.1 k) _
        (by simp [hm1 kv (List.mem_cons_self kv m1)])]
    exact ih h v m2 k (fun q hq => hm1 q (List.mem_cons_of_mem kv hq)) hk

/-- The output-collection fold of `_get_matching_outputs`, over an abstract
dict. -/
theorem gmFold_eq (m : List (HVal × PyVal)) :
    ∀ (cur : List PyVal) (acc : List PyVal),
    cur.foldl (fun acc inp =>
      match canonKey inp with
      | some h =>
        match mapLookup m h with
        | some out => acc ++ [out]
        | none => acc
      | none => acc) acc
    = acc ++ cur.filterMap (fun x => (canonKey x).bind (mapLookup m)) := by
  intro cur
  induction cur with
  | nil => intro acc; simp
  | cons x rest ih =>
    intro acc
    simp only [List.foldl_cons, List.filterMap_cons]
    cases hc : canonKey x with
    | none =>
      simp only [hc, Option.none_bind]
      exact ih acc
    | some h0 =>
      cases hl : mapLookup m h0 with
      | none =>
        simp only [hc, hl, Option.some_bind]
        exact ih acc
      | some out =>
        simp only [hc, hl, Option.some_bind]
        rw [ih (acc ++ [out])]
        simp

/-- `_get_matching_outputs` collects, in current-sequence order, the mapped
output of each current input whose key is present. -/
theorem getMatchingOutputs_eq (cur ins outs : List PyVal) :
    getMatchingOutputs cur ins outs = cur.filterMap (findOutput ins outs) := by
  have h := gmFold_eq (buildInputToOutput ins outs) cur []
  rw [List.nil_append] at h
  exact h

/-- A `filterMap` by a function defined on every element relates pointwise
to its source. -/
theorem filterMap_isSome_forall₂ {α β : Type} (g : α → Option β) :
    ∀ (l : List α), (∀ x ∈ l, (g x).isSome = true) →
    List.Forall₂ (fun x out => g x = some out) l (l.filterMap g) := by
  intro l
  induction l with
  | nil => intro _; exact List.Forall₂.nil
  | cons x rest ih =>
    intro hall
    obtain ⟨out, hout⟩ :=
      Option.isSome_iff_exists.1 (hall x (List.mem_cons_self x rest))
    rw [List.filterMap_cons, hout]
    exact List.Forall₂.cons hout
      (ih (fun y hy => hall y (List.mem_cons_of_mem x hy)))

/-- Zipping the two projections of a pair list restores it. -/
theorem zip_fst_snd {α β : Type} (l : List (α × β)) :
    (l.map Prod.fst).zip (l.map Prod.snd) = l := by
  rw [List.zip_map']
  simp

/-- `_inputs_match` is pointwise Python `==` over sequences of equal
length. -/
theorem inputsMatch_forall₂ {cur ins : List PyVal}
    (h : inputsMatch cur ins = true) :
    List.Forall₂ (fun c s => pyEq c s = true) cur ins := by
  unfold inputsMatch at h
  rw [Bool.and_eq_true] at h
  obtain ⟨hlen, hall⟩ := h
  rw [List.forall₂_iff_zip]
  refine ⟨by simpa using hlen, ?_⟩
  intro a b hab
  have h2 := List.all_eq_true.1 hall (a, b) hab
  simpa using h2

/-- Index form of the first-match property of a dict lookup. -/
theorem mapLookup_get_at :
    ∀ (m : List (HVal × PyVal)) (k : HVal) (i : Nat) (hi : i < m.length),
    (∀ j (hj : j < i), pyHEq (m.get ⟨j, lt_trans hj hi⟩).1 k = false) →
    pyHEq (m.get ⟨i, hi⟩).1 k = true →
    mapLookup m k = some (m.get ⟨i, hi⟩).2 := by
  intro m
  induction m with
  | nil => intro k i hi _ _; simp at hi
  | cons kv m ih =>
    intro k i hi hbefore hit
    cases i with
    | zero =>
      rw [mapLookup, List.find?_cons_of_pos (p := fun kv2 : HVal × PyVal => pyHEq kv2.1 k) _
        (by exact hit)]
      rfl
    | succ j =>
      have hhead : pyHEq kv.1 k = false := hbefore 0 (Nat.succ_pos j)
      rw [mapLookup, List.find?_cons_of_neg (p := fun kv2 : HVal × PyVal => pyHEq kv2.1 k) _
        (by simp [hhead])]
      have hj2 : j < m.length := Nat.lt_of_succ_lt_succ hi
      exact ih k j hj2
        (fun j2 hj2b => hbefore (j2 + 1) (Nat.succ_lt_succ hj2b)) hit

/-- A fully successful `start()` over empty prior storage: it completes,
stores one `(input, output)` pair per fresh canonical key, with
pairwise-distinct keys, and every canonicalizable item of the iterable has
a `==`-equal key among the stored inputs. -/
theorem snapperStart_ok_spec {E : Type} (fn : PyVal → Except E PyVal) (bs : Nat)
    (v : String) (S : List PyVal)
    (hok : ∀ x ∈ S, ∃ r, fn x = Except.ok r) :
    ∃ new : List BatchEntry,
      (snapperStart fn bs none [] v none S).error = none ∧
      (snapperStart fn bs none [] v none S).stored = new ∧
      (∀ p ∈ new, p.1 ∈ S ∧ fn p.1 = Except.ok p.2) ∧
      List.Pairwise KeyDist new ∧
      (∀ x ∈ S, ∀ hx, canonKey x = some hx →
        ∃ p ∈ new, ∃ hp, canonKey p.1 = some hp ∧ pyHEq hx hp = true) := by
  obtain ⟨s2, bp2, new, heq, hprod, hmemok, hfresh, hpair, hmono, hcov, hprov⟩ :=
    runLoop_ok_run fn bs none S [] ⟨[], [], none⟩ [] hok
  have hinit : (initializeTracker v none []).1 = [] := by
    simp [initializeTracker, loadProcessedSet]
  have hrun : snapperStart fn bs none [] v none S =
      { calls := [] ++ new.map Prod.fst, pset := s2,
        haltBatch := (bpFlush bp2 0).currentBatch,
        flushedUnits := (bpFlush bp2 0).queued,
        stored := [] ++ (bpFlush bp2 0).queued.flatten, error := none } := by
    simp only [snapperStart, List.map_nil, hinit, heq]
  have hstored : (snapperStart fn bs none [] v none S).stored = new := by
    rw [hrun]
    show [] ++ (bpFlush bp2 0).queued.flatten = new
    rw [List.nil_append, bpFlush_flatten, hprod]
    simp [bpProduced]
  refine ⟨new, by rw [hrun], hstored, hmemok, hpair, ?_⟩
  intro x hxS hx hcx
  rcases hprov hx (hcov x hxS hx hcx) with h | h
  · simp [memH] at h
  · exact h

/-- C1 (amended to canonicalizable inputs): after a run of `start()` over
`S` in which every element is well-formed, canonicalizable and processed
successfully, a fresh `load()` with the inputs permuted to `P` returns, in
the order of `P` and without consulting the user function (`load` never
receives it), exactly the output stored under each element's canonical key.
Without the canonicalizability hypothesis the property fails — see the
companion counterexample. -/
theorem C1_reorder_invariance {E : Type} (fn : PyVal → Except E PyVal) (bs : Nat)
    (v : String) (S P : List PyVal)
    (hwf : ∀ x ∈ S, wfP x = true)
    (hcanon : ∀ x ∈ S, canonKey x ≠ none)
    (hok : ∀ x ∈ S, ∃ r, fn x = Except.ok r)
    (hperm : S.Perm P) :
    (snapperStart fn bs none [] v none S).error = none ∧
    List.Forall₂
      (fun x out =>
        findOutput ((snapperStart fn bs none [] v none S).stored.map Prod.fst)
          ((snapperStart fn bs none [] v none S).stored.map Prod.snd) x = some out)
      P
      (snapperLoad none P
        ((snapperStart fn bs none [] v none S).stored.map Prod.fst)
        ((snapperStart fn bs none [] v none S).stored.map Prod.snd)) := by
  obtain ⟨new, herr, hstored, hmemok, hpair, hcover⟩ :=
    snapperStart_ok_spec fn bs v S hok
  refine ⟨herr, ?_⟩
  rw [hstored]
  have hzip : (new.map Prod.fst).zip (new.map Prod.snd) = new := zip_fst_snd new
  have hbuild : buildInputToOutput (new.map Prod.fst) (new.map Prod.snd)
      = new.filterMap (fun p => (canonKey p.1).map (fun h => (h, p.2))) := by
    rw [buildInputToOutput_eq, hzip]
    exact buildFold_distinct new [] hpair (by simp)
  have hSP : ∀ x ∈ P, x ∈ S := fun x hx => (hperm.mem_iff).2 hx
  have hkeysome : ∀ x ∈ S, ∃ hx, canonKey x = some hx := by
    intro x hx
    rcases hq : canonKey x with _ | k
    · exact absurd hq (hcanon x hx)
    · exact ⟨k, rfl⟩
  have hnewS : ∀ p ∈ new, p.1 ∈ S := fun p hp => (hmemok p hp).1
  have hnewkeys : ∀ p ∈ new, ∃ hp, canonKey p.1 = some hp :=
    fun p hp => hkeysome p.1 (hnewS p hp)
  have hfind : ∀ x ∈ P,
      (findOutput (new.map Prod.fst) (new.map Prod.snd) x).isSome = true := by
    intro x hx
    obtain ⟨hx0, hcx⟩ := hkeysome x (hSP x hx)
    obtain ⟨p, hpnew, hp, hckp, hrel⟩ := hcover x (hSP x hx) hx0 hcx
    simp only [findOutput, hcx, Option.some_bind]
    rw [buildInputToOutput_eq, hzip]
    exact buildFold_isSome new [] hx0 (Or.inr ⟨p, hpnew, hp, hckp, hrel⟩)
  by_cases hSnil : S = []
  · subst hSnil
    have hPnil : P = [] := List.Perm.eq_nil hperm.symm
    have hnew : new = [] := by
      rw [List.eq_nil_iff_forall_not_mem]
      intro p hp
      exact absurd (hnewS p hp) (List.not_mem_nil _)
    subst hPnil
    rw [hnew]
    simp only [List.map_nil, snapperLoad, List.isEmpty_nil, if_true]
    exact List.Forall₂.nil
  · obtain ⟨x0, hx0S⟩ := List.exists_mem_of_ne_nil S hSnil
    obtain ⟨k0, hk0⟩ := hkeysome x0 hx0S
    obtain ⟨p0, hp0new, _, _, _⟩ := hcover x0 hx0S k0 hk0
    have hine : (new.map Prod.fst).isEmpty = false := by
      cases new with
      | nil => exact absurd hp0new (List.not_mem_nil _)
      | cons a l => rfl
    simp only [snapperLoad, hine, Bool.false_eq_true, if_false]
    cases hm : inputsMatch P (new.map Prod.fst) with
    | false =>
      simp only [Bool.false_eq_true, if_false]
      rw [getMatchingOutputs_eq]
      exact filterMap_isSome_forall₂
        (findOutput (new.map Prod.fst) (new.map Prod.snd)) P hfind
    | true =>
      simp only [if_true]
      have hmatch := inputsMatch_forall₂ hm
      have hbf : List.Forall₂ (fun (p : PyVal × PyVal) (kv : HVal × PyVal) =>
          canonKey p.1 = some kv.1 ∧ kv.2 = p.2) new
          (buildInputToOutput (new.map Prod.fst) (new.map Prod.snd)) := by
        rw [hbuild]
        exact filterMap_keys_forall₂ new hnewkeys
      obtain ⟨hlenPB, hgetPB⟩ := List.forall₂_iff_get.1 hmatch
      obtain ⟨hlenNB, hgetNB⟩ := List.forall₂_iff_get.1 hbf
      rw [List.forall₂_iff_get]
      have hlenPN : P.length = new.length := by simpa using hlenPB
      refine ⟨by simpa using hlenPN, ?_⟩
      intro i h1 h2
      have hiN : i < new.length := by simpa using h2
      have hpeq : pyEq (P.get ⟨i, h1⟩) ((new.get ⟨i, hiN⟩).1) = true := by
        have h3 := hgetPB i h1 (by simpa using hiN)
        simpa [List.get_map] using h3
      obtain ⟨hx, hcx⟩ := hkeysome (P.get ⟨i, h1⟩) (hSP _ (List.get_mem P i h1))
      have hmemN : new.get ⟨i, hiN⟩ ∈ new := List.get_mem new i hiN
      have hwfx : wfP (P.get ⟨i, h1⟩) = true := hwf _ (hSP _ (List.get_mem P i h1))
      have hwfy : wfP ((new.get ⟨i, hiN⟩).1) = true := hwf _ (hnewS _ hmemN)
      rcases pyEq_canon _ _ hwfx hwfy hpeq with ⟨hn, _⟩ | ⟨ha, hb, hca2, hcb2, hab⟩
      · rw [hcx] at hn
        cases hn
      · have hbLen :
            i < (buildInputToOutput (new.map Prod.fst) (new.map Prod.snd)).length := by
          rw [← hlenNB]
          exact hiN
        have hbi := hgetNB i hiN hbLen
        have hbkey :
            ((buildInputToOutput (new.map Prod.fst) (new.map Prod.snd)).get
              ⟨i, hbLen⟩).1 = hb := by
          have h4 := hbi.1
          rw [hcb2] at h4
          exact (Option.some_inj.1 h4).symm
        have hlook :
            mapLookup (buildInputToOutput (new.map Prod.fst) (new.map Prod.snd)) ha
            = some ((buildInputToOutput (new.map Prod.fst) (new.map Prod.snd)).get
                ⟨i, hbLen⟩).2 := by
          apply mapLookup_get_at _ ha i hbLen
          · intro j hj
            cases hrel2 : pyHEq
                (((buildInputToOutput (new.map Prod.fst) (new.map Prod.snd)).get
                  ⟨j, lt_trans hj hbLen⟩).1) ha with
            | false => rfl
            | true =>
              exfalso
              have hjN : j < new.length := by
                rw [hlenNB]
                exact lt_trans hj hbLen
              have hbj := hgetNB j hjN (lt_trans hj hbLen)
              have h5 : pyHEq
                  (((buildInputToOutput (new.map Prod.fst) (new.map Prod.snd)).get
                    ⟨j, lt_trans hj hbLen⟩).1)
                  (((buildInputToOutput (new.map Prod.fst) (new.map Prod.snd)).get
                    ⟨i, hbLen⟩).1) = true := by
                rw [hbkey]
                exact pyHEq_trans _ ha hb hrel2 hab
              have hpw := List.pairwise_iff_get.1 hpair ⟨j, hjN⟩ ⟨i, hiN⟩
                (Fin.mk_lt_mk.2 hj)
              have h6 := hpw _ _ hbj.1 hbi.1
              rw [h6] at h5
              exact Bool.false_ne_true h5
          · rw [hbkey, pyHEq_symm]
            exact hab
        simp only [findOutput, hca2, Option.some_bind]
        rw [hlook, hbi.2]
        rw [List.get_map]

/-- Witness for C1: run over `[1, 2]`, load over `[2, 1]`. -/
theorem C1_reorder_invariance_witness :
    (snapperStart (fun x => (Except.ok x : Except Unit PyVal)) 10 none [] "v" none
      [PyVal.int 1, PyVal.int 2]).error = none ∧
    List.Forall₂
      (fun x out =>
        findOutput
          ((snapperStart (fun x => (Except.ok x : Except Unit PyVal)) 10 none []
            "v" none [PyVal.int 1, PyVal.int 2]).stored.map Prod.fst)
          ((snapperStart (fun x => (Except.ok x : Except Unit PyVal)) 10 none []
            "v" none [PyVal.int 1, PyVal.int 2]).stored.map Prod.snd) x = some out)
      [PyVal.int 2, PyVal.int 1]
      (snapperLoad none [PyVal.int 2, PyVal.int 1]
        ((snapperStart (fun x => (Except.ok x : Except Unit PyVal)) 10 none []
          "v" none [PyVal.int 1, PyVal.int 2]).stored.map Prod.fst)
        ((snapperStart (fun x => (Except.ok x : Except Unit PyVal)) 10 none []
          "v" none [PyVal.int 1, PyVal.int 2]).stored.map Prod.snd)) :=
  C1_reorder_invariance (fun x => Except.ok x) 10 "v"
    [PyVal.int 1, PyVal.int 2] [PyVal.int 2, PyVal.int 1]
    (by
      intro x hx
      simp only [List.mem_cons, List.not_mem_nil, or_false] at hx
      rcases hx with rfl | rfl <;> simp [wfP])
    (by
      intro x hx
      simp only [List.mem_cons, List.not_mem_nil, or_false] at hx
      rcases hx with rfl | rfl <;> simp [canonKey])
    (fun x _ => ⟨x, rfl⟩)
    (List.Perm.swap (PyVal.int 2) (PyVal.int 1) [])

/-- C1 counterexample: with an unhashable input the reorder invariance
fails.  `S = [u, 1]` (`u` an unhashable opaque value) is fully processed
and recorded by a successful `start()` under the identity function — both
pairs reach durable storage — yet a fresh `load()` over the permutation
`P = [1, u]` returns a single output: `u` is skipped both when the
`input_to_output` dict is built and when the current inputs are looked up,
so the result cannot be the stored output of each element of `P` in
order. -/
theorem C1_reorder_counterexample :
    [PyVal.uobj 0, PyVal.int 1].Perm [PyVal.int 1, PyVal.uobj 0] ∧
    (snapperStart (fun x => (Except.ok x : Except Unit PyVal)) 10 none [] "v" none
      [PyVal.uobj 0, PyVal.int 1]).error = none ∧
    (snapperStart (fun x => (Except.ok x : Except Unit PyVal)) 10 none [] "v" none
      [PyVal.uobj 0, PyVal.int 1]).stored =
      [(PyVal.uobj 0, PyVal.uobj 0), (PyVal.int 1, PyVal.int 1)] ∧
    snapperLoad none [PyVal.int 1, PyVal.uobj 0]
      [PyVal.uobj 0, PyVal.int 1] [PyVal.uobj 0, PyVal.int 1] = [PyVal.int 1] ∧
    (snapperLoad none [PyVal.int 1, PyVal.uobj 0]
      [PyVal.uobj 0, PyVal.int 1] [PyVal.uobj 0, PyVal.int 1]).length ≠
      [PyVal.int 1, PyVal.uobj 0].length := by
  refine ⟨List.Perm.swap (PyVal.int 1) (PyVal.uobj 0) [], ?_, ?_, ?_, ?_⟩
  · simp [snapperStart, runLoop, initializeTracker, loadProcessedSet, keepItem,
      canonKey, markProcessed, setAdd, memH, bpAddItem, bpIsWaitExceeded, bpFlush]
  · simp [snapperStart, runLoop, initializeTracker, loadProcessedSet, keepItem,
      canonKey, markProcessed, setAdd, memH, bpAddItem, bpIsWaitExceeded, bpFlush]
  · simp [snapperLoad, inputsMatch, pyEq, getMatchingOutputs, buildInputToOutput,
      mapInsert, mapLookup, canonKey, pyHEq, List.find?]
  · simp [snapperLoad, inputsMatch, pyEq, getMatchingOutputs, buildInputToOutput,
      mapInsert, mapLookup, canonKey, pyHEq, List.find?]
